import Mathlib

/-!
# lua-seri: the skynet value serialiser (`lualib-src/lua-seri.c`)

A shallow embedding of the packer (`pack_one`, `wb_*`, `seri`) and of the
unpacker (`rb_read`, `get_*`, `unpack_table`, `push_value`, `unpack_one`) and
theorems about them.

Conventions of the embedding.

* A C `int` is an `Int`; arithmetic that can leave the 32-bit range is wrapped
  with `wrap32`.  `size_t` values are `Nat`.
* A byte is a `Nat`; a byte buffer is a `List Nat`.  Multi-byte objects are laid
  out little-endian and pointers are 8 bytes wide (an LP64 little-endian host;
  the format is host-native).
* A `lua_Number` is a `double`, kept as its 64-bit IEEE-754 pattern (a `Nat`).
  The conversions between `int` and `double` that the source relies on are
  exact on 32-bit integers and are defined on the pattern.
* The Lua stack is not modelled: a function that reads the value at a stack
  index takes the value, and a function that pushes a value returns it.
* `luaL_error` is an `Except.error`.
-/

namespace LuaSeri

/-! ## Machine integers -/

/-- Conversion of an integer to a 32-bit signed `int` (two's complement wrap):
the value itself when it is in range, and `(x + 2^31) mod 2^32 - 2^31` in
general (`wrap32_eq`). -/
def wrap32 : Int → Int
  | .ofNat n =>
    if n < 2147483648 then .ofNat n
    else (Int.ofNat n + 2147483648) % 4294967296 - 2147483648
  | .negSucc n =>
    if n < 2147483648 then .negSucc n
    else (Int.negSucc n + 2147483648) % 4294967296 - 2147483648

/-- The 32-bit two's complement pattern of an `int`. -/
def toU32 (x : Int) : Nat := (x % 4294967296).toNat

/-- Conversion to `uint8_t`. -/
def toU8 (x : Nat) : Nat := x % 256

/-- The `n` bytes of the object holding `x`, lowest byte first. -/
def le_bytes : Nat → Nat → List Nat
  | 0, _ => []
  | n + 1, x => x % 256 :: le_bytes n (x / 256)

/-- The unsigned value of an object from its bytes, lowest byte first. -/
def le_val : List Nat → Nat
  | [] => 0
  | b :: bs => b + 256 * le_val bs

/-! ## Doubles, as IEEE-754 binary64 patterns -/

/-- The position of the highest set bit of `a` (0 for `a < 2`). -/
def bitlen : Nat → Nat → Nat
  | 0, _ => 0
  | f + 1, a => if a < 2 then 0 else bitlen f (a / 2) + 1

/-- The cast `(double)x` of an `int x`: exact, every 32-bit integer is a double. -/
def double_of_int (x : Int) : Nat :=
  if x = 0 then 0
  else
    let a := x.natAbs
    let p := bitlen 64 a
    (if x < 0 then 2 ^ 63 else 0) + (1023 + p) * 2 ^ 52 + (a * 2 ^ (52 - p) - 2 ^ 52)

/-- The value of a double rounded toward zero; `none` for infinities and NaN. -/
def double_trunc (n : Nat) : Option Int :=
  let e := n / 2 ^ 52 % 2048
  let m := n % 2 ^ 52
  if e = 2047 then none
  else
    let mag : Nat :=
      if e < 1023 then 0
      else if e ≤ 1075 then (2 ^ 52 + m) / 2 ^ (1075 - e)
      else (2 ^ 52 + m) * 2 ^ (e - 1075)
    some (if n / 2 ^ 63 % 2 = 1 then -(mag : Int) else (mag : Int))

/-- The cast `(int)d` of a double: truncation; a value outside the `int` range
(undefined in C) gives `INT_MIN`, as the x86-64 conversion does. -/
def double_to_int (n : Nat) : Int :=
  match double_trunc n with
  | some v => if -2147483648 ≤ v ∧ v < 2147483648 then v else -2147483648
  | none => -2147483648

/-- Whether a double is a NaN. -/
def double_isnan (n : Nat) : Bool :=
  n / 2 ^ 52 % 2048 = 2047 ∧ n % 2 ^ 52 ≠ 0

/-- Whether a double is `+0.0` or `-0.0`. -/
def double_iszero (n : Nat) : Bool := n % 2 ^ 63 = 0

/-- The C comparison `a == b` of two doubles: a NaN equals nothing, the two
zeros are equal, any other two doubles are equal when their patterns are. -/
def double_eq (a b : Nat) : Bool :=
  !double_isnan a && !double_isnan b && ((double_iszero a && double_iszero b) || a = b)

/-! ## Lua values -/

/-- A Lua value as the serialiser sees it.  A table is given by the elements
`t[1] .. t[lua_rawlen t]` and by its other key/value pairs in the order
`lua_next` yields them.  `other t` is a value of any other Lua type `t`
(function, full userdata, thread). -/
inductive Value where
  | nil
  | boolean (b : Bool)
  | number (n : Nat)
  | string (s : List Nat)
  | lightuserdata (p : Nat)
  | table (arr : List Value) (hash : List (Value × Value))
  | other (t : Nat)

/-- Lua's `lua_isnil`. -/
def Value.isnil : Value → Bool
  | .nil => true
  | _ => false

/-- Modelled from the spec: `lua_rawlen` on a table, the number of contiguous
integer-indexed elements the value model yields (spec §6). -/
def lua_rawlen (arr : List Value) : Nat := arr.length

/-- Modelled from the spec: `lua_rawgeti(L, index, i)`, the element `t[i]`,
`nil` when there is none. -/
def lua_rawgeti (arr : List Value) (i : Int) : Value :=
  if 1 ≤ i then arr.getD (i - 1).toNat Value.nil else Value.nil

/-- Modelled from the spec: the pairs a `lua_next` traversal yields, first the
integer-indexed elements that are not nil with their index as key, then the
remaining key/value pairs (spec §6). -/
def lua_next (arr : List Value) (hash : List (Value × Value)) : List (Value × Value) :=
  ((List.range arr.length).map
      (fun (i : Nat) => (Value.number (double_of_int ((i : Int) + 1)), arr.getD i Value.nil))).filter
    (fun kv => !kv.2.isnil) ++ hash

/-- Modelled from the spec: `lua_tointeger` on a number, the conversion of the
double to `lua_Integer` (64 bits wide); truncation, and the minimum integer
where the value does not fit. -/
def lua_tointeger (n : Nat) : Int :=
  match double_trunc n with
  | some v =>
    if -9223372036854775808 ≤ v ∧ v < 9223372036854775808 then v else -9223372036854775808
  | none => -9223372036854775808

/-! ## Constants -/

def TYPE_NIL : Nat := 0
def TYPE_BOOLEAN : Nat := 1
def TYPE_NUMBER : Nat := 2
def TYPE_USERDATA : Nat := 3
def TYPE_SHORT_STRING : Nat := 4
def TYPE_LONG_STRING : Nat := 5
def TYPE_TABLE : Nat := 6

def MAX_COOKIE : Int := 32
def BLOCK_SIZE : Int := 128
def MAX_DEPTH : Int := 32

/-- The macro `COMBINE_TYPE(t,v)`, `((t) | (v) << 3)`, on the 32-bit pattern of
the `int` operand `v`. -/
def COMBINE_TYPE (t : Nat) (v : Int) : Nat := t ||| ((toU32 v <<< 3) % 4294967296)

/-! ## Errors -/

/-- The errors the two entry points raise. -/
inductive Err where
  /-- `serialize can't pack too depth table` -/
  | too_depth
  /-- `Unsupport type %s to serialize`, with the Lua type -/
  | unsupport_type (t : Nat)
  /-- `Invalid serialize stream` -/
  | invalid_stream
  /-- `deserialize null pointer` -/
  | null_pointer
  /-- a memory error raised by the Lua allocator -/
  | memory
  /-- the recursion bound of the embedding was reached -/
  | fuel
  deriving DecidableEq, Repr

/-! ## The write buffer -/

/-- The `struct write_block` with its chain of blocks: `full` holds the blocks
from `head` up to the one before `current`, each given by the bytes written to
it; `current` holds the bytes written to the current block. -/
structure write_block where
  full : List (List Nat)
  current : List Nat
  len : Int
  ptr : Int

/-- The `wb_init` of the source. -/
def wb_init : write_block := { full := [], current := [], len := 0, ptr := 0 }

/-- The statement at `_again:`, a new block becomes the current one. -/
def wb_again (b : write_block) : write_block :=
  { b with full := b.full ++ [b.current], current := [], ptr := 0 }

/-- The `memcpy(b->current->buffer + b->ptr, buffer, n)` of `wb_push`. -/
def wb_memcpy (b : write_block) (buffer : List Nat) (n : Int) : write_block :=
  { b with current := b.current.take b.ptr.toNat ++ buffer.take n.toNat }

/-- The body of `wb_push` from the test `b->ptr <= BLOCK_SIZE - sz` on; each
`goto _again` is one recursive call. -/
def wb_push_loop : Nat → write_block → List Nat → Int → write_block
  | 0, b, _, _ => b
  | fuel + 1, b, buffer, sz =>
    if b.ptr ≤ BLOCK_SIZE - sz then
      let b1 := wb_memcpy b buffer sz
      { b1 with ptr := b1.ptr + sz, len := wrap32 (b1.len + sz) }
    else
      let copy := BLOCK_SIZE - b.ptr
      let b1 := wb_memcpy b buffer copy
      let b2 := { b1 with len := wrap32 (b1.len + copy) }
      wb_push_loop fuel (wb_again b2) (buffer.drop copy.toNat) (sz - copy)

/-- The `wb_push` of the source: append the first `sz` bytes of `buffer`. -/
def wb_push (b : write_block) (buffer : List Nat) (sz : Int) : write_block :=
  wb_push_loop (sz.toNat + 1) (if b.ptr = BLOCK_SIZE then wb_again b else b) buffer sz

/-- The bytes written to the chain so far, in order. -/
def wb_bytes (b : write_block) : List Nat := b.full.flatten ++ b.current

/-- The copy loop of `seri` over the chain starting at block `b`: the bytes of
the flat buffer. -/
def seri_copy : List (List Nat) → Int → List Nat
  | [], _ => []
  | b :: next, len =>
    if len > 0 then
      if len ≥ BLOCK_SIZE then b.take BLOCK_SIZE.toNat ++ seri_copy next (len - BLOCK_SIZE)
      else b.take len.toNat
    else []

/-- The `seri` of the source: the flat buffer and the size pushed to the caller. -/
def seri (chain : List (List Nat)) (len : Int) : List Nat × Int :=
  (seri_copy chain len, len)

/-! ## The packer -/

def wb_nil (wb : write_block) : write_block :=
  wb_push wb [toU8 TYPE_NIL] 1

def wb_boolean (wb : write_block) (boolean : Bool) : write_block :=
  wb_push wb [toU8 (COMBINE_TYPE TYPE_BOOLEAN (if boolean then 1 else 0))] 1

def wb_integer (wb : write_block) (v : Int) (type : Nat) : write_block :=
  if v = 0 then
    wb_push wb [toU8 (COMBINE_TYPE type 0)] 1
  else if v < 0 then
    let wb := wb_push wb [toU8 (COMBINE_TYPE type 4)] 1
    wb_push wb (le_bytes 4 (toU32 v)) 4
  else if v < 0x100 then
    let wb := wb_push wb [toU8 (COMBINE_TYPE type 1)] 1
    wb_push wb [toU8 (toU32 v)] 1
  else if v < 0x10000 then
    let wb := wb_push wb [toU8 (COMBINE_TYPE type 2)] 1
    wb_push wb (le_bytes 2 (toU32 v % 65536)) 2
  else
    let wb := wb_push wb [toU8 (COMBINE_TYPE type 4)] 1
    wb_push wb (le_bytes 4 (toU32 v)) 4

def wb_number (wb : write_block) (v : Nat) : write_block :=
  let wb := wb_push wb [toU8 (COMBINE_TYPE TYPE_NUMBER 8)] 1
  wb_push wb (le_bytes 8 v) 8

def wb_pointer (wb : write_block) (v : Nat) : write_block :=
  let wb := wb_push wb [toU8 TYPE_USERDATA] 1
  wb_push wb (le_bytes 8 v) 8

def wb_string (wb : write_block) (str : List Nat) (len : Int) : write_block :=
  if len < MAX_COOKIE then
    let wb := wb_push wb [toU8 (COMBINE_TYPE TYPE_SHORT_STRING len)] 1
    if len > 0 then wb_push wb str len else wb
  else
    let wb :=
      if len < 0x10000 then
        let wb := wb_push wb [toU8 (COMBINE_TYPE TYPE_LONG_STRING 2)] 1
        wb_push wb (le_bytes 2 (toU32 len % 65536)) 2
      else
        let wb := wb_push wb [toU8 (COMBINE_TYPE TYPE_LONG_STRING 4)] 1
        wb_push wb (le_bytes 4 (toU32 len)) 4
    wb_push wb str len

/-- The loop `for (i=1;i<=array_size;i++)` of `wb_table_array`, entered with
`i = array_size - n + 1`; `one` is `pack_one`. -/
def wb_table_array_loop (one : write_block → Value → Int → Except Err write_block)
    (arr : List Value) (array_size : Int) (depth : Int) :
    Nat → write_block → Except Err write_block
  | 0, wb => .ok wb
  | n + 1, wb =>
    match one wb (lua_rawgeti arr (array_size - n)) depth with
    | .error e => .error e
    | .ok wb => wb_table_array_loop one arr array_size depth n wb

/-- The `wb_table_array` of the source; returns the buffer and `array_size`. -/
def wb_table_array (one : write_block → Value → Int → Except Err write_block)
    (wb : write_block) (arr : List Value) (depth : Int) : Except Err (write_block × Int) :=
  let array_size : Int := wrap32 (lua_rawlen arr)
  let wb :=
    if array_size ≥ MAX_COOKIE - 1 then
      let wb := wb_push wb [toU8 (COMBINE_TYPE TYPE_TABLE (MAX_COOKIE - 1))] 1
      wb_integer wb array_size TYPE_NUMBER
    else
      wb_push wb [toU8 (COMBINE_TYPE TYPE_TABLE array_size)] 1
  match wb_table_array_loop one arr array_size depth array_size.toNat wb with
  | .error e => .error e
  | .ok wb => .ok (wb, array_size)

/-- The test of `wb_table_hash` that skips a key already written by
`wb_table_array`. -/
def hash_skip (key : Value) (array_size : Int) : Bool :=
  match key with
  | .number k =>
    let x := wrap32 (lua_tointeger k)
    double_eq k (double_of_int x) && decide (x > 0) && decide (x ≤ array_size)
  | _ => false

/-- The `while (lua_next(L, index) != 0)` loop of `wb_table_hash` over the
pairs still to come. -/
def wb_table_hash_loop (one : write_block → Value → Int → Except Err write_block)
    (depth : Int) (array_size : Int) : List (Value × Value) → write_block → Except Err write_block
  | [], wb => .ok wb
  | (k, v) :: rest, wb =>
    if hash_skip k array_size then wb_table_hash_loop one depth array_size rest wb
    else
      match one wb k depth with
      | .error e => .error e
      | .ok wb =>
        match one wb v depth with
        | .error e => .error e
        | .ok wb => wb_table_hash_loop one depth array_size rest wb

/-- The `wb_table_hash` of the source. -/
def wb_table_hash (one : write_block → Value → Int → Except Err write_block)
    (wb : write_block) (arr : List Value) (hash : List (Value × Value)) (depth : Int)
    (array_size : Int) : Except Err write_block :=
  match wb_table_hash_loop one depth array_size (lua_next arr hash) wb with
  | .error e => .error e
  | .ok wb => .ok (wb_nil wb)

/-- The `wb_table` of the source. -/
def wb_table (one : write_block → Value → Int → Except Err write_block)
    (wb : write_block) (arr : List Value) (hash : List (Value × Value)) (depth : Int) :
    Except Err write_block :=
  match wb_table_array one wb arr depth with
  | .error e => .error e
  | .ok (wb, array_size) => wb_table_hash one wb arr hash depth array_size

/-- The `pack_one` of the source.  The first argument bounds the recursion of
the embedding; the source recurses at most `MAX_DEPTH + 2` deep. -/
def pack_one : Nat → write_block → Value → Int → Except Err write_block
  | 0, _, _, _ => .error .fuel
  | fuel + 1, b, v, depth =>
    if depth > MAX_DEPTH then .error .too_depth
    else
      match v with
      | .nil => .ok (wb_nil b)
      | .number n =>
        let x : Int := wrap32 (lua_tointeger n)
        if double_eq (double_of_int x) n then .ok (wb_integer b x TYPE_NUMBER)
        else .ok (wb_number b n)
      | .boolean bo => .ok (wb_boolean b bo)
      | .string str => .ok (wb_string b str (wrap32 str.length))
      | .lightuserdata p => .ok (wb_pointer b p)
      | .table arr hash => wb_table (pack_one fuel) b arr hash (depth + 1)
      | .other t => .error (.unsupport_type t)

/-- The loop of `pack_from` over the values on the stack. -/
def pack_from : write_block → List Value → Except Err write_block
  | b, [] => .ok b
  | b, v :: rest =>
    match pack_one (MAX_DEPTH.toNat + 2) b v 0 with
    | .error e => .error e
    | .ok b => pack_from b rest

/-- The `_luaseri_pack` of the source: the flat buffer and its size, or the
error raised. -/
def _luaseri_pack (args : List Value) : Except Err (List Nat × Int) :=
  match pack_from wb_init args with
  | .error e => .error e
  | .ok wb => .ok (seri (wb.full ++ [wb.current]) wb.len)

/-! ## The unpacker -/

/-- The `struct read_block`: the caller's buffer, the bytes left and the
offset of the next byte. -/
structure read_block where
  buffer : List Nat
  len : Int
  ptr : Int

/-- The `rball_init` of the source. -/
def rball_init (buffer : List Nat) (size : Int) : read_block :=
  { buffer := buffer, len := size, ptr := 0 }

/-- The `rb_read` of the source: `none` for `NULL`, otherwise the offset of the
returned pointer in the buffer and the advanced cursor. -/
def rb_read (rb : read_block) (sz : Int) : Option (Int × read_block) :=
  if rb.len < sz then none
  else some (rb.ptr, { rb with ptr := wrap32 (rb.ptr + sz), len := wrap32 (rb.len - sz) })

/-- The `n` bytes at offset `p` of the buffer, what dereferencing a pointer
returned by `rb_read` reads. -/
def rb_deref (rb : read_block) (p : Int) (n : Nat) : List Nat :=
  (rb.buffer.drop p.toNat).take n

/-- The `get_integer` of the source. -/
def get_integer (rb : read_block) (cookie : Nat) : Except Err (Int × read_block) :=
  if cookie = 0 then .ok (0, rb)
  else if cookie = 1 then
    match rb_read rb 1 with
    | none => .error .invalid_stream
    | some (pn, rb) => .ok ((le_val (rb_deref rb pn 1) : Nat), rb)
  else if cookie = 2 then
    match rb_read rb 2 with
    | none => .error .invalid_stream
    | some (pn, rb) => .ok ((le_val (rb_deref rb pn 2) : Nat), rb)
  else if cookie = 4 then
    match rb_read rb 4 with
    | none => .error .invalid_stream
    | some (pn, rb) => .ok (wrap32 (le_val (rb_deref rb pn 4)), rb)
  else .error .invalid_stream

/-- The `get_number` of the source. -/
def get_number (rb : read_block) (cookie : Nat) : Except Err (Nat × read_block) :=
  if cookie = 8 then
    match rb_read rb 8 with
    | none => .error .invalid_stream
    | some (pn, rb) => .ok (le_val (rb_deref rb pn 8), rb)
  else
    match get_integer rb cookie with
    | .error e => .error e
    | .ok (x, rb) => .ok (double_of_int x, rb)

/-- The `get_pointer` of the source. -/
def get_pointer (rb : read_block) : Except Err (Nat × read_block) :=
  match rb_read rb 8 with
  | none => .error .invalid_stream
  | some (v, rb) => .ok (le_val (rb_deref rb v 8), rb)

/-- Modelled from the spec: `lua_pushlstring(L, p, len)` with an `int len`, the
text of the `len` bytes at `p`.  The length is converted to `size_t`, so a
negative `len` asks for a string of at least `2^64 - 2^31` bytes, which the
allocator refuses. -/
def lua_pushlstring (rb : read_block) (p : Int) (len : Int) : Except Err Value :=
  if len < 0 then .error .memory else .ok (.string (rb_deref rb p len.toNat))

/-- The `get_buffer` of the source. -/
def get_buffer (rb : read_block) (len : Int) : Except Err (Value × read_block) :=
  match rb_read rb len with
  | none => .error .invalid_stream
  | some (p, rb) =>
    match lua_pushlstring rb p len with
    | .error e => .error e
    | .ok v => .ok (v, rb)

/-- Modelled from the spec: `lua_rawseti(L, -2, i)` in the loop of
`unpack_table`, where `i` is the next index of the table under construction:
the aggregate builder's append-at-index (spec §6). -/
def lua_rawseti (arr : List Value) (v : Value) : List Value := arr ++ [v]

/-- Modelled from the spec: `lua_rawset(L, -3)` in the loop of `unpack_table`:
the aggregate builder's key/value insertion (spec §6). -/
def lua_rawset (hash : List (Value × Value)) (k v : Value) : List (Value × Value) :=
  hash ++ [(k, v)]

/-- The loop `for (i=1;i<=array_size;i++)` of `unpack_table` with `n`
iterations to go; `arr` holds the elements set so far.  `one` is
`unpack_one`. -/
def unpack_table_array (one : read_block → Except Err (Value × read_block)) :
    Nat → read_block → List Value → Except Err (List Value × read_block)
  | 0, rb, arr => .ok (arr, rb)
  | n + 1, rb, arr =>
    match one rb with
    | .error e => .error e
    | .ok (v, rb) => unpack_table_array one n rb (lua_rawseti arr v)

/-- The loop `for (;;)` of `unpack_table`; `hash` holds the pairs inserted so
far.  The first argument bounds the iterations of the embedding. -/
def unpack_table_hash (one : read_block → Except Err (Value × read_block)) :
    Nat → read_block → List (Value × Value) →
      Except Err (List (Value × Value) × read_block)
  | 0, _, _ => .error .fuel
  | fuel + 1, rb, hash =>
    match one rb with
    | .error e => .error e
    | .ok (k, rb) =>
      if k.isnil then .ok (hash, rb)
      else
        match one rb with
        | .error e => .error e
        | .ok (v, rb) => unpack_table_hash one fuel rb (lua_rawset hash k v)

/-- The `unpack_table` of the source; `lua_createtable` gives the empty table
the two loops fill. -/
def unpack_table (one : read_block → Except Err (Value × read_block))
    (rb : read_block) (array_size : Int) : Except Err (Value × read_block) :=
  let sized : Except Err (Int × read_block) :=
    if array_size = MAX_COOKIE - 1 then
      match rb_read rb 1 with
      | none => .error .invalid_stream
      | some (t, rb) =>
        let t := le_val (rb_deref rb t 1)
        if t &&& 7 ≠ TYPE_NUMBER then .error .invalid_stream
        else
          match get_number rb (t >>> 3) with
          | .error e => .error e
          | .ok (n, rb) => .ok (double_to_int n, rb)
    else .ok (array_size, rb)
  match sized with
  | .error e => .error e
  | .ok (array_size, rb) =>
    match unpack_table_array one array_size.toNat rb [] with
    | .error e => .error e
    | .ok (arr, rb) =>
      match unpack_table_hash one (rb.len.toNat + 1) rb [] with
      | .error e => .error e
      | .ok (hash, rb) => .ok (.table arr hash, rb)

/-- The `push_value` of the source; `one` is the `unpack_one` it recurses
into through `unpack_table`. -/
def push_value (one : read_block → Except Err (Value × read_block))
    (rb : read_block) (type : Nat) (cookie : Nat) : Except Err (Value × read_block) :=
  if type = TYPE_NIL then .ok (.nil, rb)
  else if type = TYPE_BOOLEAN then .ok (.boolean (cookie ≠ 0), rb)
  else if type = TYPE_NUMBER then
    match get_number rb cookie with
    | .error e => .error e
    | .ok (n, rb) => .ok (.number n, rb)
  else if type = TYPE_USERDATA then
    match get_pointer rb with
    | .error e => .error e
    | .ok (p, rb) => .ok (.lightuserdata p, rb)
  else if type = TYPE_SHORT_STRING then get_buffer rb cookie
  else if type = TYPE_LONG_STRING then
    if cookie = 2 then
      match rb_read rb 2 with
      | none => .error .invalid_stream
      | some (plen, rb) => get_buffer rb (le_val (rb_deref rb plen 2) : Nat)
    else
      if cookie ≠ 4 then .error .invalid_stream
      else
        match rb_read rb 4 with
        | none => .error .invalid_stream
        | some (plen, rb) => get_buffer rb (wrap32 (le_val (rb_deref rb plen 4)))
  else if type = TYPE_TABLE then unpack_table one rb cookie
  else .error .invalid_stream

/-- The `unpack_one` of the source.  The first argument bounds the nesting of
the embedding. -/
def unpack_one : Nat → read_block → Except Err (Value × read_block)
  | 0, _ => .error .fuel
  | fuel + 1, rb =>
    match rb_read rb 1 with
    | none => .error .invalid_stream
    | some (t, rb) =>
      let t := le_val (rb_deref rb t 1)
      push_value (unpack_one fuel) rb (t &&& 7) (t >>> 3)

/-- The argument of `_luaseri_unpack`: nothing or nil, a Lua string, or a
userdata pointer (`none` for `NULL`) with the integer length that follows it. -/
inductive UnpackArg where
  | none
  | string (s : List Nat)
  | userdata (buffer : Option (List Nat)) (len : Int)

/-- The loop `for (i=0;;i++)` of `_luaseri_unpack`; the values pushed so far are
`acc`.  The first argument bounds the iterations of the embedding. -/
def unpack_loop (depth : Nat) : Nat → read_block → List Value → Except Err (List Value)
  | 0, _, _ => .error .fuel
  | fuel + 1, rb, acc =>
    match rb_read rb 1 with
    | none => .ok acc
    | some (t, rb) =>
      let t := le_val (rb_deref rb t 1)
      match push_value (unpack_one depth) rb (t &&& 7) (t >>> 3) with
      | .error e => .error e
      | .ok (v, rb) => unpack_loop depth fuel rb (acc ++ [v])

/-- The `_luaseri_unpack` of the source: the values returned, or the error
raised. -/
def _luaseri_unpack (arg : UnpackArg) : Except Err (List Value) :=
  match arg with
  | .none => .ok []
  | .string s =>
    let len : Int := wrap32 s.length
    if len = 0 then .ok []
    else unpack_loop (len.toNat + 1) (len.toNat + 1) (rball_init s len) []
  | .userdata buffer len =>
    let len : Int := wrap32 len
    if len = 0 then .ok []
    else
      match buffer with
      | Option.none => .error .null_pointer
      | some buffer => unpack_loop (len.toNat + 1) (len.toNat + 1) (rball_init buffer len) []

/-- Unpacking what `_luaseri_pack` returned: the buffer pointer and the size. -/
def unpack_packed (r : Except Err (List Nat × Int)) : Except Err (List Value) :=
  match r with
  | .error e => .error e
  | .ok (buffer, sz) => _luaseri_unpack (.userdata (some buffer) sz)

/-! ## The bytes the packer appends

The functions below give, as plain byte lists, what the `wb_*` functions and
`pack_one` append to the write buffer; `pack_one_refines` proves that they do. -/

/-- The lead byte of a value: `COMBINE_TYPE(t,v)` stored in a `uint8_t`. -/
def tag (t : Nat) (v : Int) : Nat := toU8 (COMBINE_TYPE t v)

/-- The bytes `wb_integer` appends. -/
def enc_integer (v : Int) (type : Nat) : List Nat :=
  if v = 0 then [tag type 0]
  else if v < 0 then tag type 4 :: le_bytes 4 (toU32 v)
  else if v < 0x100 then [tag type 1, toU8 (toU32 v)]
  else if v < 0x10000 then tag type 2 :: le_bytes 2 (toU32 v % 65536)
  else tag type 4 :: le_bytes 4 (toU32 v)

/-- The bytes `wb_string` appends. -/
def enc_string (str : List Nat) (len : Int) : List Nat :=
  if len < MAX_COOKIE then
    tag TYPE_SHORT_STRING len :: (if len > 0 then str.take len.toNat else [])
  else
    (if len < 0x10000 then tag TYPE_LONG_STRING 2 :: le_bytes 2 (toU32 len % 65536)
     else tag TYPE_LONG_STRING 4 :: le_bytes 4 (toU32 len)) ++ str.take len.toNat

/-- The bytes the loop of `wb_table_array` appends, `enc` giving the bytes of
one value. -/
def enc_array_loop (enc : Value → Int → Except Err (List Nat))
    (arr : List Value) (array_size : Int) (depth : Int) : Nat → Except Err (List Nat)
  | 0 => .ok []
  | n + 1 =>
    match enc (lua_rawgeti arr (array_size - n)) depth with
    | .error e => .error e
    | .ok E =>
      match enc_array_loop enc arr array_size depth n with
      | .error e => .error e
      | .ok R => .ok (E ++ R)

/-- The bytes the loop of `wb_table_hash` appends. -/
def enc_hash_loop (enc : Value → Int → Except Err (List Nat))
    (depth : Int) (array_size : Int) : List (Value × Value) → Except Err (List Nat)
  | [] => .ok []
  | (k, v) :: rest =>
    if hash_skip k array_size then enc_hash_loop enc depth array_size rest
    else
      match enc k depth with
      | .error e => .error e
      | .ok K =>
        match enc v depth with
        | .error e => .error e
        | .ok V =>
          match enc_hash_loop enc depth array_size rest with
          | .error e => .error e
          | .ok R => .ok (K ++ V ++ R)

/-- The header `wb_table_array` appends for an array part of `array_size`. -/
def enc_table_header (array_size : Int) : List Nat :=
  if array_size ≥ MAX_COOKIE - 1 then
    tag TYPE_TABLE (MAX_COOKIE - 1) :: enc_integer array_size TYPE_NUMBER
  else [tag TYPE_TABLE array_size]

/-- The bytes `wb_table` appends. -/
def enc_table (enc : Value → Int → Except Err (List Nat))
    (arr : List Value) (hash : List (Value × Value)) (depth : Int) : Except Err (List Nat) :=
  let array_size : Int := wrap32 (lua_rawlen arr)
  match enc_array_loop enc arr array_size depth array_size.toNat with
  | .error e => .error e
  | .ok A =>
    match enc_hash_loop enc depth array_size (lua_next arr hash) with
    | .error e => .error e
    | .ok H => .ok (enc_table_header array_size ++ A ++ H ++ [toU8 TYPE_NIL])

/-- The bytes `pack_one` appends for a value at a depth, or the error it raises. -/
def encode : Nat → Value → Int → Except Err (List Nat)
  | 0, _, _ => .error .fuel
  | fuel + 1, v, depth =>
    if depth > MAX_DEPTH then .error .too_depth
    else
      match v with
      | .nil => .ok [toU8 TYPE_NIL]
      | .number n =>
        let x : Int := wrap32 (lua_tointeger n)
        if double_eq (double_of_int x) n then .ok (enc_integer x TYPE_NUMBER)
        else .ok (tag TYPE_NUMBER 8 :: le_bytes 8 n)
      | .boolean bo => .ok [tag TYPE_BOOLEAN (if bo then 1 else 0)]
      | .string str => .ok (enc_string str (wrap32 str.length))
      | .lightuserdata p => .ok (toU8 TYPE_USERDATA :: le_bytes 8 p)
      | .table arr hash => enc_table (encode fuel) arr hash (depth + 1)
      | .other t => .error (.unsupport_type t)

/-- The bytes `pack_from` appends for the values of a call. -/
def encode_all : List Value → Except Err (List Nat)
  | [] => .ok []
  | v :: rest =>
    match encode (MAX_DEPTH.toNat + 2) v 0 with
    | .error e => .error e
    | .ok E =>
      match encode_all rest with
      | .error e => .error e
      | .ok R => .ok (E ++ R)

/-- The bytes `pack_one` appends to a fresh buffer for a value at a depth. -/
def packed (fuel : Nat) (v : Value) (depth : Int) : Except Err (List Nat) :=
  match pack_one fuel wb_init v depth with
  | .error e => .error e
  | .ok b => .ok (wb_bytes b)

/-- The invariant of the write buffer: every block before the current one is
full, the current one holds `ptr` bytes, and `len` counts the bytes written. -/
structure wb_inv (b : write_block) : Prop where
  full_blocks : ∀ blk ∈ b.full, blk.length = 128
  cur_len : (b.current.length : Int) = b.ptr
  ptr_le : b.ptr ≤ 128
  len_eq : b.len = wrap32 ((wb_bytes b).length : Nat)

/-- A packing function appends to any buffer the bytes `enc` gives, or raises
the error `enc` gives. -/
def refines (one : write_block → Value → Int → Except Err write_block)
    (enc : Value → Int → Except Err (List Nat)) : Prop :=
  ∀ (b : write_block) (v : Value) (d : Int), wb_inv b →
    match enc v d with
    | .error e => one b v d = .error e
    | .ok E => ∃ b', one b v d = .ok b' ∧ wb_inv b' ∧ wb_bytes b' = wb_bytes b ++ E

/-- The read cursor over the buffer `pre ++ rest` once `pre` has been read. -/
def rb_at (pre rest : List Nat) : read_block :=
  { buffer := pre ++ rest, len := (rest.length : Nat), ptr := (pre.length : Nat) }

/-- The cookie `wb_integer` chooses for an `int`. -/
def int_cookie (v : Int) : Nat :=
  if v = 0 then 0 else if v < 0 then 4 else if v < 0x100 then 1 else if v < 0x10000 then 2 else 4

/-- The payload `wb_integer` writes after the lead byte. -/
def int_payload (v : Int) : List Nat :=
  if v = 0 then []
  else if v < 0 then le_bytes 4 (toU32 v)
  else if v < 0x100 then [toU8 (toU32 v)]
  else if v < 0x10000 then le_bytes 2 (toU32 v % 65536)
  else le_bytes 4 (toU32 v)

/-- The values that come back from a round trip exactly as they went in: numbers
are doubles other than the negative zero, pointers are 8 bytes wide, texts and
array parts are shorter than `2^31`, and the keys of a table outside its array
part are not nil and not indices of the array part. -/
inductive Exact : Value → Prop
  | nil : Exact .nil
  | boolean (b : Bool) : Exact (.boolean b)
  | number (n : Nat) (h : n < 18446744073709551616) (hz : n ≠ 9223372036854775808) :
      Exact (.number n)
  | string (s : List Nat) (h : s.length < 2147483648) : Exact (.string s)
  | lightuserdata (p : Nat) (h : p < 18446744073709551616) : Exact (.lightuserdata p)
  | table (arr : List Value) (hash : List (Value × Value))
      (hlen : arr.length < 2147483648)
      (harr : ∀ v ∈ arr, Exact v)
      (hkey : ∀ kv ∈ hash, Exact kv.1)
      (hval : ∀ kv ∈ hash, Exact kv.2)
      (hnil : ∀ kv ∈ hash, kv.1.isnil = false)
      (hskip : ∀ kv ∈ hash, hash_skip kv.1 (arr.length : Nat) = false) :
      Exact (.table arr hash)

/-- A decoding function reads the bytes `E` as the value `v` wherever they
stand in a buffer, and rejects a buffer that ends inside `E`. -/
structure dec_spec (one : read_block → Except Err (Value × read_block))
    (v : Value) (E : List Nat) : Prop where
  ok : ∀ (pre rest : List Nat), (pre ++ E ++ rest).length < 2147483648 →
    one (rb_at pre (E ++ rest)) = .ok (v, rb_at (pre ++ E) rest)
  fail : ∀ (pre q r : List Nat), E = q ++ r → r ≠ [] → (pre ++ q).length < 2147483648 →
    one (rb_at pre q) = .error .invalid_stream

/-- The same for `push_value`, once the lead byte has been read and split into
`type` and `cookie`: `payload` is what follows the lead byte. -/
structure push_spec (one : read_block → Except Err (Value × read_block))
    (v : Value) (type cookie : Nat) (payload : List Nat) : Prop where
  ok : ∀ (pre rest : List Nat), (pre ++ payload ++ rest).length < 2147483648 →
    push_value one (rb_at pre (payload ++ rest)) type cookie =
      .ok (v, rb_at (pre ++ payload) rest)
  fail : ∀ (pre q r : List Nat), payload = q ++ r → r ≠ [] →
    (pre ++ q).length < 2147483648 →
    push_value one (rb_at pre q) type cookie = .error .invalid_stream

/-- The first step of `unpack_table`: the array size, read from the stream when
the cookie is `MAX_COOKIE - 1`. -/
def unpack_table_size (rb : read_block) (array_size : Int) : Except Err (Int × read_block) :=
  if array_size = MAX_COOKIE - 1 then
    match rb_read rb 1 with
    | none => .error .invalid_stream
    | some (t, rb) =>
      let t := le_val (rb_deref rb t 1)
      if t &&& 7 ≠ TYPE_NUMBER then .error .invalid_stream
      else
        match get_number rb (t >>> 3) with
        | .error e => .error e
        | .ok (n, rb) => .ok (double_to_int n, rb)
  else .ok (array_size, rb)

/-- The bytes of the explicit array size that follow the lead byte of a table. -/
def size_field (s : Nat) : List Nat :=
  if s < 31 then [] else (TYPE_NUMBER + 8 * int_cookie s) :: int_payload s

/-- What the hash loop needs of the encodings of a key/value pair. -/
def pair_spec (one : read_block → Except Err (Value × read_block))
    (kv : Value × Value) (e : List Nat × List Nat) : Prop :=
  dec_spec one kv.1 e.1 ∧ dec_spec one kv.2 e.2 ∧ kv.1.isnil = false ∧ e.1 ≠ []

/-- The bytes of a list of encoded key/value pairs. -/
def pairs_bytes (es : List (List Nat × List Nat)) : List Nat :=
  (es.map (fun e => e.1 ++ e.2)).flatten

/-- The lead byte and payload of an encoding that `push_value` reads back as
`v`, with `one` for the values inside. -/
def stream_spec (one : read_block → Except Err (Value × read_block))
    (v : Value) (E : List Nat) : Prop :=
  ∃ t c payload, E = (t + 8 * c) :: payload ∧ t < 8 ∧ push_spec one v t c payload

/-- The value `v` inside `k` tables nested in one another: the innermost table
has `v` as its only element, each other table has the next table as its only
element. -/
def nested_in : Nat → Value → Value
  | 0, v => v
  | k + 1, v => .table [nested_in k v] []

/-- The header of a table with an array part of `s` elements, as the claims
describe it: the lead byte with cookie `s` when `s <= 30`, otherwise the lead
byte with cookie 31 followed by what `wb_integer` writes for `s`. -/
def table_header (s : Nat) : List Nat :=
  if s ≤ 30 then [TYPE_TABLE + 8 * s]
  else (TYPE_TABLE + 8 * 31) :: wb_bytes (wb_integer wb_init (s : Nat) TYPE_NUMBER)


/-- The cursor invariant of a read over `n` bytes: the offset and the remaining
length are non-negative and add up to `n`. -/
def rb_inv (n : Int) (rb : read_block) : Prop :=
  0 ≤ rb.ptr ∧ 0 ≤ rb.len ∧ rb.ptr + rb.len = n

/-- What a reading step started at `rb` may end in: a result with the cursor
invariant kept, at least `k` bytes consumed and the buffer unchanged, or one of
the two errors a stream can raise. -/
def rb_step {α : Type} (n : Int) (rb : read_block) (k : Int) :
    Except Err (α × read_block) → Prop
  | .ok (_, rb') => rb_inv n rb' ∧ rb'.len + k ≤ rb.len ∧ rb'.buffer = rb.buffer
  | .error e => e = .invalid_stream ∨ e = .memory

/-- A sequence of `wb_push` calls on a buffer: one call for each pair of a
source buffer and a size `sz`, in order. -/
def wb_push_all : write_block → List (List Nat × Int) → write_block
  | b, [] => b
  | b, p :: rest => wb_push_all (wb_push b p.1 p.2) rest

/-- The calls that append whole byte strings: `sz` is the length of the string. -/
def appends (bs : List (List Nat)) : List (List Nat × Int) :=
  bs.map (fun b => (b, (b.length : Int)))

/-- The bytes a sequence of `wb_push` calls is asked to append: the first `sz`
bytes of each source buffer. -/
def pushed_bytes (ps : List (List Nat × Int)) : List Nat :=
  (ps.map (fun p => p.1.take p.2.toNat)).flatten

/-- A value of a type outside the model occurs in a value where the packer
meets it: the value itself, or, in a table (whose array part has an `int`
length), an element of the array part, a key of the map part, or a value of the
map part under a key that `wb_table_hash` does not skip. -/
inductive Unsupported : Value → Prop
  | other (t : Nat) : Unsupported (.other t)
  | elem (arr : List Value) (hash : List (Value × Value)) (hlen : arr.length < 2147483648)
      (v : Value) (hv : v ∈ arr) (h : Unsupported v) : Unsupported (.table arr hash)
  | key (arr : List Value) (hash : List (Value × Value)) (hlen : arr.length < 2147483648)
      (kv : Value × Value) (hkv : kv ∈ hash) (h : Unsupported kv.1) :
      Unsupported (.table arr hash)
  | val (arr : List Value) (hash : List (Value × Value)) (hlen : arr.length < 2147483648)
      (kv : Value × Value) (hkv : kv ∈ hash)
      (hs : hash_skip kv.1 ((arr.length : Nat) : Int) = false) (h : Unsupported kv.2) :
      Unsupported (.table arr hash)

/-- A value whose tables are nested at most `k` deep: a value that is not a
table, or a table whose elements, keys and values have tables nested at most
`k - 1` deep. -/
inductive Within : Nat → Value → Prop
  | nil (k : Nat) : Within k .nil
  | boolean (k : Nat) (b : Bool) : Within k (.boolean b)
  | number (k : Nat) (n : Nat) : Within k (.number n)
  | string (k : Nat) (s : List Nat) : Within k (.string s)
  | lightuserdata (k : Nat) (p : Nat) : Within k (.lightuserdata p)
  | other (k : Nat) (t : Nat) : Within k (.other t)
  | table (k : Nat) (arr : List Value) (hash : List (Value × Value))
      (harr : ∀ v ∈ arr, Within k v)
      (hkey : ∀ kv ∈ hash, Within k kv.1)
      (hval : ∀ kv ∈ hash, Within k kv.2) : Within (k + 1) (.table arr hash)

/-- The values as the host has them: doubles and pointers are 8 bytes wide,
texts and array parts are shorter than `2^31` (their lengths are taken as
`int`), and no key of a table is nil. -/
inductive Sized : Value → Prop
  | nil : Sized .nil
  | boolean (b : Bool) : Sized (.boolean b)
  | number (n : Nat) (h : n < 18446744073709551616) : Sized (.number n)
  | string (s : List Nat) (h : s.length < 2147483648) : Sized (.string s)
  | lightuserdata (p : Nat) (h : p < 18446744073709551616) : Sized (.lightuserdata p)
  | table (arr : List Value) (hash : List (Value × Value))
      (hlen : arr.length < 2147483648)
      (harr : ∀ v ∈ arr, Sized v)
      (hkey : ∀ kv ∈ hash, Sized kv.1)
      (hval : ∀ kv ∈ hash, Sized kv.2)
      (hnil : ∀ kv ∈ hash, kv.1.isnil = false) :
      Sized (.table arr hash)
/-! ## Machine integer lemmas -/

/-- The function `wrap32` is reduction modulo `2^32` into the signed range. -/
theorem wrap32_eq (x : Int) : wrap32 x = (x + 2147483648) % 4294967296 - 2147483648 := by
  cases x with
  | ofNat n =>
    simp only [wrap32, Int.ofNat_eq_coe]
    split <;> omega
  | negSucc n =>
    simp only [wrap32, Int.negSucc_eq]
    split <;> omega

theorem wrap32_id {x : Int} (h1 : -2147483648 ≤ x) (h2 : x < 2147483648) : wrap32 x = x := by
  rw [wrap32_eq]; omega

theorem wrap32_wrap32_add (a b : Int) : wrap32 (wrap32 a + b) = wrap32 (a + b) := by
  simp only [wrap32_eq]; omega

/-! ## The write buffer appends -/

theorem wb_inv_init : wb_inv wb_init := by
  refine ⟨?_, ?_, ?_, ?_⟩
  · simp [wb_init]
  · simp [wb_init]
  · simp [wb_init]
  · show (0 : Int) = wrap32 0
    rw [wrap32_id (by omega) (by omega)]

theorem wb_inv_again (b : write_block) (hb : wb_inv b) (hfull : b.ptr = 128) :
    wb_inv (wb_again b) ∧ wb_bytes (wb_again b) = wb_bytes b := by
  obtain ⟨hf, hcur, hple, hl⟩ := hb
  have hbytes : wb_bytes (wb_again b) = wb_bytes b := by simp [wb_again, wb_bytes]
  refine ⟨⟨?_, by simp [wb_again], by simp [wb_again], ?_⟩, hbytes⟩
  · intro blk hblk
    simp only [wb_again, List.mem_append, List.mem_singleton] at hblk
    rcases hblk with h | h
    · exact hf blk h
    · subst h; omega
  · rw [hbytes]; exact hl

theorem wb_push_loop_spec : ∀ (fuel : Nat) (b : write_block) (buffer : List Nat) (sz : Int),
    wb_inv b → b.ptr < 128 → 0 ≤ sz → sz ≤ buffer.length → sz < fuel →
    wb_inv (wb_push_loop fuel b buffer sz) ∧
      wb_bytes (wb_push_loop fuel b buffer sz) = wb_bytes b ++ buffer.take sz.toNat := by
  intro fuel
  induction fuel with
  | zero => intro b buffer sz _ _ h0 _ hf; omega
  | succ fuel ih =>
    intro b buffer sz hb hp h0 hlen hf
    obtain ⟨hfull, hcur, hple, hl⟩ := hb
    have hp0 : 0 ≤ b.ptr := by omega
    have htake : b.current.take b.ptr.toNat = b.current := by
      apply List.take_of_length_le; omega
    unfold wb_push_loop
    split
    · rename_i hfit
      simp only [BLOCK_SIZE] at hfit
      have hmin : min sz.toNat buffer.length = sz.toNat := by omega
      have hsz : ((sz.toNat : Nat) : Int) = sz := by omega
      have hbytes : wb_bytes { wb_memcpy b buffer sz with
          ptr := (wb_memcpy b buffer sz).ptr + sz,
          len := wrap32 ((wb_memcpy b buffer sz).len + sz) } =
          wb_bytes b ++ buffer.take sz.toNat := by
        simp [wb_memcpy, htake, wb_bytes]
      refine ⟨⟨?_, ?_, ?_, ?_⟩, hbytes⟩
      · simpa [wb_memcpy] using hfull
      · simp only [wb_memcpy, htake, List.length_append, List.length_take, hmin]
        push_cast; omega
      · simp only [wb_memcpy]; omega
      · rw [hbytes]
        simp only [wb_memcpy, List.length_append, List.length_take, hmin]
        rw [hl, wrap32_wrap32_add]; push_cast; rw [hsz]
    · rename_i hfit
      simp only [BLOCK_SIZE] at hfit ⊢
      have hcopy : ((128 - b.ptr).toNat : Int) = 128 - b.ptr := by omega
      have hmin : min (128 - b.ptr).toNat buffer.length = (128 - b.ptr).toNat := by omega
      have hbytes : wb_bytes (wb_again
          { wb_memcpy b buffer (128 - b.ptr) with
            len := wrap32 ((wb_memcpy b buffer (128 - b.ptr)).len + (128 - b.ptr)) }) =
          wb_bytes b ++ buffer.take (128 - b.ptr).toNat := by
        simp [wb_again, wb_memcpy, htake, wb_bytes]
      have hinv : wb_inv (wb_again
          { wb_memcpy b buffer (128 - b.ptr) with
            len := wrap32 ((wb_memcpy b buffer (128 - b.ptr)).len + (128 - b.ptr)) }) := by
        refine ⟨?_, ?_, ?_, ?_⟩
        · intro blk hblk
          simp only [wb_again, wb_memcpy, htake, List.mem_append, List.mem_singleton] at hblk
          rcases hblk with h | h
          · exact hfull blk h
          · subst h
            simp only [List.length_append, List.length_take, hmin]
            omega
        · simp [wb_again]
        · simp [wb_again]
        · rw [hbytes]
          simp only [wb_again, wb_memcpy, List.length_append, List.length_take, hmin]
          rw [hl, wrap32_wrap32_add]; push_cast; rw [hcopy]
      have := ih _ (buffer.drop (128 - b.ptr).toNat) (sz - (128 - b.ptr)) hinv (by simp [wb_again])
        (by omega) (by simp only [List.length_drop]; omega) (by omega)
      refine ⟨this.1, ?_⟩
      rw [this.2, hbytes]
      have e : sz.toNat = (128 - b.ptr).toNat + (sz - (128 - b.ptr)).toNat := by omega
      rw [e, List.take_add, List.append_assoc]

/-- Appending with `wb_push` keeps the invariant and adds exactly the bytes. -/
theorem wb_push_spec (b : write_block) (buffer : List Nat) (sz : Int)
    (hb : wb_inv b) (h0 : 0 ≤ sz) (hlen : sz ≤ buffer.length) :
    wb_inv (wb_push b buffer sz) ∧
      wb_bytes (wb_push b buffer sz) = wb_bytes b ++ buffer.take sz.toNat := by
  unfold wb_push
  split
  · rename_i hfull
    simp only [BLOCK_SIZE] at hfull
    have hinv := wb_inv_again b hb hfull
    have := wb_push_loop_spec (sz.toNat + 1) (wb_again b) buffer sz hinv.1 (by simp [wb_again]) h0 hlen
      (by omega)
    refine ⟨this.1, ?_⟩
    rw [this.2, hinv.2]
  · rename_i hfull
    simp only [BLOCK_SIZE] at hfull
    have hp := hb.ptr_le
    exact wb_push_loop_spec (sz.toNat + 1) b buffer sz hb (by omega) h0 hlen (by omega)

theorem wb_push_eq (b : write_block) (buffer : List Nat) (sz : Int)
    (hb : wb_inv b) (h : sz = (buffer.length : Int)) :
    wb_inv (wb_push b buffer sz) ∧ wb_bytes (wb_push b buffer sz) = wb_bytes b ++ buffer := by
  have := wb_push_spec b buffer sz hb (by omega) (by omega)
  refine ⟨this.1, ?_⟩
  rw [this.2, List.take_of_length_le (by omega)]

theorem le_bytes_length : ∀ (n x : Nat), (le_bytes n x).length = n
  | 0, _ => rfl
  | n + 1, x => by simp [le_bytes, le_bytes_length n]

theorem wb_nil_spec (b : write_block) (hb : wb_inv b) :
    wb_inv (wb_nil b) ∧ wb_bytes (wb_nil b) = wb_bytes b ++ [toU8 TYPE_NIL] :=
  wb_push_eq b _ 1 hb rfl

theorem wb_boolean_spec (b : write_block) (bo : Bool) (hb : wb_inv b) :
    wb_inv (wb_boolean b bo) ∧
      wb_bytes (wb_boolean b bo) = wb_bytes b ++ [tag TYPE_BOOLEAN (if bo then 1 else 0)] :=
  wb_push_eq b _ 1 hb rfl

theorem wb_push2_eq (b : write_block) (x : Nat) (buffer : List Nat) (sz : Int)
    (hb : wb_inv b) (h : sz = (buffer.length : Int)) :
    wb_inv (wb_push (wb_push b [x] 1) buffer sz) ∧
      wb_bytes (wb_push (wb_push b [x] 1) buffer sz) = wb_bytes b ++ x :: buffer := by
  have h1 := wb_push_eq b [x] 1 hb rfl
  have h2 := wb_push_eq _ buffer sz h1.1 h
  refine ⟨h2.1, ?_⟩
  rw [h2.2, h1.2]; simp

/-- The function `wb_integer` appends the bytes `enc_integer` gives. -/
theorem wb_integer_spec (b : write_block) (v : Int) (type : Nat) (hb : wb_inv b) :
    wb_inv (wb_integer b v type) ∧
      wb_bytes (wb_integer b v type) = wb_bytes b ++ enc_integer v type := by
  unfold wb_integer enc_integer
  split
  · exact wb_push_eq b _ 1 hb rfl
  split
  · exact wb_push2_eq b _ _ 4 hb (by simp [le_bytes_length])
  split
  · exact wb_push2_eq b _ _ 1 hb rfl
  split
  · exact wb_push2_eq b _ _ 2 hb (by simp [le_bytes_length])
  · exact wb_push2_eq b _ _ 4 hb (by simp [le_bytes_length])

theorem wb_number_spec (b : write_block) (v : Nat) (hb : wb_inv b) :
    wb_inv (wb_number b v) ∧
      wb_bytes (wb_number b v) = wb_bytes b ++ tag TYPE_NUMBER 8 :: le_bytes 8 v :=
  wb_push2_eq b _ _ 8 hb (by simp [le_bytes_length])

theorem wb_pointer_spec (b : write_block) (v : Nat) (hb : wb_inv b) :
    wb_inv (wb_pointer b v) ∧
      wb_bytes (wb_pointer b v) = wb_bytes b ++ toU8 TYPE_USERDATA :: le_bytes 8 v :=
  wb_push2_eq b _ _ 8 hb (by simp [le_bytes_length])

/-- The function `wb_string` appends the bytes `enc_string` gives. -/
theorem wb_string_spec (b : write_block) (str : List Nat) (len : Int) (hb : wb_inv b)
    (hlen : len ≤ str.length) :
    wb_inv (wb_string b str len) ∧
      wb_bytes (wb_string b str len) = wb_bytes b ++ enc_string str len := by
  unfold wb_string enc_string
  split
  · have h1 := wb_push_eq b [toU8 (COMBINE_TYPE TYPE_SHORT_STRING len)] 1 hb rfl
    split
    · rename_i hpos
      have h2 := wb_push_spec _ str len h1.1 (by omega) hlen
      refine ⟨h2.1, ?_⟩
      rw [h2.2, h1.2]; simp [tag]
    · refine ⟨h1.1, ?_⟩
      rw [h1.2]; simp [tag]
  · rename_i hbig
    simp only [MAX_COOKIE] at hbig
    split
    · have h1 := wb_push2_eq b (toU8 (COMBINE_TYPE TYPE_LONG_STRING 2))
        (le_bytes 2 (toU32 len % 65536)) 2 hb (by simp [le_bytes_length])
      have h2 := wb_push_spec _ str len h1.1 (by omega) hlen
      refine ⟨h2.1, ?_⟩
      rw [h2.2, h1.2]; simp [tag]
    · have h1 := wb_push2_eq b (toU8 (COMBINE_TYPE TYPE_LONG_STRING 4))
        (le_bytes 4 (toU32 len)) 4 hb (by simp [le_bytes_length])
      have h2 := wb_push_spec _ str len h1.1 (by omega) hlen
      refine ⟨h2.1, ?_⟩
      rw [h2.2, h1.2]; simp [tag]

theorem wrap32_le_self (n : Nat) : wrap32 (n : Int) ≤ (n : Int) := by
  rw [wrap32_eq]; omega

theorem wb_table_array_loop_refines (one : write_block → Value → Int → Except Err write_block)
    (enc : Value → Int → Except Err (List Nat)) (h : refines one enc)
    (arr : List Value) (array_size depth : Int) :
    ∀ (n : Nat) (b : write_block), wb_inv b →
      match enc_array_loop enc arr array_size depth n with
      | .error e => wb_table_array_loop one arr array_size depth n b = .error e
      | .ok E => ∃ b', wb_table_array_loop one arr array_size depth n b = .ok b' ∧
          wb_inv b' ∧ wb_bytes b' = wb_bytes b ++ E := by
  intro n
  induction n with
  | zero => intro b hb; exact ⟨b, rfl, hb, by simp⟩
  | succ n ih =>
    intro b hb
    have h1 := h b (lua_rawgeti arr (array_size - n)) depth hb
    simp only [enc_array_loop, wb_table_array_loop]
    cases he : enc (lua_rawgeti arr (array_size - n)) depth with
    | error e => rw [he] at h1; simp only at h1; simp [h1]
    | ok E =>
      rw [he] at h1
      obtain ⟨b1, hb1, hinv1, hbytes1⟩ := h1
      have h2 := ih b1 hinv1
      simp only [hb1]
      cases hr : enc_array_loop enc arr array_size depth n with
      | error e => rw [hr] at h2; simpa using h2
      | ok R =>
        rw [hr] at h2
        obtain ⟨b2, hb2, hinv2, hbytes2⟩ := h2
        exact ⟨b2, hb2, hinv2, by rw [hbytes2, hbytes1, List.append_assoc]⟩

theorem wb_table_hash_loop_refines (one : write_block → Value → Int → Except Err write_block)
    (enc : Value → Int → Except Err (List Nat)) (h : refines one enc)
    (depth array_size : Int) :
    ∀ (l : List (Value × Value)) (b : write_block), wb_inv b →
      match enc_hash_loop enc depth array_size l with
      | .error e => wb_table_hash_loop one depth array_size l b = .error e
      | .ok E => ∃ b', wb_table_hash_loop one depth array_size l b = .ok b' ∧
          wb_inv b' ∧ wb_bytes b' = wb_bytes b ++ E := by
  intro l
  induction l with
  | nil => intro b hb; exact ⟨b, rfl, hb, by simp⟩
  | cons kv rest ih =>
    intro b hb
    obtain ⟨k, v⟩ := kv
    simp only [enc_hash_loop, wb_table_hash_loop]
    by_cases hs : hash_skip k array_size = true
    · simp only [hs, if_true]; exact ih b hb
    · simp only [hs, if_false, Bool.false_eq_true]
      have h1 := h b k depth hb
      cases hk : enc k depth with
      | error e => rw [hk] at h1; simp only at h1; simp [h1]
      | ok K =>
        rw [hk] at h1
        obtain ⟨b1, hb1, hinv1, hbytes1⟩ := h1
        simp only [hb1]
        have h2 := h b1 v depth hinv1
        cases hv : enc v depth with
        | error e => rw [hv] at h2; simp only at h2; simp [h2]
        | ok V =>
          rw [hv] at h2
          obtain ⟨b2, hb2, hinv2, hbytes2⟩ := h2
          simp only [hb2]
          have h3 := ih b2 hinv2
          cases hr : enc_hash_loop enc depth array_size rest with
          | error e => rw [hr] at h3; simpa using h3
          | ok R =>
            rw [hr] at h3
            obtain ⟨b3, hb3, hinv3, hbytes3⟩ := h3
            exact ⟨b3, hb3, hinv3, by rw [hbytes3, hbytes2, hbytes1]; simp⟩

theorem wb_table_header_spec (b : write_block) (array_size : Int) (hb : wb_inv b) :
    wb_inv (if array_size ≥ MAX_COOKIE - 1 then
        wb_integer (wb_push b [toU8 (COMBINE_TYPE TYPE_TABLE (MAX_COOKIE - 1))] 1) array_size TYPE_NUMBER
      else wb_push b [toU8 (COMBINE_TYPE TYPE_TABLE array_size)] 1) ∧
    wb_bytes (if array_size ≥ MAX_COOKIE - 1 then
        wb_integer (wb_push b [toU8 (COMBINE_TYPE TYPE_TABLE (MAX_COOKIE - 1))] 1) array_size TYPE_NUMBER
      else wb_push b [toU8 (COMBINE_TYPE TYPE_TABLE array_size)] 1) =
      wb_bytes b ++ enc_table_header array_size := by
  unfold enc_table_header
  split
  · have h1 := wb_push_eq b [toU8 (COMBINE_TYPE TYPE_TABLE (MAX_COOKIE - 1))] 1 hb rfl
    have h2 := wb_integer_spec _ array_size TYPE_NUMBER h1.1
    refine ⟨h2.1, ?_⟩
    rw [h2.2, h1.2]; simp [tag]
  · exact wb_push_eq b _ 1 hb rfl

theorem wb_table_array_refines (one : write_block → Value → Int → Except Err write_block)
    (enc : Value → Int → Except Err (List Nat)) (h : refines one enc)
    (arr : List Value) (depth : Int) (b : write_block) (hb : wb_inv b) :
    match enc_array_loop enc arr (wrap32 (lua_rawlen arr)) depth (wrap32 (lua_rawlen arr)).toNat with
    | .error e => wb_table_array one b arr depth = .error e
    | .ok A => ∃ b', wb_table_array one b arr depth = .ok (b', wrap32 (lua_rawlen arr)) ∧
        wb_inv b' ∧ wb_bytes b' = wb_bytes b ++ enc_table_header (wrap32 (lua_rawlen arr)) ++ A := by
  have hh := wb_table_header_spec b (wrap32 (lua_rawlen arr)) hb
  have ha := wb_table_array_loop_refines one enc h arr (wrap32 (lua_rawlen arr)) depth
    (wrap32 (lua_rawlen arr)).toNat _ hh.1
  have hdef : wb_table_array one b arr depth =
      match wb_table_array_loop one arr (wrap32 (lua_rawlen arr)) depth
        (wrap32 (lua_rawlen arr)).toNat
        (if wrap32 (lua_rawlen arr) ≥ MAX_COOKIE - 1 then
          wb_integer (wb_push b [toU8 (COMBINE_TYPE TYPE_TABLE (MAX_COOKIE - 1))] 1)
            (wrap32 (lua_rawlen arr)) TYPE_NUMBER
        else wb_push b [toU8 (COMBINE_TYPE TYPE_TABLE (wrap32 (lua_rawlen arr)))] 1) with
      | .error e => .error e
      | .ok wb => .ok (wb, wrap32 (lua_rawlen arr)) := rfl
  cases hA : enc_array_loop enc arr (wrap32 (lua_rawlen arr)) depth
      (wrap32 (lua_rawlen arr)).toNat with
  | error e => rw [hA] at ha; simp only at ha; rw [hdef, ha]
  | ok A =>
    rw [hA] at ha
    obtain ⟨b1, hb1, hinv1, hbytes1⟩ := ha
    exact ⟨b1, by rw [hdef, hb1], hinv1, by rw [hbytes1, hh.2]⟩

theorem wb_table_refines (one : write_block → Value → Int → Except Err write_block)
    (enc : Value → Int → Except Err (List Nat)) (h : refines one enc)
    (arr : List Value) (hash : List (Value × Value)) (depth : Int)
    (b : write_block) (hb : wb_inv b) :
    match enc_table enc arr hash depth with
    | .error e => wb_table one b arr hash depth = .error e
    | .ok E => ∃ b', wb_table one b arr hash depth = .ok b' ∧
        wb_inv b' ∧ wb_bytes b' = wb_bytes b ++ E := by
  have ha := wb_table_array_refines one enc h arr depth b hb
  unfold enc_table wb_table wb_table_hash
  cases hA : enc_array_loop enc arr (wrap32 (lua_rawlen arr)) depth
      (wrap32 (lua_rawlen arr)).toNat with
  | error e => rw [hA] at ha; simp only at ha; simp only [hA, ha]
  | ok A =>
    rw [hA] at ha
    obtain ⟨b1, hb1, hinv1, hbytes1⟩ := ha
    have h2 := wb_table_hash_loop_refines one enc h depth (wrap32 (lua_rawlen arr))
      (lua_next arr hash) b1 hinv1
    cases hH : enc_hash_loop enc depth (wrap32 (lua_rawlen arr)) (lua_next arr hash) with
    | error e => rw [hH] at h2; simp only at h2; simp only [hA, hH, hb1, h2]
    | ok H =>
      rw [hH] at h2
      obtain ⟨b2, hb2, hinv2, hbytes2⟩ := h2
      have h3 := wb_nil_spec b2 hinv2
      simp only [hA, hH, hb1, hb2]
      exact ⟨_, rfl, h3.1, by rw [h3.2, hbytes2, hbytes1]; simp only [List.append_assoc]⟩

/-- The function `pack_one` appends to any buffer the bytes `encode` gives. -/
theorem pack_one_refines : ∀ (fuel : Nat), refines (pack_one fuel) (encode fuel) := by
  intro fuel
  induction fuel with
  | zero => intro b v d _; simp [encode, pack_one]
  | succ fuel ih =>
    intro b v d hb
    simp only [encode, pack_one]
    by_cases hd : d > MAX_DEPTH
    · simp [hd]
    · simp only [hd, if_false]
      cases v with
      | nil => exact ⟨_, rfl, wb_nil_spec b hb⟩
      | boolean bo => exact ⟨_, rfl, wb_boolean_spec b bo hb⟩
      | number n =>
        by_cases hc : double_eq (double_of_int (wrap32 (lua_tointeger n))) n = true
        · simp only [hc, if_true]
          exact ⟨_, rfl, wb_integer_spec b _ _ hb⟩
        · simp only [hc, if_false, Bool.false_eq_true]
          exact ⟨_, rfl, wb_number_spec b _ hb⟩
      | string s => exact ⟨_, rfl, wb_string_spec b s _ hb (wrap32_le_self _)⟩
      | lightuserdata p => exact ⟨_, rfl, wb_pointer_spec b p hb⟩
      | table arr hash => exact wb_table_refines _ _ ih arr hash (d + 1) b hb
      | other t => simp

theorem pack_from_refines : ∀ (vs : List Value) (b : write_block), wb_inv b →
    match encode_all vs with
    | .error e => pack_from b vs = .error e
    | .ok E => ∃ b', pack_from b vs = .ok b' ∧ wb_inv b' ∧ wb_bytes b' = wb_bytes b ++ E := by
  intro vs
  induction vs with
  | nil => intro b hb; exact ⟨b, rfl, hb, by simp⟩
  | cons v rest ih =>
    intro b hb
    simp only [encode_all, pack_from]
    have h1 := pack_one_refines (MAX_DEPTH.toNat + 2) b v 0 hb
    cases he : encode (MAX_DEPTH.toNat + 2) v 0 with
    | error e => rw [he] at h1; simp only at h1; simp [h1]
    | ok E =>
      rw [he] at h1
      obtain ⟨b1, hb1, hinv1, hbytes1⟩ := h1
      simp only [hb1]
      have h2 := ih b1 hinv1
      cases hr : encode_all rest with
      | error e => rw [hr] at h2; simpa using h2
      | ok R =>
        rw [hr] at h2
        obtain ⟨b2, hb2, hinv2, hbytes2⟩ := h2
        exact ⟨b2, hb2, hinv2, by rw [hbytes2, hbytes1, List.append_assoc]⟩

theorem packed_eq_encode (fuel : Nat) (v : Value) (d : Int) : packed fuel v d = encode fuel v d := by
  have h := pack_one_refines fuel wb_init v d wb_inv_init
  unfold packed
  cases he : encode fuel v d with
  | error e => rw [he] at h; simp only at h; simp [h]
  | ok E =>
    rw [he] at h
    obtain ⟨b1, hb1, _, hbytes1⟩ := h
    rw [hb1]
    simp only [hbytes1]
    simp [wb_bytes, wb_init]

theorem seri_copy_spec : ∀ (full : List (List Nat)) (cur : List Nat) (len : Int),
    (∀ blk ∈ full, blk.length = 128) → cur.length ≤ 128 →
    len = ((full.flatten ++ cur).length : Nat) →
    seri_copy (full ++ [cur]) len = full.flatten ++ cur := by
  intro full
  induction full with
  | nil =>
    intro cur len _ hcur hlen
    simp only [List.flatten_nil, List.nil_append] at hlen ⊢
    simp only [seri_copy, BLOCK_SIZE]
    by_cases h0 : len > 0
    · simp only [h0, if_true]
      by_cases h1 : len ≥ 128
      · simp only [h1, if_true]
        simp only [seri_copy, List.append_nil]
        apply List.take_of_length_le; omega
      · simp only [h1, if_false]
        apply List.take_of_length_le; omega
    · simp only [h0, if_false]
      have : cur.length = 0 := by omega
      exact (List.length_eq_zero.mp this).symm
  | cons blk full ih =>
    intro cur len hfull hcur hlen
    have hblk : blk.length = 128 := hfull blk (by simp)
    simp only [List.flatten_cons, List.append_assoc, List.length_append] at hlen
    have h0 : len > 0 := by omega
    have h1 : len ≥ 128 := by omega
    simp only [List.cons_append, seri_copy, BLOCK_SIZE, List.flatten_cons, List.append_assoc,
      List.append_eq, h0, h1, if_true]
    rw [ih cur (len - 128) (fun b hb => hfull b (by simp [hb])) hcur
      (by simp only [List.length_append]; omega)]
    rw [List.take_of_length_le (by rw [hblk]; decide)]

/-- Packing a list of values returns the bytes `encode_all` gives, provided
they number fewer than `2^31`. -/
theorem luaseri_pack_eq (vs : List Value) :
    match encode_all vs with
    | .error e => _luaseri_pack vs = .error e
    | .ok E => E.length < 2147483648 → _luaseri_pack vs = .ok (E, (E.length : Int)) := by
  have h := pack_from_refines vs wb_init wb_inv_init
  unfold _luaseri_pack
  cases he : encode_all vs with
  | error e => rw [he] at h; simp only at h; simp [h]
  | ok E =>
    rw [he] at h
    obtain ⟨b1, hb1, hinv1, hbytes1⟩ := h
    intro hlen
    have hE : wb_bytes b1 = E := by simpa [wb_bytes, wb_init] using hbytes1
    have hl : b1.len = (E.length : Int) := by
      rw [hinv1.len_eq, hE, wrap32_id (by omega) (by omega)]
    have hcur := hinv1.cur_len
    have hple := hinv1.ptr_le
    have := seri_copy_spec b1.full b1.current b1.len hinv1.full_blocks (by omega)
      (by rw [hl, ← hE]; rfl)
    rw [show b1.full.flatten ++ b1.current = wb_bytes b1 from rfl, hE, hl] at this
    simp only [hb1, seri, this, hl]

/-! ## Doubles of 32-bit integers -/

theorem bitlen_spec : ∀ (f a : Nat), 0 < a → a < 2 ^ f →
    2 ^ bitlen f a ≤ a ∧ a < 2 ^ (bitlen f a + 1) := by
  intro f
  induction f with
  | zero => intro a h0 h1; simp at h1; omega
  | succ f ih =>
    intro a h0 h1
    unfold bitlen
    split
    · simp; omega
    · rename_i h2
      have := ih (a / 2) (by omega) (by rw [Nat.pow_succ] at h1; omega)
      rw [Nat.pow_succ, Nat.pow_succ]
      omega

/-- The exponent and fraction fields of the double of a non-zero magnitude. -/
theorem double_fields (a p : Nat) (hp : p ≤ 31) (h1 : 2 ^ p ≤ a) (h2 : a < 2 ^ (p + 1)) :
    ((1023 + p) * 2 ^ 52 + (a * 2 ^ (52 - p) - 2 ^ 52)) / 2 ^ 52 % 2048 = 1023 + p ∧
    ((1023 + p) * 2 ^ 52 + (a * 2 ^ (52 - p) - 2 ^ 52)) / 2 ^ 63 = 0 ∧
    (2 ^ 52 + ((1023 + p) * 2 ^ 52 + (a * 2 ^ (52 - p) - 2 ^ 52)) % 2 ^ 52) / 2 ^ (1075 - (1023 + p)) = a ∧
    (2 ^ 63 + ((1023 + p) * 2 ^ 52 + (a * 2 ^ (52 - p) - 2 ^ 52))) / 2 ^ 52 % 2048 = 1023 + p ∧
    (2 ^ 63 + ((1023 + p) * 2 ^ 52 + (a * 2 ^ (52 - p) - 2 ^ 52))) / 2 ^ 63 % 2 = 1 ∧
    (2 ^ 63 + ((1023 + p) * 2 ^ 52 + (a * 2 ^ (52 - p) - 2 ^ 52))) % 2 ^ 52 =
      ((1023 + p) * 2 ^ 52 + (a * 2 ^ (52 - p) - 2 ^ 52)) % 2 ^ 52 := by
  interval_cases p <;> simp only [Nat.reducePow, Nat.reduceAdd, Nat.reduceSub, Nat.reduceMul] at h1 h2 ⊢ <;>
    omega

theorem double_trunc_eq (n : Nat) :
    double_trunc n =
      if n / 2 ^ 52 % 2048 = 2047 then none
      else some (if n / 2 ^ 63 % 2 = 1 then
          -((if n / 2 ^ 52 % 2048 < 1023 then 0
            else if n / 2 ^ 52 % 2048 ≤ 1075 then
              (2 ^ 52 + n % 2 ^ 52) / 2 ^ (1075 - n / 2 ^ 52 % 2048)
            else (2 ^ 52 + n % 2 ^ 52) * 2 ^ (n / 2 ^ 52 % 2048 - 1075) : Nat) : Int)
        else ((if n / 2 ^ 52 % 2048 < 1023 then 0
            else if n / 2 ^ 52 % 2048 ≤ 1075 then
              (2 ^ 52 + n % 2 ^ 52) / 2 ^ (1075 - n / 2 ^ 52 % 2048)
            else (2 ^ 52 + n % 2 ^ 52) * 2 ^ (n / 2 ^ 52 % 2048 - 1075) : Nat) : Int)) := rfl

theorem double_of_int_eq (x : Int) (h0 : x ≠ 0) :
    double_of_int x = (if x < 0 then 2 ^ 63 else 0) + (1023 + bitlen 64 x.natAbs) * 2 ^ 52 +
      (x.natAbs * 2 ^ (52 - bitlen 64 x.natAbs) - 2 ^ 52) := by
  unfold double_of_int
  rw [if_neg h0]

theorem double_trunc_of_int (x : Int) (h1 : -2147483648 ≤ x) (h2 : x < 2147483648) :
    double_trunc (double_of_int x) = some x := by
  by_cases h0 : x = 0
  · subst h0; decide
  · have ha0 : 0 < x.natAbs := by omega
    have ha1 : x.natAbs < 2 ^ 64 := by
      have : x.natAbs ≤ 2147483648 := by omega
      exact Nat.lt_of_le_of_lt this (by norm_num)
    obtain ⟨hb1, hb2⟩ := bitlen_spec 64 x.natAbs ha0 ha1
    have hp : bitlen 64 x.natAbs ≤ 31 := by
      by_contra hc
      have : 2 ^ 32 ≤ 2 ^ bitlen 64 x.natAbs := Nat.pow_le_pow_right (by norm_num) (by omega)
      have h32 : (2 : Nat) ^ 32 = 4294967296 := by norm_num
      omega
    obtain ⟨f1, f2, f3, f4, f5, f6⟩ := double_fields x.natAbs (bitlen 64 x.natAbs) hp hb1 hb2
    have hne : 1023 + bitlen 64 x.natAbs ≠ 2047 := by omega
    have hge : ¬ (1023 + bitlen 64 x.natAbs < 1023) := by omega
    have hle : 1023 + bitlen 64 x.natAbs ≤ 1075 := by omega
    rw [double_of_int_eq x h0, double_trunc_eq]
    by_cases hneg : x < 0
    · have hx : -(x.natAbs : Int) = x := by
        clear f1 f2 f3 f4 f5 f6 hb1 hb2 hp hne hge hle ha1; omega
      rw [if_pos hneg, Nat.add_assoc, f4, f5, f6, if_neg hne, if_pos rfl, if_neg hge, if_pos hle, f3,
        hx]
    · have hx : (x.natAbs : Int) = x := by
        clear f1 f2 f3 f4 f5 f6 hb1 hb2 hp hne hge hle ha1; omega
      have h01 : ¬ ((0 : Nat) % 2 = 1) := by decide
      rw [if_neg hneg, Nat.zero_add, f1, if_neg hne, if_neg hge, if_pos hle, f3, f2,
        if_neg h01, hx]

theorem double_to_int_of_int (x : Int) (h1 : -2147483648 ≤ x) (h2 : x < 2147483648) :
    double_to_int (double_of_int x) = x := by
  simp only [double_to_int, double_trunc_of_int x h1 h2]
  simp [h1, h2]

theorem lua_tointeger_of_int (x : Int) (h1 : -2147483648 ≤ x) (h2 : x < 2147483648) :
    lua_tointeger (double_of_int x) = x := by
  simp only [lua_tointeger, double_trunc_of_int x h1 h2]
  have : -9223372036854775808 ≤ x ∧ x < 9223372036854775808 := by omega
  simp [this]

theorem double_trunc_ne_none_not_nan (n : Nat) (v : Int) (h : double_trunc n = some v) :
    double_isnan n = false := by
  rw [double_trunc_eq] at h
  by_cases he : n / 2 ^ 52 % 2048 = 2047
  · rw [if_pos he] at h; cases h
  · unfold double_isnan
    simp only [decide_eq_false_iff_not, not_and]
    intro h'; exact absurd h' he

theorem double_eq_of_int_self (x : Int) (h1 : -2147483648 ≤ x) (h2 : x < 2147483648) :
    double_eq (double_of_int x) (double_of_int x) = true := by
  have := double_trunc_ne_none_not_nan _ _ (double_trunc_of_int x h1 h2)
  simp [double_eq, this]

/-- The double of an `int` is never the negative zero. -/
theorem double_of_int_iszero (x : Int) (h1 : -2147483648 ≤ x) (h2 : x < 2147483648)
    (hz : double_iszero (double_of_int x) = true) : double_of_int x = 0 := by
  by_cases h0 : x = 0
  · subst h0; rfl
  · exfalso
    have ht := double_trunc_of_int x h1 h2
    have hz' : double_of_int x % 2 ^ 63 = 0 := by simpa [double_iszero] using hz
    have h52 : (2 : Nat) ^ 52 = 4503599627370496 := by norm_num
    have h63 : (2 : Nat) ^ 63 = 9223372036854775808 := by norm_num
    have e0 : double_of_int x / 2 ^ 52 % 2048 = 0 := by
      rw [h63] at hz'; rw [h52]; omega
    have h2047 : ¬ ((0 : Nat) = 2047) := by decide
    have h1023 : (0 : Nat) < 1023 := by decide
    rw [double_trunc_eq, e0, if_neg h2047, if_pos h1023] at ht
    simp only [Nat.cast_zero, neg_zero, ite_self, Option.some.injEq] at ht
    exact h0 ht.symm

/-! ## Reading from the cursor -/

theorem rb_read_at (pre bs rest : List Nat) (k : Int) (hk : k = (bs.length : Int))
    (hlen : (pre ++ bs ++ rest).length < 2147483648) :
    rb_read (rb_at pre (bs ++ rest)) k = some ((pre.length : Int), rb_at (pre ++ bs) rest) := by
  simp only [List.length_append] at hlen
  have h1 : ¬ (((bs ++ rest).length : Nat) : Int) < k := by
    simp only [List.length_append]; push_cast; omega
  have h2 : wrap32 ((pre.length : Int) + k) = ((pre ++ bs).length : Nat) := by
    rw [wrap32_id (by omega) (by omega)]; simp only [List.length_append]; push_cast; omega
  have h3 : wrap32 ((((bs ++ rest).length : Nat) : Int) - k) = (rest.length : Nat) := by
    simp only [List.length_append]; push_cast
    rw [wrap32_id (by omega) (by omega)]; omega
  simp only [rb_read, rb_at, h1, if_false, h2, h3, List.append_assoc]

theorem rb_read_short (pre rest : List Nat) (k : Int) (h : (rest.length : Int) < k) :
    rb_read (rb_at pre rest) k = none := by
  simp only [rb_read, rb_at, h, if_true]

theorem rb_deref_at (pre bs rest : List Nat) (n : Nat) (hn : n = bs.length) :
    rb_deref (rb_at (pre ++ bs) rest) (pre.length : Nat) n = bs := by
  subst hn
  simp [rb_deref, rb_at]

theorem le_val_le_bytes : ∀ (n x : Nat), x < 256 ^ n → le_val (le_bytes n x) = x
  | 0, x, h => by simp at h; simp [le_bytes, le_val, h]
  | n + 1, x, h => by
    have := le_val_le_bytes n (x / 256) (by rw [Nat.pow_succ] at h; omega)
    simp only [le_bytes, le_val, this]; omega

theorem le_val_single (b : Nat) : le_val [b] = b := by simp [le_val]

/-- The lead byte for a cookie in `0..31` is `t + 8 * c`. -/
theorem tag_eq (t : Nat) (c : Int) (ht : t < 8) (h0 : 0 ≤ c) (h1 : c < 32) :
    tag t c = t + 8 * c.toNat := by
  obtain ⟨n, rfl⟩ := Int.eq_ofNat_of_zero_le h0
  have hn : n < 32 := by omega
  simp only [Int.toNat_ofNat]
  clear h0 h1
  interval_cases t <;> interval_cases n <;> rfl

theorem tag_type (t : Nat) (c : Int) (ht : t < 8) (h0 : 0 ≤ c) (h1 : c < 32) :
    tag t c &&& 7 = t ∧ tag t c >>> 3 = c.toNat := by
  rw [tag_eq t c ht h0 h1]
  have h7 : (7 : Nat) = 2 ^ 3 - 1 := rfl
  rw [h7, Nat.and_pow_two_sub_one_eq_mod, Nat.shiftRight_eq_div_pow]
  constructor <;> omega

/-! ## Decoding integers, numbers, pointers and texts -/

theorem enc_integer_eq (v : Int) (t : Nat) :
    enc_integer v t = tag t (int_cookie v) :: int_payload v := by
  unfold enc_integer int_cookie int_payload
  split
  · rfl
  split
  · rfl
  split
  · rfl
  split
  · rfl
  · rfl

theorem int_cookie_cases (v : Int) :
    int_cookie v = 0 ∨ int_cookie v = 1 ∨ int_cookie v = 2 ∨ int_cookie v = 4 := by
  unfold int_cookie
  split
  · simp
  split
  · simp
  split
  · simp
  split <;> simp

theorem int_payload_length (v : Int) : (int_payload v).length = int_cookie v := by
  unfold int_cookie int_payload
  split
  · rfl
  split
  · exact le_bytes_length _ _
  split
  · rfl
  split
  · exact le_bytes_length _ _
  · exact le_bytes_length _ _

theorem toU32_nonneg (x : Int) (h0 : 0 ≤ x) (h1 : x < 4294967296) : toU32 x = x.toNat := by
  unfold toU32; congr 1; omega

theorem wrap32_toU32 (x : Int) (h1 : -2147483648 ≤ x) (h2 : x < 2147483648) :
    wrap32 (toU32 x : Nat) = x := by
  unfold toU32; rw [wrap32_eq]; omega

theorem get_integer_0 (rb : read_block) : get_integer rb 0 = .ok (0, rb) := rfl

theorem get_integer_1 (rb : read_block) :
    get_integer rb 1 =
      match rb_read rb 1 with
      | none => .error .invalid_stream
      | some (pn, rb) => .ok ((le_val (rb_deref rb pn 1) : Nat), rb) := rfl

theorem get_integer_2 (rb : read_block) :
    get_integer rb 2 =
      match rb_read rb 2 with
      | none => .error .invalid_stream
      | some (pn, rb) => .ok ((le_val (rb_deref rb pn 2) : Nat), rb) := rfl

theorem get_integer_4 (rb : read_block) :
    get_integer rb 4 =
      match rb_read rb 4 with
      | none => .error .invalid_stream
      | some (pn, rb) => .ok (wrap32 (le_val (rb_deref rb pn 4)), rb) := rfl

theorem get_integer_ok (x : Int) (h1 : -2147483648 ≤ x) (h2 : x < 2147483648)
    (pre rest : List Nat) (hlen : (pre ++ int_payload x ++ rest).length < 2147483648) :
    get_integer (rb_at pre (int_payload x ++ rest)) (int_cookie x) =
      .ok (x, rb_at (pre ++ int_payload x) rest) := by
  revert hlen
  unfold int_cookie int_payload
  split
  · rename_i h0
    intro _
    rw [get_integer_0, h0]; simp
  split
  · rename_i h0 hneg
    intro hlen
    have hl := le_bytes_length 4 (toU32 x)
    rw [get_integer_4, rb_read_at pre _ rest 4 (by rw [hl]; rfl) hlen]
    simp only
    rw [rb_deref_at pre _ rest 4 hl.symm, le_val_le_bytes 4 _ (by unfold toU32; omega),
      wrap32_toU32 x h1 h2]
  split
  · rename_i h0 hneg h256
    intro hlen
    rw [get_integer_1, rb_read_at pre [toU8 (toU32 x)] rest 1 rfl hlen]
    simp only
    rw [rb_deref_at pre [toU8 (toU32 x)] rest 1 rfl, le_val_single]
    have : (toU8 (toU32 x) : Int) = x := by unfold toU8 toU32; omega
    rw [this]
  split
  · rename_i h0 hneg h256 h65536
    intro hlen
    have hl := le_bytes_length 2 (toU32 x % 65536)
    rw [get_integer_2, rb_read_at pre _ rest 2 (by rw [hl]; rfl) hlen]
    simp only
    rw [rb_deref_at pre _ rest 2 hl.symm, le_val_le_bytes 2 _ (by omega)]
    have : ((toU32 x % 65536 : Nat) : Int) = x := by unfold toU32; omega
    rw [this]
  · rename_i h0 hneg h256 h65536
    intro hlen
    have hl := le_bytes_length 4 (toU32 x)
    rw [get_integer_4, rb_read_at pre _ rest 4 (by rw [hl]; rfl) hlen]
    simp only
    rw [rb_deref_at pre _ rest 4 hl.symm, le_val_le_bytes 4 _ (by unfold toU32; omega),
      wrap32_toU32 x h1 h2]

theorem get_integer_short (pre q : List Nat) (c : Nat)
    (h : (q.length : Int) < c) : get_integer (rb_at pre q) c = .error .invalid_stream := by
  unfold get_integer
  split
  · rename_i h0; subst h0; exfalso; omega
  split
  · rename_i h1; subst h1
    rw [rb_read_short pre q 1 (by simpa using h)]
  split
  · rename_i h2; subst h2
    rw [rb_read_short pre q 2 (by simpa using h)]
  split
  · rename_i h4; subst h4
    rw [rb_read_short pre q 4 (by simpa using h)]
  · rfl

theorem lead_byte_split (t c : Nat) (ht : t < 8) :
    (t + 8 * c) &&& 7 = t ∧ (t + 8 * c) >>> 3 = c := by
  have h7 : (7 : Nat) = 2 ^ 3 - 1 := rfl
  rw [h7, Nat.and_pow_two_sub_one_eq_mod, Nat.shiftRight_eq_div_pow]
  constructor <;> omega

theorem get_buffer_ok (pre s rest : List Nat) (len : Int) (hl : len = (s.length : Int))
    (hlen : (pre ++ s ++ rest).length < 2147483648) :
    get_buffer (rb_at pre (s ++ rest)) len = .ok (.string s, rb_at (pre ++ s) rest) := by
  have h0 : ¬ len < 0 := by omega
  have hn : len.toNat = s.length := by omega
  unfold get_buffer
  rw [rb_read_at pre s rest len hl hlen]
  simp only [lua_pushlstring, h0, if_false, hn]
  rw [rb_deref_at pre s rest _ rfl]

theorem get_buffer_short (pre q : List Nat) (len : Int) (h : (q.length : Int) < len) :
    get_buffer (rb_at pre q) len = .error .invalid_stream := by
  unfold get_buffer
  rw [rb_read_short pre q len h]

theorem get_number_8 (rb : read_block) :
    get_number rb 8 =
      match rb_read rb 8 with
      | none => .error .invalid_stream
      | some (pn, rb) => .ok (le_val (rb_deref rb pn 8), rb) := rfl

theorem get_number_int (rb : read_block) (c : Nat) (hc : c ≠ 8) :
    get_number rb c =
      match get_integer rb c with
      | .error e => .error e
      | .ok (x, rb) => .ok (double_of_int x, rb) := by
  unfold get_number
  rw [if_neg hc]
  try rfl

theorem int_cookie_ne_8 (x : Int) : int_cookie x ≠ 8 := by
  rcases int_cookie_cases x with h | h | h | h <;> rw [h] <;> decide

theorem int_cookie_lt (x : Int) : int_cookie x < 32 := by
  rcases int_cookie_cases x with h | h | h | h <;> rw [h] <;> decide

theorem push_value_nil (one : read_block → Except Err (Value × read_block)) (rb : read_block)
    (c : Nat) : push_value one rb 0 c = .ok (.nil, rb) := rfl

theorem push_value_boolean (one : read_block → Except Err (Value × read_block))
    (rb : read_block) (c : Nat) :
    push_value one rb 1 c = .ok (.boolean (decide (c ≠ 0)), rb) := rfl

theorem push_value_number (one : read_block → Except Err (Value × read_block))
    (rb : read_block) (c : Nat) :
    push_value one rb 2 c =
      match get_number rb c with
      | .error e => .error e
      | .ok (n, rb) => .ok (.number n, rb) := rfl

theorem push_value_userdata (one : read_block → Except Err (Value × read_block))
    (rb : read_block) (c : Nat) :
    push_value one rb 3 c =
      match get_pointer rb with
      | .error e => .error e
      | .ok (p, rb) => .ok (.lightuserdata p, rb) := rfl

theorem push_value_short_string (one : read_block → Except Err (Value × read_block))
    (rb : read_block) (c : Nat) : push_value one rb 4 c = get_buffer rb c := rfl

theorem push_value_long_string_2 (one : read_block → Except Err (Value × read_block))
    (rb : read_block) :
    push_value one rb 5 2 =
      match rb_read rb 2 with
      | none => .error .invalid_stream
      | some (plen, rb) => get_buffer rb (le_val (rb_deref rb plen 2) : Nat) := rfl

theorem push_value_long_string_4 (one : read_block → Except Err (Value × read_block))
    (rb : read_block) :
    push_value one rb 5 4 =
      match rb_read rb 4 with
      | none => .error .invalid_stream
      | some (plen, rb) => get_buffer rb (wrap32 (le_val (rb_deref rb plen 4))) := rfl

theorem push_value_table (one : read_block → Except Err (Value × read_block))
    (rb : read_block) (c : Nat) : push_value one rb 6 c = unpack_table one rb c := rfl

theorem push_spec_nil (one : read_block → Except Err (Value × read_block)) (c : Nat) :
    push_spec one .nil 0 c [] := by
  constructor
  · intro pre rest _
    rw [push_value_nil]; simp
  · intro pre q r h hr _
    exfalso
    have : r = [] := by
      have := congrArg List.length h
      simp only [List.length_nil, List.length_append] at this
      exact List.length_eq_zero.mp (by omega)
    exact hr this

theorem push_spec_boolean (one : read_block → Except Err (Value × read_block)) (b : Bool) :
    push_spec one (.boolean b) 1 (if b then 1 else 0) [] := by
  constructor
  · intro pre rest _
    rw [push_value_boolean]; cases b <;> simp
  · intro pre q r h hr _
    exfalso
    have : r = [] := by
      have := congrArg List.length h
      simp only [List.length_nil, List.length_append] at this
      exact List.length_eq_zero.mp (by omega)
    exact hr this

theorem split_short {E q r : List Nat} (h : E = q ++ r) (hr : r ≠ []) : q.length < E.length := by
  subst h
  have : 0 < r.length := List.length_pos.mpr hr
  simp only [List.length_append]; omega

theorem push_spec_integer (one : read_block → Except Err (Value × read_block)) (x : Int)
    (h1 : -2147483648 ≤ x) (h2 : x < 2147483648) :
    push_spec one (.number (double_of_int x)) 2 (int_cookie x) (int_payload x) := by
  constructor
  · intro pre rest hlen
    rw [push_value_number, get_number_int _ _ (int_cookie_ne_8 x),
      get_integer_ok x h1 h2 pre rest hlen]
  · intro pre q r h hr _
    have := split_short h hr
    rw [int_payload_length] at this
    rw [push_value_number, get_number_int _ _ (int_cookie_ne_8 x),
      get_integer_short pre q _ (by omega)]

theorem push_spec_double (one : read_block → Except Err (Value × read_block)) (n : Nat)
    (hn : n < 18446744073709551616) :
    push_spec one (.number n) 2 8 (le_bytes 8 n) := by
  have hl := le_bytes_length 8 n
  constructor
  · intro pre rest hlen
    rw [push_value_number, get_number_8, rb_read_at pre _ rest 8 (by rw [hl]; rfl) hlen]
    simp only
    rw [rb_deref_at pre _ rest 8 hl.symm, le_val_le_bytes 8 n (by norm_num; exact hn)]
  · intro pre q r h hr _
    have := split_short h hr
    rw [hl] at this
    rw [push_value_number, get_number_8, rb_read_short pre q 8 (by omega)]

theorem push_spec_pointer (one : read_block → Except Err (Value × read_block)) (p c : Nat)
    (hp : p < 18446744073709551616) :
    push_spec one (.lightuserdata p) 3 c (le_bytes 8 p) := by
  have hl := le_bytes_length 8 p
  constructor
  · intro pre rest hlen
    rw [push_value_userdata]
    unfold get_pointer
    rw [rb_read_at pre _ rest 8 (by rw [hl]; rfl) hlen]
    simp only
    rw [rb_deref_at pre _ rest 8 hl.symm, le_val_le_bytes 8 p (by norm_num; exact hp)]
  · intro pre q r h hr _
    have := split_short h hr
    rw [hl] at this
    rw [push_value_userdata]
    unfold get_pointer
    rw [rb_read_short pre q 8 (by omega)]

theorem split_cases {α : Type} (A B q r : List α) (h : A ++ B = q ++ r) :
    (∃ a', A = q ++ a' ∧ r = a' ++ B ∧ a' ≠ []) ∨ (∃ q', q = A ++ q' ∧ B = q' ++ r) := by
  rcases List.append_eq_append_iff.mp h with ⟨a', h1, h2⟩ | ⟨c', h1, h2⟩
  · exact Or.inr ⟨a', h1, h2⟩
  · by_cases hc : c' = []
    · subst hc
      simp only [List.append_nil, List.nil_append] at h1 h2
      exact Or.inr ⟨[], by simp [h1], by simp [h2]⟩
    · exact Or.inl ⟨c', h1, h2, hc⟩

theorem push_spec_short_string (one : read_block → Except Err (Value × read_block))
    (s : List Nat) : push_spec one (.string s) 4 s.length s := by
  constructor
  · intro pre rest hlen
    rw [push_value_short_string, get_buffer_ok pre s rest _ rfl hlen]
  · intro pre q r h hr _
    have := split_short h hr
    rw [push_value_short_string, get_buffer_short pre q _ (by omega)]

theorem push_spec_long_string_2 (one : read_block → Except Err (Value × read_block))
    (s : List Nat) (hs : s.length < 65536) :
    push_spec one (.string s) 5 2 (le_bytes 2 s.length ++ s) := by
  have hl := le_bytes_length 2 s.length
  constructor
  · intro pre rest hlen
    rw [push_value_long_string_2, List.append_assoc,
      rb_read_at pre _ (s ++ rest) 2 (by rw [hl]; rfl) (by simpa using hlen)]
    simp only
    rw [rb_deref_at pre _ (s ++ rest) 2 hl.symm, le_val_le_bytes 2 _ (by omega),
      get_buffer_ok (pre ++ le_bytes 2 s.length) s rest _ rfl (by simpa using hlen)]
    simp
  · intro pre q r h hr hlen
    rw [push_value_long_string_2]
    rcases split_cases _ _ _ _ h with ⟨a', h1, _, ha'⟩ | ⟨q', h1, h2⟩
    · have := split_short h1 ha'
      rw [hl] at this
      rw [rb_read_short pre q 2 (by omega)]
    · subst h1
      have := split_short h2 hr
      rw [rb_read_at pre _ q' 2 (by rw [hl]; rfl) (by simpa using hlen)]
      simp only
      rw [rb_deref_at pre _ q' 2 hl.symm, le_val_le_bytes 2 _ (by omega),
        get_buffer_short _ q' _ (by omega)]

theorem push_spec_long_string_4 (one : read_block → Except Err (Value × read_block))
    (s : List Nat) (hs : s.length < 2147483648) :
    push_spec one (.string s) 5 4 (le_bytes 4 s.length ++ s) := by
  have hl := le_bytes_length 4 s.length
  have hw : wrap32 ((s.length : Nat) : Int) = (s.length : Nat) := wrap32_id (by omega) (by omega)
  constructor
  · intro pre rest hlen
    rw [push_value_long_string_4, List.append_assoc,
      rb_read_at pre _ (s ++ rest) 4 (by rw [hl]; rfl) (by simpa using hlen)]
    simp only
    rw [rb_deref_at pre _ (s ++ rest) 4 hl.symm, le_val_le_bytes 4 _ (by omega), hw,
      get_buffer_ok (pre ++ le_bytes 4 s.length) s rest _ rfl (by simpa using hlen)]
    simp
  · intro pre q r h hr hlen
    rw [push_value_long_string_4]
    rcases split_cases _ _ _ _ h with ⟨a', h1, _, ha'⟩ | ⟨q', h1, h2⟩
    · have := split_short h1 ha'
      rw [hl] at this
      rw [rb_read_short pre q 4 (by omega)]
    · subst h1
      have := split_short h2 hr
      rw [rb_read_at pre _ q' 4 (by rw [hl]; rfl) (by simpa using hlen)]
      simp only
      rw [rb_deref_at pre _ q' 4 hl.symm, le_val_le_bytes 4 _ (by omega), hw,
        get_buffer_short _ q' _ (by omega)]

/-! ## Decoding tables -/

theorem unpack_table_eq (one : read_block → Except Err (Value × read_block))
    (rb : read_block) (array_size : Int) :
    unpack_table one rb array_size =
      match unpack_table_size rb array_size with
      | .error e => .error e
      | .ok (array_size, rb) =>
        match unpack_table_array one array_size.toNat rb [] with
        | .error e => .error e
        | .ok (arr, rb) =>
          match unpack_table_hash one (rb.len.toNat + 1) rb [] with
          | .error e => .error e
          | .ok (hash, rb) => .ok (.table arr hash, rb) := rfl

theorem unpack_table_array_ok (one : read_block → Except Err (Value × read_block)) :
    ∀ (vs : List Value) (Es : List (List Nat)), List.Forall₂ (dec_spec one) vs Es →
    ∀ (pre rest : List Nat) (acc : List Value),
      (pre ++ Es.flatten ++ rest).length < 2147483648 →
      unpack_table_array one vs.length (rb_at pre (Es.flatten ++ rest)) acc =
        .ok (acc ++ vs, rb_at (pre ++ Es.flatten) rest) := by
  intro vs Es h
  induction h with
  | nil => intro pre rest acc _; simp [unpack_table_array]
  | @cons v E vs Es hv _ ih =>
    intro pre rest acc hlen
    simp only [List.flatten_cons, List.append_assoc, List.length_cons] at hlen ⊢
    rw [unpack_table_array, hv.ok pre (Es.flatten ++ rest) (by simpa using hlen)]
    simp only
    rw [ih (pre ++ E) rest (lua_rawseti acc v) (by simpa using hlen)]
    simp [lua_rawseti]

theorem unpack_table_array_fail (one : read_block → Except Err (Value × read_block)) :
    ∀ (vs : List Value) (Es : List (List Nat)), List.Forall₂ (dec_spec one) vs Es →
    ∀ (pre q r : List Nat) (acc : List Value), Es.flatten = q ++ r → r ≠ [] →
      (pre ++ q).length < 2147483648 →
      unpack_table_array one vs.length (rb_at pre q) acc = .error .invalid_stream := by
  intro vs Es h
  induction h with
  | nil =>
    intro pre q r acc hq hr _
    exfalso
    have := split_short hq hr
    simp at this
  | @cons v E vs Es hv _ ih =>
    intro pre q r acc hq hr hlen
    simp only [List.flatten_cons, List.length_cons] at hq ⊢
    rw [unpack_table_array]
    rcases split_cases _ _ _ _ hq with ⟨a', h1, _, ha'⟩ | ⟨q', h1, h2⟩
    · rw [hv.fail pre q a' h1 ha' hlen]
    · subst h1
      rw [hv.ok pre q' (by simpa using hlen)]
      simp only
      exact ih (pre ++ E) q' r _ h2 hr (by simpa using hlen)

theorem unpack_table_hash_ok (one : read_block → Except Err (Value × read_block))
    (hnil : dec_spec one .nil [0]) :
    ∀ (kvs : List (Value × Value)) (es : List (List Nat × List Nat)),
    List.Forall₂ (pair_spec one) kvs es →
    ∀ (fuel : Nat) (pre rest : List Nat) (acc : List (Value × Value)),
      (pairs_bytes es).length < fuel →
      (pre ++ pairs_bytes es ++ 0 :: rest).length < 2147483648 →
      unpack_table_hash one fuel (rb_at pre (pairs_bytes es ++ 0 :: rest)) acc =
        .ok (acc ++ kvs, rb_at (pre ++ pairs_bytes es ++ [0]) rest) := by
  intro kvs es h
  induction h with
  | nil =>
    intro fuel pre rest acc hf hlen
    obtain ⟨fuel, rfl⟩ : ∃ k, fuel = k + 1 := ⟨fuel - 1, by omega⟩
    simp only [pairs_bytes, List.map_nil, List.flatten_nil, List.nil_append, List.append_nil]
      at hlen ⊢
    have := hnil.ok pre rest (by simpa using hlen)
    simp only [List.singleton_append] at this
    rw [unpack_table_hash, this]
    simp [Value.isnil]
  | @cons kv e kvs es hkv _ ih =>
    intro fuel pre rest acc hf hlen
    obtain ⟨hk, hv, hkn, hne⟩ := hkv
    have hpb : pairs_bytes (e :: es) = e.1 ++ (e.2 ++ pairs_bytes es) := by
      simp [pairs_bytes]
    rw [hpb] at hf hlen ⊢
    have hpos : 0 < e.1.length := List.length_pos.mpr hne
    simp only [List.length_append] at hf
    obtain ⟨fuel, rfl⟩ : ∃ k, fuel = k + 1 := ⟨fuel - 1, by omega⟩
    simp only [List.append_assoc] at hlen ⊢
    rw [unpack_table_hash, hk.ok pre _ (by simpa using hlen)]
    simp only [hkn, Bool.false_eq_true, if_false]
    rw [hv.ok (pre ++ e.1) _ (by simpa using hlen)]
    simp only
    rw [ih fuel (pre ++ e.1 ++ e.2) rest _ (by omega) (by simpa using hlen)]
    simp [lua_rawset]

theorem unpack_table_hash_fail (one : read_block → Except Err (Value × read_block))
    (hnil : dec_spec one .nil [0]) :
    ∀ (kvs : List (Value × Value)) (es : List (List Nat × List Nat)),
    List.Forall₂ (pair_spec one) kvs es →
    ∀ (fuel : Nat) (pre q r : List Nat) (acc : List (Value × Value)),
      pairs_bytes es ++ [0] = q ++ r → r ≠ [] → q.length < fuel →
      (pre ++ q).length < 2147483648 →
      unpack_table_hash one fuel (rb_at pre q) acc = .error .invalid_stream := by
  intro kvs es h
  induction h with
  | nil =>
    intro fuel pre q r acc hq hr hf hlen
    obtain ⟨fuel, rfl⟩ : ∃ k, fuel = k + 1 := ⟨fuel - 1, by omega⟩
    simp only [pairs_bytes, List.map_nil, List.flatten_nil, List.nil_append] at hq
    rw [unpack_table_hash, hnil.fail pre q r hq hr hlen]
  | @cons kv e kvs es hkv _ ih =>
    intro fuel pre q r acc hq hr hf hlen
    obtain ⟨hk, hv, hkn, hne⟩ := hkv
    have hpb : pairs_bytes (e :: es) = e.1 ++ (e.2 ++ pairs_bytes es) := by
      simp [pairs_bytes]
    rw [hpb, List.append_assoc, List.append_assoc] at hq
    have hpos : 0 < e.1.length := List.length_pos.mpr hne
    obtain ⟨fuel, rfl⟩ : ∃ k, fuel = k + 1 := ⟨fuel - 1, by omega⟩
    rw [unpack_table_hash]
    rcases split_cases _ _ _ _ hq with ⟨a', h1, _, ha'⟩ | ⟨q', h1, h2⟩
    · rw [hk.fail pre q a' h1 ha' hlen]
    · subst h1
      rw [hk.ok pre q' (by simpa using hlen)]
      simp only [hkn, Bool.false_eq_true, if_false]
      rcases split_cases _ _ _ _ h2 with ⟨a', h1, _, ha'⟩ | ⟨q'', h1, h3⟩
      · rw [hv.fail (pre ++ e.1) q' a' h1 ha' (by simpa using hlen)]
      · subst h1
        rw [hv.ok (pre ++ e.1) q'' (by simpa using hlen)]
        simp only
        simp only [List.length_append] at hf
        exact ih fuel (pre ++ e.1 ++ e.2) q'' r _ h3 hr (by omega) (by simpa using hlen)

theorem size_field_small (s : Nat) (h : s < 31) : size_field s = [] := by
  unfold size_field; rw [if_pos h]

theorem size_field_big (s : Nat) (h : ¬ s < 31) :
    size_field s = (2 + 8 * int_cookie s) :: int_payload s := by
  unfold size_field; rw [if_neg h]; rfl

theorem unpack_table_size_ok (s : Nat) (hs : s < 2147483648) (pre rest : List Nat)
    (hlen : (pre ++ size_field s ++ rest).length < 2147483648) :
    unpack_table_size (rb_at pre (size_field s ++ rest)) ((min s 31 : Nat) : Int) =
      .ok ((s : Int), rb_at (pre ++ size_field s) rest) := by
  by_cases h : s < 31
  · have hm : min s 31 = s := by omega
    have hne : ¬ ((s : Int) = MAX_COOKIE - 1) := by simp only [MAX_COOKIE]; omega
    rw [size_field_small s h, hm]
    unfold unpack_table_size
    rw [if_neg hne]
    simp
  · have hm : min s 31 = 31 := by omega
    have he : (((31 : Nat) : Int) = MAX_COOKIE - 1) := by simp only [MAX_COOKIE]; rfl
    rw [size_field_big s h] at hlen ⊢
    rw [hm]
    unfold unpack_table_size
    rw [if_pos he]
    have hsplit := lead_byte_split 2 (int_cookie s) (by decide)
    have hr := rb_read_at pre [2 + 8 * int_cookie (s : Int)] (int_payload s ++ rest) 1 rfl
      (by simpa using hlen)
    simp only [List.singleton_append] at hr
    rw [List.cons_append, hr]
    simp only
    rw [rb_deref_at pre [2 + 8 * int_cookie (s : Int)] (int_payload s ++ rest) 1 rfl, le_val_single,
      hsplit.1, hsplit.2]
    have h2 : ¬ (2 ≠ TYPE_NUMBER) := by simp [TYPE_NUMBER]
    rw [if_neg h2, get_number_int _ _ (int_cookie_ne_8 _),
      get_integer_ok s (by omega) (by omega) (pre ++ [2 + 8 * int_cookie (s : Int)]) rest
        (by simpa using hlen)]
    simp only
    rw [double_to_int_of_int s (by omega) (by omega)]
    simp

theorem unpack_table_size_fail (s : Nat) (pre q r : List Nat)
    (hq : size_field s = q ++ r) (hr : r ≠ []) (hlen : (pre ++ q).length < 2147483648) :
    unpack_table_size (rb_at pre q) ((min s 31 : Nat) : Int) = .error .invalid_stream := by
  by_cases h : s < 31
  · exfalso
    rw [size_field_small s h] at hq
    have := split_short hq hr
    simp at this
  · have hm : min s 31 = 31 := by omega
    have he : (((31 : Nat) : Int) = MAX_COOKIE - 1) := by simp only [MAX_COOKIE]; rfl
    rw [size_field_big s h] at hq
    rw [hm]
    unfold unpack_table_size
    rw [if_pos he]
    cases q with
    | nil => rw [rb_read_short pre [] 1 (by simp)]
    | cons t q' =>
      simp only [List.cons_append, List.cons.injEq] at hq
      obtain ⟨ht, hq'⟩ := hq
      subst ht
      have hsplit := lead_byte_split 2 (int_cookie s) (by decide)
      have hr' := rb_read_at pre [2 + 8 * int_cookie (s : Int)] q' 1 rfl (by simpa using hlen)
      simp only [List.singleton_append] at hr'
      rw [hr']
      simp only
      rw [rb_deref_at pre [2 + 8 * int_cookie (s : Int)] q' 1 rfl, le_val_single,
        hsplit.1, hsplit.2]
      have h2 : ¬ (2 ≠ TYPE_NUMBER) := by simp [TYPE_NUMBER]
      have hshort := split_short hq' hr
      rw [int_payload_length] at hshort
      rw [if_neg h2, get_number_int _ _ (int_cookie_ne_8 _),
        get_integer_short _ q' _ (by omega)]

/-- Decoding a table whose elements and pairs `one` decodes. -/
theorem push_spec_table (one : read_block → Except Err (Value × read_block))
    (arr : List Value) (hash : List (Value × Value)) (Es : List (List Nat))
    (es : List (List Nat × List Nat)) (hs : arr.length < 2147483648)
    (harr : List.Forall₂ (dec_spec one) arr Es) (hhash : List.Forall₂ (pair_spec one) hash es)
    (hnil : dec_spec one .nil [0]) :
    push_spec one (.table arr hash) 6 (min arr.length 31)
      (size_field arr.length ++ (Es.flatten ++ (pairs_bytes es ++ [0]))) := by
  constructor
  · intro pre rest hlen
    simp only [List.append_assoc] at hlen ⊢
    rw [push_value_table, unpack_table_eq,
      unpack_table_size_ok arr.length hs pre _ (by simpa using hlen)]
    simp only [Int.toNat_ofNat]
    rw [unpack_table_array_ok one arr Es harr (pre ++ size_field arr.length) _ []
      (by simpa using hlen)]
    simp only [List.nil_append]
    have hfuel : (pairs_bytes es).length <
        (rb_at (pre ++ size_field arr.length ++ Es.flatten)
          (pairs_bytes es ++ ([0] ++ rest))).len.toNat + 1 := by
      simp only [rb_at, List.length_append, Int.toNat_ofNat]; omega
    rw [show ([0] ++ rest : List Nat) = 0 :: rest from rfl] at hfuel ⊢
    rw [unpack_table_hash_ok one hnil hash es hhash _ _ rest [] hfuel (by simpa using hlen)]
    simp
  · intro pre q r hq hr hlen
    rw [push_value_table, unpack_table_eq]
    rcases split_cases _ _ _ _ hq with ⟨a', h1, _, ha'⟩ | ⟨q1, h1, h2⟩
    · rw [unpack_table_size_fail arr.length pre q a' h1 ha' hlen]
    · subst h1
      rw [unpack_table_size_ok arr.length hs pre q1 (by simpa using hlen)]
      simp only [Int.toNat_ofNat]
      rcases split_cases _ _ _ _ h2 with ⟨a', h1, _, ha'⟩ | ⟨q2, h1, h3⟩
      · rw [unpack_table_array_fail one arr Es harr _ q1 a' [] h1 ha' (by simpa using hlen)]
      · subst h1
        rw [unpack_table_array_ok one arr Es harr (pre ++ size_field arr.length) q2 []
          (by simpa using hlen)]
        simp only [List.nil_append]
        have hfuel : q2.length <
            (rb_at (pre ++ size_field arr.length ++ Es.flatten) q2).len.toNat + 1 := by
          simp only [rb_at, Int.toNat_ofNat]; omega
        rw [unpack_table_hash_fail one hnil hash es hhash _ _ q2 r [] h3 hr hfuel
          (by simpa using hlen)]

/-! ## The shape of what the packer writes -/

theorem enc_array_loop_spec (enc : Value → Int → Except Err (List Nat)) (depth : Int) :
    ∀ (todo done : List Value) (A : List Nat),
      enc_array_loop enc (done ++ todo) (((done ++ todo).length : Nat) : Int) depth todo.length
        = .ok A →
      ∃ Es, List.Forall₂ (fun v E => enc v depth = .ok E) todo Es ∧ A = Es.flatten := by
  intro todo
  induction todo with
  | nil =>
    intro done A h
    simp only [List.length_nil, enc_array_loop, Except.ok.injEq] at h
    exact ⟨[], List.Forall₂.nil, by simp [← h]⟩
  | cons v todo ih =>
    intro done A h
    have hget : lua_rawgeti (done ++ v :: todo)
        ((((done ++ v :: todo).length : Nat) : Int) - (todo.length : Nat)) = v := by
      have h1 : (1 : Int) ≤ (((done ++ v :: todo).length : Nat) : Int) - (todo.length : Nat) := by
        simp only [List.length_append, List.length_cons]; push_cast; omega
      have h2 : ((((done ++ v :: todo).length : Nat) : Int) - (todo.length : Nat) - 1).toNat
          = done.length := by
        simp only [List.length_append, List.length_cons]; push_cast; omega
      unfold lua_rawgeti
      rw [if_pos h1, h2, List.getD_eq_getElem?_getD,
        List.getElem?_append_right (Nat.le_refl _)]
      simp
    simp only [List.length_cons, enc_array_loop] at h
    rw [hget] at h
    cases hv : enc v depth with
    | error e => rw [hv] at h; simp at h
    | ok E =>
      rw [hv] at h
      simp only at h
      have hassoc : done ++ v :: todo = (done ++ [v]) ++ todo := by simp
      rw [hassoc] at h
      cases hr : enc_array_loop enc (done ++ [v] ++ todo)
          (((done ++ [v] ++ todo).length : Nat) : Int) depth todo.length with
      | error e => rw [hr] at h; simp at h
      | ok R =>
        rw [hr] at h
        simp only [Except.ok.injEq] at h
        obtain ⟨Es, hEs, hR⟩ := ih (done ++ [v]) R hr
        exact ⟨E :: Es, List.Forall₂.cons hv hEs, by simp [← h, hR]⟩

theorem enc_hash_loop_skip (enc : Value → Int → Except Err (List Nat)) (depth s : Int) :
    ∀ (l1 l2 : List (Value × Value)), (∀ kv ∈ l1, hash_skip kv.1 s = true) →
      enc_hash_loop enc depth s (l1 ++ l2) = enc_hash_loop enc depth s l2 := by
  intro l1
  induction l1 with
  | nil => intro l2 _; rfl
  | cons kv l1 ih =>
    intro l2 h
    obtain ⟨k, v⟩ := kv
    have hk : hash_skip k s = true := h (k, v) (by simp)
    simp only [List.cons_append, enc_hash_loop, hk, if_true]
    exact ih l2 (fun kv hkv => h kv (by simp [hkv]))

theorem enc_hash_loop_spec (enc : Value → Int → Except Err (List Nat)) (depth s : Int) :
    ∀ (l : List (Value × Value)) (H : List Nat), (∀ kv ∈ l, hash_skip kv.1 s = false) →
      enc_hash_loop enc depth s l = .ok H →
      ∃ es, List.Forall₂ (fun (kv : Value × Value) (e : List Nat × List Nat) =>
          enc kv.1 depth = .ok e.1 ∧ enc kv.2 depth = .ok e.2) l es ∧ H = pairs_bytes es := by
  intro l
  induction l with
  | nil =>
    intro H _ h
    simp only [enc_hash_loop, Except.ok.injEq] at h
    exact ⟨[], List.Forall₂.nil, by simp [← h, pairs_bytes]⟩
  | cons kv l ih =>
    intro H hs h
    obtain ⟨k, v⟩ := kv
    have hk : hash_skip k s = false := hs (k, v) (by simp)
    simp only [enc_hash_loop, hk, Bool.false_eq_true, if_false] at h
    cases hK : enc k depth with
    | error e => rw [hK] at h; simp at h
    | ok K =>
      rw [hK] at h
      simp only at h
      cases hV : enc v depth with
      | error e => rw [hV] at h; simp at h
      | ok V =>
        rw [hV] at h
        simp only at h
        cases hR : enc_hash_loop enc depth s l with
        | error e => rw [hR] at h; simp at h
        | ok R =>
          rw [hR] at h
          simp only [Except.ok.injEq] at h
          obtain ⟨es, hes, hR'⟩ := ih R (fun kv hkv => hs kv (by simp [hkv])) hR
          exact ⟨(K, V) :: es, List.Forall₂.cons ⟨hK, hV⟩ hes, by simp [← h, hR', pairs_bytes]⟩

theorem hash_skip_index (i : Nat) (s : Nat) (hi : i < s) (hs : s < 2147483648) :
    hash_skip (.number (double_of_int ((i : Int) + 1))) (s : Int) = true := by
  have h1 : -2147483648 ≤ (i : Int) + 1 := by omega
  have h2 : (i : Int) + 1 < 2147483648 := by omega
  simp only [hash_skip, lua_tointeger_of_int _ h1 h2, wrap32_id h1 h2,
    double_eq_of_int_self _ h1 h2, Bool.true_and, Bool.and_eq_true, decide_eq_true_eq]
  omega

theorem lua_next_skip (arr : List Value) (hash : List (Value × Value))
    (hs : arr.length < 2147483648) :
    ∃ l1, lua_next arr hash = l1 ++ hash ∧
      ∀ kv ∈ l1, hash_skip kv.1 ((arr.length : Nat) : Int) = true := by
  refine ⟨_, rfl, ?_⟩
  intro kv hkv
  simp only [List.mem_filter, List.mem_map, List.mem_range] at hkv
  obtain ⟨⟨i, hi, rfl⟩, _⟩ := hkv
  exact hash_skip_index i arr.length hi hs

theorem tag_nat (t c : Nat) (ht : t < 8) (hc : c < 32) : tag t (c : Int) = t + 8 * c := by
  rw [tag_eq t c ht (by omega) (by omega)]; simp

theorem enc_table_header_eq (s : Nat) (hs : s < 2147483648) :
    enc_table_header (s : Int) = (6 + 8 * min s 31) :: size_field s := by
  unfold enc_table_header size_field
  by_cases h : s < 31
  · have h' : ¬ ((s : Int) ≥ MAX_COOKIE - 1) := by simp only [MAX_COOKIE]; omega
    have hm : min s 31 = s := by omega
    rw [if_neg h', if_pos h, hm, TYPE_TABLE, tag_nat 6 s (by decide) (by omega)]
  · have h' : ((s : Int) ≥ MAX_COOKIE - 1) := by simp only [MAX_COOKIE]; omega
    have hm : min s 31 = 31 := by omega
    have h31 : MAX_COOKIE - 1 = ((31 : Nat) : Int) := by simp only [MAX_COOKIE]; rfl
    rw [if_pos h', if_neg h, hm, enc_integer_eq, h31, TYPE_TABLE, TYPE_NUMBER,
      tag_nat 6 31 (by decide) (by decide), tag_nat 2 _ (by decide) (int_cookie_lt _)]

/-! ## Unpacking what was packed -/

theorem enc_integer_length_pos (x : Int) (t : Nat) : 0 < (enc_integer x t).length := by
  rw [enc_integer_eq]; simp

theorem enc_string_length_pos (s : List Nat) (len : Int) : 0 < (enc_string s len).length := by
  unfold enc_string
  split
  · simp
  · split <;> simp

theorem encode_length_pos (f : Nat) (v : Value) (d : Int) (E : List Nat)
    (h : encode f v d = .ok E) : 0 < E.length := by
  cases f with
  | zero => simp [encode] at h
  | succ f =>
    unfold encode at h
    split at h
    · simp at h
    · cases v with
      | nil => simp only [Except.ok.injEq] at h; rw [← h]; simp
      | boolean b => simp only [Except.ok.injEq] at h; rw [← h]; simp
      | number n =>
        simp only at h
        split at h
        · simp only [Except.ok.injEq] at h; rw [← h]; exact enc_integer_length_pos _ _
        · simp only [Except.ok.injEq] at h; rw [← h]; simp
      | string s =>
        simp only [Except.ok.injEq] at h; rw [← h]; exact enc_string_length_pos _ _
      | lightuserdata p => simp only [Except.ok.injEq] at h; rw [← h]; simp
      | table arr hash =>
        simp only [enc_table] at h
        split at h
        · simp at h
        · split at h
          · simp at h
          · simp only [Except.ok.injEq] at h; rw [← h]; simp
      | other t => simp at h

theorem dec_spec_nil (fu : Nat) : dec_spec (unpack_one (fu + 1)) .nil [0] := by
  constructor
  · intro pre rest hlen
    rw [unpack_one, rb_read_at pre [0] rest 1 rfl hlen]
    simp only
    rw [rb_deref_at pre [0] rest 1 rfl, le_val_single]
    rfl
  · intro pre q r hq hr hlen
    have := split_short hq hr
    have hq0 : q = [] := List.length_eq_zero.mp (by simpa using this)
    subst hq0
    rw [unpack_one, rb_read_short pre [] 1 (by simp)]

/-- Reading the lead byte and then `push_value` is `unpack_one`. -/
theorem dec_of_push (fu : Nat) (v : Value) (t c : Nat) (payload : List Nat) (ht : t < 8)
    (h : push_spec (unpack_one fu) v t c payload) :
    dec_spec (unpack_one (fu + 1)) v ((t + 8 * c) :: payload) := by
  have hsplit := lead_byte_split t c ht
  constructor
  · intro pre rest hlen
    have hr := rb_read_at pre [t + 8 * c] (payload ++ rest) 1 rfl (by simpa using hlen)
    simp only [List.singleton_append] at hr
    rw [unpack_one, List.cons_append, hr]
    simp only
    rw [rb_deref_at pre [t + 8 * c] (payload ++ rest) 1 rfl, le_val_single, hsplit.1, hsplit.2,
      h.ok (pre ++ [t + 8 * c]) rest (by simpa using hlen)]
    simp
  · intro pre q r hq hr hlen
    cases q with
    | nil => rw [unpack_one, rb_read_short pre [] 1 (by simp)]
    | cons t' q' =>
      simp only [List.cons_append, List.cons.injEq] at hq
      obtain ⟨ht', hq'⟩ := hq
      subst ht'
      have hr' := rb_read_at pre [t + 8 * c] q' 1 rfl (by simpa using hlen)
      simp only [List.singleton_append] at hr'
      rw [unpack_one, hr']
      simp only
      rw [rb_deref_at pre [t + 8 * c] q' 1 rfl, le_val_single, hsplit.1, hsplit.2,
        h.fail (pre ++ [t + 8 * c]) q' r hq' hr (by simpa using hlen)]

theorem forall2_dec (one : read_block → Except Err (Value × read_block))
    (enc : Value → Except Err (List Nat)) :
    ∀ (vs : List Value) (Es : List (List Nat)),
      List.Forall₂ (fun v E => enc v = .ok E) vs Es → (∀ v ∈ vs, Exact v) →
      ∀ (N : Nat), Es.flatten.length ≤ N →
      (∀ v E, enc v = .ok E → Exact v → E.length ≤ N → dec_spec one v E) →
      List.Forall₂ (dec_spec one) vs Es := by
  intro vs Es h
  induction h with
  | nil => intro _ _ _ _; exact List.Forall₂.nil
  | @cons v E vs Es hv _ ih =>
    intro hex N hN hdec
    simp only [List.flatten_cons, List.length_append] at hN
    exact List.Forall₂.cons (hdec v E hv (hex v (by simp)) (by omega))
      (ih (fun v hv => hex v (by simp [hv])) N (by omega) hdec)

theorem forall2_pair (one : read_block → Except Err (Value × read_block))
    (enc : Value → Except Err (List Nat))
    (hpos : ∀ v E, enc v = .ok E → 0 < E.length) :
    ∀ (kvs : List (Value × Value)) (es : List (List Nat × List Nat)),
      List.Forall₂ (fun (kv : Value × Value) (e : List Nat × List Nat) =>
        enc kv.1 = .ok e.1 ∧ enc kv.2 = .ok e.2) kvs es →
      (∀ kv ∈ kvs, Exact kv.1) → (∀ kv ∈ kvs, Exact kv.2) → (∀ kv ∈ kvs, kv.1.isnil = false) →
      ∀ (N : Nat), (pairs_bytes es).length ≤ N →
      (∀ v E, enc v = .ok E → Exact v → E.length ≤ N → dec_spec one v E) →
      List.Forall₂ (pair_spec one) kvs es := by
  intro kvs es h
  induction h with
  | nil => intro _ _ _ _ _ _; exact List.Forall₂.nil
  | @cons kv e kvs es hkv _ ih =>
    intro hk hv hn N hN hdec
    have hpb : pairs_bytes (e :: es) = e.1 ++ (e.2 ++ pairs_bytes es) := by
      simp [pairs_bytes]
    rw [hpb] at hN
    simp only [List.length_append] at hN
    refine List.Forall₂.cons ⟨?_, ?_, ?_, ?_⟩ ?_
    · exact hdec kv.1 e.1 hkv.1 (hk kv (by simp)) (by omega)
    · exact hdec kv.2 e.2 hkv.2 (hv kv (by simp)) (by omega)
    · exact hn kv (by simp)
    · exact List.length_pos.mp (hpos _ _ hkv.1)
    · exact ih (fun kv h => hk kv (by simp [h])) (fun kv h => hv kv (by simp [h]))
        (fun kv h => hn kv (by simp [h])) N (by omega) hdec

theorem wrap32_range (y : Int) : -2147483648 ≤ wrap32 y ∧ wrap32 y < 2147483648 := by
  rw [wrap32_eq]; omega

theorem double_eq_exact (a n : Nat) (ha : double_iszero a = true → a = 0)
    (hn : n < 18446744073709551616) (hz : n ≠ 9223372036854775808)
    (h : double_eq a n = true) : a = n := by
  simp only [double_eq, Bool.and_eq_true, Bool.or_eq_true, decide_eq_true_eq] at h
  rcases h.2 with ⟨h1, h2⟩ | h3
  · rw [ha h1]
    have h63 : (2 : Nat) ^ 63 = 9223372036854775808 := by norm_num
    have : n % 9223372036854775808 = 0 := by
      simpa [double_iszero, h63] using h2
    omega
  · exact h3

theorem enc_string_exact (s : List Nat) (hs : s.length < 2147483648) :
    enc_string s (wrap32 s.length) =
      if s.length < 32 then (4 + 8 * s.length) :: s
      else if s.length < 65536 then (5 + 8 * 2) :: (le_bytes 2 s.length ++ s)
      else (5 + 8 * 4) :: (le_bytes 4 s.length ++ s) := by
  have hw : wrap32 ((s.length : Nat) : Int) = (s.length : Nat) := wrap32_id (by omega) (by omega)
  have hu : toU32 ((s.length : Nat) : Int) = s.length := by
    rw [toU32_nonneg _ (by omega) (by omega)]; simp
  have ht : s.take s.length = s := List.take_length s
  rw [hw]
  unfold enc_string
  simp only [MAX_COOKIE, Int.toNat_ofNat, ht, hu, TYPE_SHORT_STRING, TYPE_LONG_STRING]
  by_cases h32 : s.length < 32
  · have h1 : ((s.length : Nat) : Int) < 32 := by omega
    rw [if_pos h1, if_pos h32, tag_nat 4 _ (by decide) h32]
    by_cases h0 : ((s.length : Nat) : Int) > 0
    · rw [if_pos h0]
    · rw [if_neg h0]
      have : s = [] := List.length_eq_zero.mp (by omega)
      rw [this]
  · have h1 : ¬ ((s.length : Nat) : Int) < 32 := by omega
    rw [if_neg h1, if_neg h32]
    by_cases h64 : s.length < 65536
    · have h2 : ((s.length : Nat) : Int) < 65536 := by omega
      have hm : s.length % 65536 = s.length := by omega
      rw [if_pos h2, if_pos h64, hm]
      rfl
    · have h2 : ¬ ((s.length : Nat) : Int) < 65536 := by omega
      rw [if_neg h2, if_neg h64]
      rfl

/-- What `encode` gives for an exact value is a lead byte and a payload that
`push_value` reads back, provided `one` reads back the values inside it. -/
theorem encode_push_spec (f : Nat) (one : read_block → Except Err (Value × read_block))
    (v : Value) (d : Int) (E : List Nat) (he : encode (f + 1) v d = .ok E) (hv : Exact v)
    (hnil : 2 ≤ E.length → dec_spec one .nil [0])
    (hsub : ∀ v' E', encode f v' (d + 1) = .ok E' → Exact v' → E'.length + 1 < E.length →
      dec_spec one v' E') :
    ∃ t c payload, E = (t + 8 * c) :: payload ∧ t < 8 ∧ push_spec one v t c payload := by
  unfold encode at he
  split at he
  · simp at he
  · cases hv with
    | nil =>
      simp only [Except.ok.injEq] at he
      exact ⟨0, 0, [], he.symm, by decide, push_spec_nil one 0⟩
    | boolean b =>
      simp only [Except.ok.injEq] at he
      refine ⟨1, if b then 1 else 0, [], ?_, by decide, push_spec_boolean one b⟩
      rw [← he]; cases b <;> rfl
    | number n hn hz =>
      simp only at he
      obtain ⟨hx1, hx2⟩ := wrap32_range (lua_tointeger n)
      split at he
      · rename_i heq
        simp only [Except.ok.injEq] at he
        have hxn := double_eq_exact _ n (double_of_int_iszero _ hx1 hx2) hn hz heq
        refine ⟨2, int_cookie (wrap32 (lua_tointeger n)), int_payload (wrap32 (lua_tointeger n)),
          ?_, by decide, ?_⟩
        · rw [← he, enc_integer_eq, TYPE_NUMBER, ← tag_nat 2 _ (by decide) (int_cookie_lt _)]
        · have := push_spec_integer one _ hx1 hx2
          rw [hxn] at this
          exact this
      · simp only [Except.ok.injEq] at he
        exact ⟨2, 8, le_bytes 8 n, he.symm, by decide, push_spec_double one n hn⟩
    | string s hs =>
      simp only [Except.ok.injEq] at he
      rw [enc_string_exact s hs] at he
      split at he
      · exact ⟨4, s.length, s, he.symm, by decide, push_spec_short_string one s⟩
      · split at he
        · rename_i h64
          exact ⟨5, 2, _, he.symm, by decide, push_spec_long_string_2 one s h64⟩
        · exact ⟨5, 4, _, he.symm, by decide, push_spec_long_string_4 one s hs⟩
    | lightuserdata p hp =>
      simp only [Except.ok.injEq] at he
      exact ⟨3, 0, le_bytes 8 p, he.symm, by decide, push_spec_pointer one p 0 hp⟩
    | table arr hash hlen harr hkey hval hnk hskip =>
      simp only [enc_table] at he
      have hw : wrap32 ((lua_rawlen arr : Nat) : Int) = (arr.length : Nat) :=
        wrap32_id (by simp only [lua_rawlen]; omega) (by simp only [lua_rawlen]; omega)
      rw [hw] at he
      simp only [Int.toNat_ofNat] at he
      cases hA : enc_array_loop (encode f) arr (arr.length : Nat) (d + 1) arr.length with
      | error e => rw [hA] at he; simp at he
      | ok A =>
        rw [hA] at he
        simp only at he
        obtain ⟨l1, hl1, hl1s⟩ := lua_next_skip arr hash hlen
        rw [hl1, enc_hash_loop_skip _ _ _ l1 hash hl1s] at he
        cases hH : enc_hash_loop (encode f) (d + 1) (arr.length : Nat) hash with
        | error e => rw [hH] at he; simp at he
        | ok H =>
          rw [hH] at he
          simp only [Except.ok.injEq] at he
          obtain ⟨Es, hEs, hAE⟩ := enc_array_loop_spec (encode f) (d + 1) arr [] A
            (by simpa using hA)
          obtain ⟨es, hes, hHe⟩ := enc_hash_loop_spec (encode f) (d + 1) _ hash H hskip hH
          rw [enc_table_header_eq arr.length hlen, hAE, hHe] at he
          have hElen : E.length = 1 + (size_field arr.length).length + Es.flatten.length +
              (pairs_bytes es).length + 1 := by
            rw [← he]; simp [toU8]; omega
          have hdec : ∀ v' E', encode f v' (d + 1) = .ok E' → Exact v' →
              E'.length ≤ Es.flatten.length + (pairs_bytes es).length → dec_spec one v' E' :=
            fun v' E' h1 h2 h3 => hsub v' E' h1 h2 (by omega)
          have h1 := forall2_dec one (fun v => encode f v (d + 1)) arr Es hEs harr
            (Es.flatten.length + (pairs_bytes es).length) (by omega) hdec
          have h2 := forall2_pair one (fun v => encode f v (d + 1))
            (fun v E h => encode_length_pos f v (d + 1) E h) hash es hes hkey hval hnk
            (Es.flatten.length + (pairs_bytes es).length) (by omega) hdec
          refine ⟨6, min arr.length 31, _, ?_, by decide,
            push_spec_table one arr hash Es es hlen h1 h2 (hnil (by omega))⟩
          rw [← he]
          simp [toU8, TYPE_NIL]

/-- Every exact value that `encode` accepts is read back by `unpack_one`, and a
buffer that ends inside its encoding is rejected. -/
theorem unpack_one_spec : ∀ (f : Nat) (v : Value) (d : Int) (E : List Nat),
    encode f v d = .ok E → Exact v → ∀ (fu : Nat), E.length ≤ fu →
    dec_spec (unpack_one fu) v E := by
  intro f
  induction f with
  | zero => intro v d E he; simp [encode] at he
  | succ f ih =>
    intro v d E he hv fu hfu
    have hpos := encode_length_pos _ _ _ _ he
    obtain ⟨fu, rfl⟩ : ∃ k, fu = k + 1 := ⟨fu - 1, by omega⟩
    have hnil : 2 ≤ E.length → dec_spec (unpack_one fu) .nil [0] := by
      intro h2
      obtain ⟨k, rfl⟩ : ∃ k, fu = k + 1 := ⟨fu - 1, by omega⟩
      exact dec_spec_nil k
    obtain ⟨t, c, payload, hE, ht, hp⟩ := encode_push_spec f (unpack_one fu) v d E he hv hnil
      (fun v' E' h1 h2 h3 => ih v' (d + 1) E' h1 h2 fu (by omega))
    rw [hE]
    exact dec_of_push fu v t c payload ht hp

theorem push_value_spec (f : Nat) (v : Value) (d : Int) (E : List Nat)
    (he : encode f v d = .ok E) (hv : Exact v) (fu : Nat) (hfu : E.length ≤ fu + 1) :
    stream_spec (unpack_one fu) v E := by
  cases f with
  | zero => simp [encode] at he
  | succ f =>
    have hnil : 2 ≤ E.length → dec_spec (unpack_one fu) .nil [0] := by
      intro h2
      obtain ⟨k, rfl⟩ : ∃ k, fu = k + 1 := ⟨fu - 1, by omega⟩
      exact dec_spec_nil k
    exact encode_push_spec f (unpack_one fu) v d E he hv hnil
      (fun v' E' h1 h2 h3 => unpack_one_spec f v' (d + 1) E' h1 h2 fu (by omega))

theorem unpack_loop_ok (depth : Nat) :
    ∀ (vs : List Value) (Es : List (List Nat)),
      List.Forall₂ (stream_spec (unpack_one depth)) vs Es →
      ∀ (fuel : Nat) (pre : List Nat) (acc : List Value), Es.flatten.length < fuel →
        (pre ++ Es.flatten).length < 2147483648 →
        unpack_loop depth fuel (rb_at pre Es.flatten) acc = .ok (acc ++ vs) := by
  intro vs Es h
  induction h with
  | nil =>
    intro fuel pre acc hf _
    obtain ⟨fuel, rfl⟩ : ∃ k, fuel = k + 1 := ⟨fuel - 1, by omega⟩
    simp only [List.flatten_nil, List.append_nil]
    rw [unpack_loop, rb_read_short pre [] 1 (by simp)]
  | @cons v E vs Es hv _ ih =>
    intro fuel pre acc hf hlen
    obtain ⟨t, c, payload, hE, ht, hp⟩ := hv
    subst hE
    simp only [List.flatten_cons, List.length_append, List.length_cons] at hf
    obtain ⟨fuel, rfl⟩ : ∃ k, fuel = k + 1 := ⟨fuel - 1, by omega⟩
    have hsplit := lead_byte_split t c ht
    simp only [List.flatten_cons, List.cons_append] at hlen ⊢
    have hr := rb_read_at pre [t + 8 * c] (payload ++ Es.flatten) 1 rfl (by simpa using hlen)
    simp only [List.singleton_append] at hr
    rw [unpack_loop, hr]
    simp only
    rw [rb_deref_at pre [t + 8 * c] (payload ++ Es.flatten) 1 rfl, le_val_single, hsplit.1,
      hsplit.2]
    have := hp.ok (pre ++ [t + 8 * c]) Es.flatten (by simpa using hlen)
    rw [this]
    simp only
    have h2 := ih fuel (pre ++ [t + 8 * c] ++ payload) (acc ++ [v]) (by omega)
      (by simpa using hlen)
    rw [h2]
    simp

theorem unpack_loop_fail (depth : Nat) (v : Value) (t c : Nat) (q r : List Nat) (ht : t < 8)
    (hp : push_spec (unpack_one depth) v t c (q ++ r)) (hr : r ≠ []) :
    ∀ (vs : List Value) (Es : List (List Nat)),
      List.Forall₂ (stream_spec (unpack_one depth)) vs Es →
      ∀ (fuel : Nat) (pre : List Nat) (acc : List Value), Es.flatten.length < fuel →
        (pre ++ Es.flatten ++ (t + 8 * c) :: q).length < 2147483648 →
        unpack_loop depth fuel (rb_at pre (Es.flatten ++ (t + 8 * c) :: q)) acc =
          .error .invalid_stream := by
  intro vs Es h
  induction h with
  | nil =>
    intro fuel pre acc hf hlen
    obtain ⟨fuel, rfl⟩ : ∃ k, fuel = k + 1 := ⟨fuel - 1, by omega⟩
    have hsplit := lead_byte_split t c ht
    simp only [List.flatten_nil, List.nil_append, List.append_nil] at hlen ⊢
    have hr' := rb_read_at pre [t + 8 * c] q 1 rfl (by simpa using hlen)
    simp only [List.singleton_append] at hr'
    rw [unpack_loop, hr']
    simp only
    rw [rb_deref_at pre [t + 8 * c] q 1 rfl, le_val_single, hsplit.1, hsplit.2,
      hp.fail (pre ++ [t + 8 * c]) q r rfl hr (by simpa using hlen)]
  | @cons v' E vs Es hv _ ih =>
    intro fuel pre acc hf hlen
    obtain ⟨t', c', payload, hE, ht', hp'⟩ := hv
    subst hE
    simp only [List.flatten_cons, List.length_append, List.length_cons] at hf
    obtain ⟨fuel, rfl⟩ : ∃ k, fuel = k + 1 := ⟨fuel - 1, by omega⟩
    have hsplit := lead_byte_split t' c' ht'
    simp only [List.flatten_cons, List.cons_append, List.append_assoc] at hlen ⊢
    have hr' := rb_read_at pre [t' + 8 * c'] (payload ++ (Es.flatten ++ (t + 8 * c) :: q)) 1 rfl
      (by simpa using hlen)
    simp only [List.singleton_append] at hr'
    rw [unpack_loop, hr']
    simp only
    rw [rb_deref_at pre [t' + 8 * c'] (payload ++ (Es.flatten ++ (t + 8 * c) :: q)) 1 rfl,
      le_val_single, hsplit.1, hsplit.2]
    have := hp'.ok (pre ++ [t' + 8 * c']) (Es.flatten ++ (t + 8 * c) :: q) (by simpa using hlen)
    rw [this]
    simp only
    exact ih fuel (pre ++ [t' + 8 * c'] ++ payload) (acc ++ [v']) (by omega)
      (by simpa using hlen)

theorem encode_all_spec : ∀ (vs : List Value) (E : List Nat), encode_all vs = .ok E →
    ∃ Es, List.Forall₂ (fun v Ev => encode (MAX_DEPTH.toNat + 2) v 0 = .ok Ev) vs Es ∧
      E = Es.flatten := by
  intro vs
  induction vs with
  | nil =>
    intro E h
    simp only [encode_all, Except.ok.injEq] at h
    exact ⟨[], List.Forall₂.nil, by simp [← h]⟩
  | cons v vs ih =>
    intro E h
    simp only [encode_all] at h
    cases hv : encode (MAX_DEPTH.toNat + 2) v 0 with
    | error e => rw [hv] at h; simp at h
    | ok Ev =>
      rw [hv] at h
      simp only at h
      cases hr : encode_all vs with
      | error e => rw [hr] at h; simp at h
      | ok R =>
        rw [hr] at h
        simp only [Except.ok.injEq] at h
        obtain ⟨Es, hEs, hR⟩ := ih R hr
        exact ⟨Ev :: Es, List.Forall₂.cons hv hEs, by simp [← h, hR]⟩

theorem encode_all_cons (v : Value) (vs : List Value) :
    encode_all (v :: vs) =
      match encode (MAX_DEPTH.toNat + 2) v 0 with
      | .error e => .error e
      | .ok E =>
        match encode_all vs with
        | .error e => .error e
        | .ok R => .ok (E ++ R) := rfl

theorem encode_all_append : ∀ (xs ys : List Value),
    encode_all (xs ++ ys) =
      match encode_all xs with
      | .error e => .error e
      | .ok X =>
        match encode_all ys with
        | .error e => .error e
        | .ok Y => .ok (X ++ Y) := by
  intro xs
  induction xs with
  | nil =>
    intro ys
    rw [List.nil_append]
    show encode_all ys = match encode_all ys with
      | .error e => .error e
      | .ok Y => .ok ([] ++ Y)
    cases encode_all ys <;> simp
  | cons v xs ih =>
    intro ys
    rw [List.cons_append, encode_all_cons, encode_all_cons, ih ys]
    cases encode (MAX_DEPTH.toNat + 2) v 0 with
    | error e => rfl
    | ok Ev =>
      cases encode_all xs with
      | error e => rfl
      | ok X =>
        cases encode_all ys with
        | error e => rfl
        | ok Y => simp

theorem forall2_stream (depth : Nat) :
    ∀ (vs : List Value) (Es : List (List Nat)),
      List.Forall₂ (fun v Ev => encode (MAX_DEPTH.toNat + 2) v 0 = .ok Ev) vs Es →
      (∀ v ∈ vs, Exact v) → Es.flatten.length ≤ depth + 1 →
      List.Forall₂ (stream_spec (unpack_one depth)) vs Es := by
  intro vs Es h
  induction h with
  | nil => intro _ _; exact List.Forall₂.nil
  | @cons v E vs Es hv _ ih =>
    intro hex hN
    simp only [List.flatten_cons, List.length_append] at hN
    exact List.Forall₂.cons (push_value_spec _ v 0 E hv (hex v (by simp)) depth (by omega))
      (ih (fun v hv => hex v (by simp [hv])) (by omega))

/-! ## Round trip -/

theorem rball_init_eq (buffer : List Nat) :
    rball_init buffer ((buffer.length : Nat) : Int) = rb_at [] buffer := rfl

/-- Unpacking the encoding of exact values gives them back. -/
theorem unpack_encode_all (vs : List Value) (E : List Nat) (hex : ∀ v ∈ vs, Exact v)
    (he : encode_all vs = .ok E) (hlen : E.length < 2147483648) :
    _luaseri_unpack (.userdata (some E) (E.length : Nat)) = .ok vs := by
  obtain ⟨Es, hEs, hE⟩ := encode_all_spec vs E he
  have hw : wrap32 ((E.length : Nat) : Int) = (E.length : Nat) := wrap32_id (by omega) (by omega)
  simp only [_luaseri_unpack, hw, Int.toNat_ofNat]
  by_cases h0 : ((E.length : Nat) : Int) = 0
  · rw [if_pos h0]
    have hE0 : Es.flatten.length = 0 := by rw [← hE]; omega
    cases hEs with
    | nil => rfl
    | @cons v Ev vs' Es' hv _ =>
      exfalso
      have := encode_length_pos _ _ _ _ hv
      simp only [List.flatten_cons, List.length_append] at hE0
      omega
  · rw [if_neg h0, rball_init_eq]
    have hst := forall2_stream (E.length + 1) vs Es hEs hex (by rw [← hE]; omega)
    have := unpack_loop_ok (E.length + 1) vs Es hst (E.length + 1) [] [] (by rw [← hE]; omega)
      (by rw [← hE]; simpa using hlen)
    rw [← hE] at this
    rw [this]; simp

theorem pack_from_encode_all (vs : List Value) (wb : write_block)
    (hp : pack_from wb_init vs = .ok wb) : encode_all vs = .ok (wb_bytes wb) := by
  have h := pack_from_refines vs wb_init wb_inv_init
  cases he : encode_all vs with
  | error e => rw [he] at h; simp only at h; rw [h] at hp; cases hp
  | ok E =>
    rw [he] at h
    obtain ⟨b', hb', _, hbytes⟩ := h
    rw [hb'] at hp
    cases hp
    rw [hbytes]; simp [wb_bytes, wb_init]

theorem luaseri_pack_of_pack_from (vs : List Value) (wb : write_block)
    (hp : pack_from wb_init vs = .ok wb) (hlen : (wb_bytes wb).length < 2147483648) :
    _luaseri_pack vs = .ok (wb_bytes wb, ((wb_bytes wb).length : Nat)) := by
  have h := luaseri_pack_eq vs
  rw [pack_from_encode_all vs wb hp] at h
  exact h hlen

/-! ## Every read stays inside the bounds it is given, and the embedding's
bounds on recursion are never reached -/

theorem rb_read_inv (n : Int) (rb : read_block) (sz : Int) (h : rb_inv n rb)
    (hn : n < 2147483648) (hsz : 0 ≤ sz) :
    rb_read rb sz = none ∨
    ∃ rb', rb_read rb sz = some (rb.ptr, rb') ∧ rb_inv n rb' ∧ rb'.len + sz = rb.len ∧
      rb'.buffer = rb.buffer := by
  obtain ⟨h1, h2, h3⟩ := h
  by_cases hc : rb.len < sz
  · left; rw [rb_read, if_pos hc]
  · right
    have e1 : wrap32 (rb.ptr + sz) = rb.ptr + sz := wrap32_id (by omega) (by omega)
    have e2 : wrap32 (rb.len - sz) = rb.len - sz := wrap32_id (by omega) (by omega)
    refine ⟨{ rb with ptr := wrap32 (rb.ptr + sz), len := wrap32 (rb.len - sz) },
      by rw [rb_read, if_neg hc], ?_, ?_, rfl⟩
    · show 0 ≤ wrap32 (rb.ptr + sz) ∧ 0 ≤ wrap32 (rb.len - sz) ∧
        wrap32 (rb.ptr + sz) + wrap32 (rb.len - sz) = n
      rw [e1, e2]; omega
    · show wrap32 (rb.len - sz) + sz = rb.len
      rw [e2]; omega

theorem rb_step_mono {α : Type} (n : Int) (rb0 rb : read_block) (k0 k : Int)
    (r : Except Err (α × read_block)) (h : rb_step n rb k r)
    (hl : rb.len + k0 ≤ rb0.len + k) (hb : rb.buffer = rb0.buffer) : rb_step n rb0 k0 r := by
  cases r with
  | error e => exact h
  | ok p =>
    obtain ⟨v, rb'⟩ := p
    obtain ⟨a, b, c⟩ := h
    exact ⟨a, by omega, c.trans hb⟩

theorem get_integer_inv (n : Int) (rb : read_block) (cookie : Nat) (h : rb_inv n rb)
    (hn : n < 2147483648) : rb_step n rb 0 (get_integer rb cookie) := by
  unfold get_integer
  split
  · exact ⟨h, by omega, rfl⟩
  split
  · rcases rb_read_inv n rb 1 h hn (by decide) with e | ⟨rb', e, a, b, c⟩
    · rw [e]; exact Or.inl rfl
    · rw [e]; exact ⟨a, by omega, c⟩
  split
  · rcases rb_read_inv n rb 2 h hn (by decide) with e | ⟨rb', e, a, b, c⟩
    · rw [e]; exact Or.inl rfl
    · rw [e]; exact ⟨a, by omega, c⟩
  split
  · rcases rb_read_inv n rb 4 h hn (by decide) with e | ⟨rb', e, a, b, c⟩
    · rw [e]; exact Or.inl rfl
    · rw [e]; exact ⟨a, by omega, c⟩
  exact Or.inl rfl

theorem get_number_inv (n : Int) (rb : read_block) (cookie : Nat) (h : rb_inv n rb)
    (hn : n < 2147483648) : rb_step n rb 0 (get_number rb cookie) := by
  unfold get_number
  split
  · rcases rb_read_inv n rb 8 h hn (by decide) with e | ⟨rb', e, a, b, c⟩
    · rw [e]; exact Or.inl rfl
    · rw [e]; exact ⟨a, by omega, c⟩
  · have := get_integer_inv n rb cookie h hn
    cases hg : get_integer rb cookie with
    | error e => rw [hg] at this; exact this
    | ok p => obtain ⟨x, rb'⟩ := p; rw [hg] at this; exact this

theorem get_pointer_inv (n : Int) (rb : read_block) (h : rb_inv n rb)
    (hn : n < 2147483648) : rb_step n rb 0 (get_pointer rb) := by
  unfold get_pointer
  rcases rb_read_inv n rb 8 h hn (by decide) with e | ⟨rb', e, a, b, c⟩
  · rw [e]; exact Or.inl rfl
  · rw [e]; exact ⟨a, by omega, c⟩

theorem get_buffer_inv (n : Int) (rb : read_block) (len : Int) (h : rb_inv n rb)
    (hn : n < 2147483648) : rb_step n rb 0 (get_buffer rb len) := by
  unfold get_buffer
  by_cases hl : len < 0
  · cases e : rb_read rb len with
    | none => exact Or.inl rfl
    | some p =>
      obtain ⟨q, rb'⟩ := p
      show rb_step n rb 0 (match lua_pushlstring rb' q len with
        | .error e => .error e
        | .ok v => .ok (v, rb'))
      rw [lua_pushlstring, if_pos hl]
      exact Or.inr rfl
  · rcases rb_read_inv n rb len h hn (by omega) with e | ⟨rb', e, a, b, c⟩
    · rw [e]; exact Or.inl rfl
    · rw [e]
      show rb_step n rb 0 (match lua_pushlstring rb' rb.ptr len with
        | .error e => .error e
        | .ok v => .ok (v, rb'))
      rw [lua_pushlstring, if_neg hl]
      exact ⟨a, by omega, c⟩

theorem unpack_table_array_inv (one : read_block → Except Err (Value × read_block))
    (n F : Int)
    (hone : ∀ rb, rb_inv n rb → rb.len < F → rb_step n rb 1 (one rb)) :
    ∀ (m : Nat) (rb : read_block) (arr : List Value), rb_inv n rb → rb.len < F →
      rb_step n rb 0 (unpack_table_array one m rb arr) := by
  intro m
  induction m with
  | zero => intro rb arr h _; exact ⟨h, by omega, rfl⟩
  | succ m ih =>
    intro rb arr h hF
    have h1 := hone rb h hF
    unfold unpack_table_array
    cases e : one rb with
    | error err => rw [e] at h1; exact h1
    | ok p =>
      obtain ⟨v, rb'⟩ := p
      rw [e] at h1
      obtain ⟨a, b, c⟩ := h1
      exact rb_step_mono n rb rb' 0 0 _ (ih rb' _ a (by omega)) (by omega) c

theorem unpack_table_hash_inv (one : read_block → Except Err (Value × read_block))
    (n F : Int)
    (hone : ∀ rb, rb_inv n rb → rb.len < F → rb_step n rb 1 (one rb)) :
    ∀ (fuel : Nat) (rb : read_block) (hash : List (Value × Value)), rb_inv n rb →
      rb.len < F → rb.len < fuel →
      rb_step n rb 0 (unpack_table_hash one fuel rb hash) := by
  intro fuel
  induction fuel with
  | zero => intro rb hash h _ hf; have := h.2.1; omega
  | succ fuel ih =>
    intro rb hash h hF hf
    have h1 := hone rb h hF
    unfold unpack_table_hash
    cases e : one rb with
    | error err => rw [e] at h1; exact h1
    | ok p =>
      obtain ⟨k, rb1⟩ := p
      rw [e] at h1
      obtain ⟨a, b, c⟩ := h1
      show rb_step n rb 0 (if k.isnil then .ok (hash, rb1) else
        match one rb1 with
        | .error e => .error e
        | .ok (v, rb) => unpack_table_hash one fuel rb (lua_rawset hash k v))
      split
      · exact ⟨a, by omega, c⟩
      · have h2 := hone rb1 a (by omega)
        cases e2 : one rb1 with
        | error err => rw [e2] at h2; exact h2
        | ok p2 =>
          obtain ⟨v, rb2⟩ := p2
          rw [e2] at h2
          obtain ⟨a2, b2, c2⟩ := h2
          exact rb_step_mono n rb rb2 0 0 _
            (ih rb2 _ a2 (by omega) (by push_cast at hf; omega)) (by omega) (c2.trans c)

theorem unpack_table_size_inv (n : Int) (rb : read_block) (array_size : Int)
    (h : rb_inv n rb) (hn : n < 2147483648) :
    rb_step n rb 0 (unpack_table_size rb array_size) := by
  unfold unpack_table_size
  split
  · rcases rb_read_inv n rb 1 h hn (by decide) with e | ⟨rb1, e, a, b, c⟩
    · rw [e]; exact Or.inl rfl
    · rw [e]
      simp only []
      split
      · exact Or.inl rfl
      · have h1 := get_number_inv n rb1 (le_val (rb_deref rb1 rb.ptr 1) >>> 3) a hn
        cases e1 : get_number rb1 (le_val (rb_deref rb1 rb.ptr 1) >>> 3) with
        | error err => rw [e1] at h1; exact h1
        | ok p =>
          obtain ⟨x, rb2⟩ := p
          rw [e1] at h1
          obtain ⟨a2, b2, c2⟩ := h1
          exact ⟨a2, by omega, c2.trans c⟩
  · exact ⟨h, by omega, rfl⟩

theorem unpack_table_inv (one : read_block → Except Err (Value × read_block))
    (n F : Int)
    (hone : ∀ rb, rb_inv n rb → rb.len < F → rb_step n rb 1 (one rb))
    (rb : read_block) (array_size : Int) (h : rb_inv n rb) (hn : n < 2147483648)
    (hF : rb.len < F) : rb_step n rb 0 (unpack_table one rb array_size) := by
  rw [unpack_table_eq]
  have h0 := unpack_table_size_inv n rb array_size h hn
  cases e0 : unpack_table_size rb array_size with
  | error err => rw [e0] at h0; exact h0
  | ok p0 =>
    obtain ⟨s, rb1⟩ := p0
    rw [e0] at h0
    obtain ⟨a, b, c⟩ := h0
    have h1 := unpack_table_array_inv one n F hone s.toNat rb1 [] a (by omega)
    simp only []
    cases e : unpack_table_array one s.toNat rb1 [] with
    | error err => rw [e] at h1; exact h1
    | ok p =>
      obtain ⟨arr, rb2⟩ := p
      rw [e] at h1
      obtain ⟨a2, b2, c2⟩ := h1
      have h2 := unpack_table_hash_inv one n F hone (rb2.len.toNat + 1) rb2 [] a2 (by omega)
        (by have := a2.2.1; push_cast; omega)
      simp only []
      cases e2 : unpack_table_hash one (rb2.len.toNat + 1) rb2 [] with
      | error err => rw [e2] at h2; exact h2
      | ok p2 =>
        obtain ⟨hash, rb3⟩ := p2
        rw [e2] at h2
        obtain ⟨a3, b3, c3⟩ := h2
        exact ⟨a3, by omega, (c3.trans c2).trans c⟩

theorem push_value_inv (one : read_block → Except Err (Value × read_block))
    (n F : Int)
    (hone : ∀ rb, rb_inv n rb → rb.len < F → rb_step n rb 1 (one rb))
    (rb : read_block) (type cookie : Nat) (h : rb_inv n rb) (hn : n < 2147483648)
    (hF : rb.len < F) : rb_step n rb 0 (push_value one rb type cookie) := by
  unfold push_value
  split
  · exact ⟨h, by omega, rfl⟩
  split
  · exact ⟨h, by omega, rfl⟩
  split
  · have h1 := get_number_inv n rb cookie h hn
    cases e : get_number rb cookie with
    | error err => rw [e] at h1; exact h1
    | ok p => obtain ⟨x, rb'⟩ := p; rw [e] at h1; exact h1
  split
  · have h1 := get_pointer_inv n rb h hn
    cases e : get_pointer rb with
    | error err => rw [e] at h1; exact h1
    | ok p => obtain ⟨x, rb'⟩ := p; rw [e] at h1; exact h1
  split
  · exact get_buffer_inv n rb _ h hn
  split
  · split
    · rcases rb_read_inv n rb 2 h hn (by decide) with e | ⟨rb1, e, a, b, c⟩
      · rw [e]; exact Or.inl rfl
      · rw [e]
        exact rb_step_mono n rb rb1 0 0 _ (get_buffer_inv n rb1 _ a hn) (by omega) c
    · split
      · exact Or.inl rfl
      · rcases rb_read_inv n rb 4 h hn (by decide) with e | ⟨rb1, e, a, b, c⟩
        · rw [e]; exact Or.inl rfl
        · rw [e]
          exact rb_step_mono n rb rb1 0 0 _ (get_buffer_inv n rb1 _ a hn) (by omega) c
  split
  · exact unpack_table_inv one n F hone rb _ h hn hF
  exact Or.inl rfl

/-- Unpacking one value keeps the cursor inside the `n` bytes it was given,
consumes at least one byte, and never reaches the bound of the embedding. -/
theorem unpack_one_inv (n : Int) (hn : n < 2147483648) :
    ∀ (fuel : Nat) (rb : read_block), rb_inv n rb → rb.len < fuel →
      rb_step n rb 1 (unpack_one fuel rb) := by
  intro fuel
  induction fuel with
  | zero => intro rb h hf; have := h.2.1; omega
  | succ fuel ih =>
    intro rb h hf
    unfold unpack_one
    rcases rb_read_inv n rb 1 h hn (by decide) with e | ⟨rb1, e, a, b, c⟩
    · rw [e]; exact Or.inl rfl
    · rw [e]
      exact rb_step_mono n rb rb1 1 0 _
        (push_value_inv (unpack_one fuel) n fuel ih rb1 _ _ a hn (by push_cast at hf; omega))
        (by omega) c

theorem unpack_loop_inv (n : Int) (hn : n < 2147483648) (depth : Nat) :
    ∀ (fuel : Nat) (rb : read_block) (acc : List Value), rb_inv n rb → rb.len ≤ depth →
      rb.len < fuel →
      (∃ vs, unpack_loop depth fuel rb acc = .ok vs) ∨
      unpack_loop depth fuel rb acc = .error .invalid_stream ∨
      unpack_loop depth fuel rb acc = .error .memory := by
  intro fuel
  induction fuel with
  | zero => intro rb acc h _ hf; have := h.2.1; omega
  | succ fuel ih =>
    intro rb acc h hd hf
    unfold unpack_loop
    rcases rb_read_inv n rb 1 h hn (by decide) with e | ⟨rb1, e, a, b, c⟩
    · rw [e]; exact Or.inl ⟨acc, rfl⟩
    · rw [e]
      simp only []
      have h1 := push_value_inv (unpack_one depth) n depth (unpack_one_inv n hn depth) rb1
        (le_val (rb_deref rb1 rb.ptr 1) &&& 7) (le_val (rb_deref rb1 rb.ptr 1) >>> 3) a hn
        (by omega)
      cases e1 : push_value (unpack_one depth) rb1
          (le_val (rb_deref rb1 rb.ptr 1) &&& 7) (le_val (rb_deref rb1 rb.ptr 1) >>> 3) with
      | error err =>
        rw [e1] at h1
        rcases h1 with h1 | h1
        · right; left; rw [h1]
        · right; right; rw [h1]
      | ok p =>
        obtain ⟨v, rb2⟩ := p
        rw [e1] at h1
        obtain ⟨a2, b2, c2⟩ := h1
        exact ih rb2 _ a2 (by omega) (by push_cast at hf; omega)

/-- The unpacker returns on every argument: it yields a list of values or
raises one of its three errors; the bounds of the embedding are never
reached. -/
theorem luaseri_unpack_total (arg : UnpackArg) :
    (∃ vs, _luaseri_unpack arg = .ok vs) ∨
    _luaseri_unpack arg = .error .invalid_stream ∨
    _luaseri_unpack arg = .error .memory ∨
    _luaseri_unpack arg = .error .null_pointer := by
  have key : ∀ (buffer : List Nat) (len : Int), -2147483648 ≤ len → len < 2147483648 →
      (∃ vs, unpack_loop (len.toNat + 1) (len.toNat + 1) (rball_init buffer len) [] = .ok vs) ∨
      unpack_loop (len.toNat + 1) (len.toNat + 1) (rball_init buffer len) [] =
        .error .invalid_stream ∨
      unpack_loop (len.toNat + 1) (len.toNat + 1) (rball_init buffer len) [] =
        .error .memory ∨
      unpack_loop (len.toNat + 1) (len.toNat + 1) (rball_init buffer len) [] =
        .error .null_pointer := by
    intro buffer len h1 h2
    by_cases hl : len < 1
    · left
      refine ⟨[], ?_⟩
      show (match rb_read (rball_init buffer len) 1 with
        | none => Except.ok []
        | some (t, rb) => _) = _
      have : rb_read (rball_init buffer len) 1 = none := by
        rw [rb_read, if_pos (by exact hl)]
      rw [this]
    · have := unpack_loop_inv len h2 (len.toNat + 1) (len.toNat + 1) (rball_init buffer len) []
        ⟨le_refl _, by show 0 ≤ len; omega, by show (0 : Int) + len = len; omega⟩
        (by show len ≤ _; push_cast; omega) (by show len < _; push_cast; omega)
      rcases this with h | h | h
      · exact Or.inl h
      · exact Or.inr (Or.inl h)
      · exact Or.inr (Or.inr (Or.inl h))
  cases arg with
  | none => exact Or.inl ⟨[], rfl⟩
  | string s =>
    unfold _luaseri_unpack
    simp only []
    split
    · exact Or.inl ⟨[], rfl⟩
    · exact key s _ (wrap32_range _).1 (wrap32_range _).2
  | userdata buffer len =>
    unfold _luaseri_unpack
    simp only []
    split
    · exact Or.inl ⟨[], rfl⟩
    · cases buffer with
      | none => exact Or.inr (Or.inr (Or.inr rfl))
      | some b => exact key b _ (wrap32_range _).1 (wrap32_range _).2
/-! ## The claims -/

/-- C1 (as amended): for every sequence of exact values that `pack` accepts and
encodes in fewer than `2^31` bytes, `unpack` applied to the bytes `pack`
produced returns exactly that sequence, in order; tables are compared
structurally and numbers bit for bit.  (A negative zero is packed as the
integer 0 and comes back as the positive zero.) -/
theorem C1_round_trip (vs : List Value) (wb : write_block)
    (hex : ∀ v ∈ vs, Exact v) (hp : pack_from wb_init vs = .ok wb)
    (hlen : (wb_bytes wb).length < 2147483648) :
    unpack_packed (_luaseri_pack vs) = .ok vs := by
  rw [luaseri_pack_of_pack_from vs wb hp hlen]
  exact unpack_encode_all vs (wb_bytes wb) hex (pack_from_encode_all vs wb hp) hlen

/-- C1, witness: packing `(true, "hi", 42)` and unpacking yields
`[true, "hi", 42]`. -/
theorem C1_round_trip_witness :
    (∀ v ∈ [Value.boolean true, .string [104, 105], .number 4631107791820423168], Exact v) ∧
    pack_from wb_init [Value.boolean true, .string [104, 105], .number 4631107791820423168] =
      .ok { full := [], current := [9, 20, 104, 105, 10, 42], len := 6, ptr := 6 } ∧
    unpack_packed (_luaseri_pack
        [Value.boolean true, .string [104, 105], .number 4631107791820423168]) =
      .ok [Value.boolean true, .string [104, 105], .number 4631107791820423168] :=
  have hex : ∀ v ∈ [Value.boolean true, .string [104, 105], .number 4631107791820423168],
      Exact v := by
    intro v hv
    simp only [List.mem_cons, List.mem_singleton, List.not_mem_nil, or_false] at hv
    rcases hv with rfl | rfl | rfl
    · exact Exact.boolean _
    · exact Exact.string _ (by decide)
    · exact Exact.number _ (by decide) (by decide)
  ⟨hex, rfl, C1_round_trip _ _ hex rfl (by decide)⟩

/-- C1, counterexample: the number `-0.0` (pattern `2^63`) is packed as the
integer 0, one byte, and unpacked as `+0.0` (pattern `0`): the round trip does
not return the number bit for bit. -/
theorem C1_negative_zero_counterexample :
    _luaseri_pack [.number 9223372036854775808] = .ok ([2], 1) ∧
    unpack_packed (_luaseri_pack [.number 9223372036854775808]) = .ok [.number 0] ∧
    unpack_packed (_luaseri_pack [.number 9223372036854775808]) ≠
      .ok [.number 9223372036854775808] := by
  refine ⟨rfl, rfl, ?_⟩
  rw [show unpack_packed (_luaseri_pack [.number 9223372036854775808]) = .ok [.number 0] from rfl]
  intro h
  injection h with h
  injection h with h _
  injection h with h
  exact absurd h (by decide)

/-- C2 (evaluation at the failing input): on the five bytes `25 00 00 00 80`, a
LongText lead byte with a 4-byte length field of `2^31`, the length handed to
`rb_read` is `-2^31`; `rb_read` does not reject it, it moves the cursor to the
negative offset `5 - 2^31`, and `unpack` ends with a memory error raised by
`lua_pushlstring`, not with the invalid-stream error. -/
theorem C2_long_text_length_not_checked :
    wrap32 (le_val [0, 0, 0, 128]) = -2147483648 ∧
    (rb_read { buffer := [37, 0, 0, 0, 128], len := 0, ptr := 5 } (-2147483648)).map
        (fun r => (r.1, r.2.ptr, r.2.len)) = some (5, -2147483643, -2147483648) ∧
    _luaseri_unpack (.string [37, 0, 0, 0, 128]) = .error .memory ∧
    _luaseri_unpack (.string [37, 0, 0, 0, 128]) ≠ .error .invalid_stream := by
  refine ⟨by decide, by decide, rfl, ?_⟩
  rw [show _luaseri_unpack (.string [37, 0, 0, 0, 128]) = .error .memory from rfl]
  intro h
  injection h with h
  cases h

theorem encode_too_deep (f : Nat) (v : Value) (d : Int) (h : d > MAX_DEPTH) :
    encode (f + 1) v d = .error .too_depth := by
  unfold encode; rw [if_pos h]

theorem encode_table (f : Nat) (arr : List Value) (hash : List (Value × Value)) (d : Int)
    (h : ¬ d > MAX_DEPTH) :
    encode (f + 1) (.table arr hash) d = enc_table (encode f) arr hash (d + 1) := by
  unfold encode; rw [if_neg h]

theorem pack_one_too_deep (f : Nat) (b : write_block) (v : Value) (d : Int) (h : d > MAX_DEPTH) :
    pack_one (f + 1) b v d = .error .too_depth := by
  unfold pack_one; rw [if_pos h]

theorem pack_one_table (f : Nat) (b : write_block) (arr : List Value)
    (hash : List (Value × Value)) (d : Int) (h : ¬ d > MAX_DEPTH) :
    pack_one (f + 1) b (.table arr hash) d = wb_table (pack_one f) b arr hash (d + 1) := by
  unfold pack_one; rw [if_neg h]

theorem enc_table_single (enc : Value → Int → Except Err (List Nat)) (child : Value) (d : Int) :
    enc_table enc [child] [] d =
      match enc child d with
      | .error e => .error e
      | .ok X => .ok (14 :: X ++ [0]) := by
  have hnext : enc_hash_loop enc d 1 (lua_next [child] []) = .ok [] := by
    cases child <;> rfl
  have hdef : enc_table enc [child] [] d =
      match enc_array_loop enc [child] 1 d (1 : Int).toNat with
      | .error e => .error e
      | .ok A =>
        match enc_hash_loop enc d 1 (lua_next [child] []) with
        | .error e => .error e
        | .ok H => .ok (enc_table_header 1 ++ A ++ H ++ [toU8 TYPE_NIL]) := rfl
  have hhdr : enc_table_header 1 = [14] := rfl
  have hone : (1 : Int).toNat = 1 := rfl
  have hnil : toU8 TYPE_NIL = 0 := rfl
  have harr : enc_array_loop enc [child] 1 d 1 =
      match enc child d with
      | .error e => .error e
      | .ok E => .ok (E ++ []) := rfl
  rw [hdef, hone, hhdr, hnil]
  rw [hnext, harr]
  cases enc child d with
  | error e => rfl
  | ok X => simp

/-- The encoding of a leaf inside `k` nested tables. -/
theorem encode_nested (leaf : Value) (L : List Nat)
    (hleaf : ∀ (f : Nat) (d : Int), d ≤ 32 → encode (f + 1) leaf d = .ok L) :
    ∀ (k d f : Nat), 34 ≤ f + d → d ≤ 33 →
      encode f (nested_in k leaf) (d : Int) =
        if d + k ≤ 32 then .ok (List.replicate k 14 ++ L ++ List.replicate k 0)
        else .error .too_depth := by
  intro k
  induction k with
  | zero =>
    intro d f hf hd
    obtain ⟨f, rfl⟩ : ∃ n, f = n + 1 := ⟨f - 1, by omega⟩
    simp only [nested_in, List.replicate_zero, List.nil_append, List.append_nil, Nat.add_zero]
    by_cases h : d ≤ 32
    · rw [if_pos h, hleaf f d (by omega)]
    · have hgt : ((d : Nat) : Int) > MAX_DEPTH := by simp only [MAX_DEPTH]; omega
      rw [if_neg h, encode_too_deep f _ _ hgt]
  | succ k ih =>
    intro d f hf hd
    obtain ⟨f, rfl⟩ : ∃ n, f = n + 1 := ⟨f - 1, by omega⟩
    by_cases h : d ≤ 32
    · have hle : ¬ (((d : Nat) : Int) > MAX_DEPTH) := by simp only [MAX_DEPTH]; omega
      have hcast : ((d : Nat) : Int) + 1 = ((d + 1 : Nat) : Int) := by push_cast; rfl
      rw [nested_in, encode_table f _ _ _ hle, enc_table_single, hcast,
        ih (d + 1) f (by omega) (by omega)]
      by_cases h2 : d + 1 + k ≤ 32
      · have h3 : d + (k + 1) ≤ 32 := by omega
        rw [if_pos h2, if_pos h3]
        simp only [Except.ok.injEq]
        rw [List.replicate_succ, List.replicate_succ']
        simp
      · have h3 : ¬ (d + (k + 1) ≤ 32) := by omega
        rw [if_neg h2, if_neg h3]
    · have hgt : ((d : Nat) : Int) > MAX_DEPTH := by simp only [MAX_DEPTH]; omega
      have h3 : ¬ (d + (k + 1) ≤ 32) := by omega
      rw [if_neg h3, encode_too_deep f _ _ hgt]

theorem luaseri_pack_nested (leaf : Value) (L : List Nat) (hL : L.length ≤ 2)
    (hleaf : ∀ (f : Nat) (d : Int), d ≤ 32 → encode (f + 1) leaf d = .ok L) (k : Nat) :
    _luaseri_pack [nested_in k leaf] =
      if k ≤ 32 then
        .ok (List.replicate k 14 ++ L ++ List.replicate k 0, ((2 * k + L.length : Nat) : Int))
      else .error .too_depth := by
  have h := luaseri_pack_eq [nested_in k leaf]
  have he : encode_all [nested_in k leaf] =
      if k ≤ 32 then .ok (List.replicate k 14 ++ L ++ List.replicate k 0)
      else .error .too_depth := by
    have := encode_nested leaf L hleaf k 0 34 (by omega) (by omega)
    simp only [Nat.zero_add] at this
    rw [encode_all_cons]
    have h34 : encode (MAX_DEPTH.toNat + 2) (nested_in k leaf) 0 =
        encode 34 (nested_in k leaf) ((0 : Nat) : Int) := rfl
    rw [h34, this]
    by_cases hk : k ≤ 32
    · simp [hk, encode_all]
    · simp [hk]
  rw [he] at h
  by_cases hk : k ≤ 32
  · rw [if_pos hk] at h ⊢
    simp only at h
    have := h (by simp only [List.length_append, List.length_replicate]; omega)
    rw [this]
    simp only [List.length_append, List.length_replicate, Except.ok.injEq, Prod.mk.injEq,
      true_and]
    push_cast; omega
  · rw [if_neg hk] at h ⊢
    exact h

/-- C3 (as amended): `pack_one` raises the depth-exceeded error for a value at
depth `d` exactly when `d > 32`, a table included, and whatever the value is.
So `k` tables nested in one another around an empty table (`k + 1` tables in
all) are packed when `k <= 32` and fail when `k >= 33`: 33 nested empty tables
succeed and 34 fail.  Around a member that is not a table, `k` tables are
packed when `k <= 32` and fail when `k >= 33`: 33 nested tables fail when the
innermost one has a member. -/
theorem C3_depth_guard (k : Nat) :
    _luaseri_pack [nested_in k (.table [] [])] =
      (if k ≤ 32 then
        .ok (List.replicate k 14 ++ [6, 0] ++ List.replicate k 0, ((2 * k + 2 : Nat) : Int))
      else .error .too_depth) ∧
    _luaseri_pack [nested_in k (.boolean true)] =
      (if k ≤ 32 then
        .ok (List.replicate k 14 ++ [9] ++ List.replicate k 0, ((2 * k + 1 : Nat) : Int))
      else .error .too_depth) ∧
    (∀ (fuel : Nat) (b : write_block) (v : Value) (d : Int),
      32 < d → pack_one (fuel + 1) b v d = .error .too_depth) ∧
    (∀ (fuel : Nat) (b : write_block) (d : Int),
      d ≤ 32 → pack_one (fuel + 1) b (.table [] []) d ≠ .error .too_depth) := by
  refine ⟨?_, ?_, ?_, ?_⟩
  · refine luaseri_pack_nested (.table [] []) [6, 0] (by decide) ?_ k
    intro f d hd
    have hle : ¬ (d > MAX_DEPTH) := by simp only [MAX_DEPTH]; omega
    rw [encode_table f _ _ _ hle]
    rfl
  · refine luaseri_pack_nested (.boolean true) [9] (by decide) ?_ k
    intro f d hd
    have hle : ¬ (d > MAX_DEPTH) := by simp only [MAX_DEPTH]; omega
    unfold encode
    rw [if_neg hle]
    rfl
  · intro fuel b v d hd
    exact pack_one_too_deep fuel b v d (by simp only [MAX_DEPTH]; omega)
  · intro fuel b d hd
    have hle : ¬ (d > MAX_DEPTH) := by simp only [MAX_DEPTH]; omega
    rw [pack_one_table fuel b _ _ d hle]
    intro h
    cases h

/-- C3, witness: 34 empty tables nested in one another are not packed, and a
value met at depth 33 is not packed. -/
theorem C3_depth_guard_witness :
    _luaseri_pack [nested_in 33 (.table [] [])] = .error .too_depth ∧
    pack_one 1 wb_init (.boolean true) 33 = .error .too_depth :=
  ⟨(C3_depth_guard 33).1.trans (if_neg (by decide)),
    (C3_depth_guard 33).2.2.1 0 wb_init (.boolean true) 33 (by decide)⟩

/-- C3, counterexample: 33 empty tables nested in one another (the value
`nested_in 32 {}`) are packed, in 66 bytes; the pack call does not fail. -/
theorem C3_depth_33_counterexample :
    _luaseri_pack [nested_in 32 (.table [] [])] =
      .ok (List.replicate 32 14 ++ [6, 0] ++ List.replicate 32 0, 66) ∧
    _luaseri_pack [nested_in 32 (.table [] [])] ≠ .error .too_depth := by
  have h : _luaseri_pack [nested_in 32 (.table [] [])] =
      .ok (List.replicate 32 14 ++ [6, 0] ++ List.replicate 32 0, 66) := by
    have hleaf : ∀ (f : Nat) (d : Int), d ≤ 32 →
        encode (f + 1) (.table [] []) d = .ok [6, 0] := by
      intro f d hd
      have hle : ¬ (d > MAX_DEPTH) := by simp only [MAX_DEPTH]; omega
      rw [encode_table f _ _ _ hle]
      rfl
    have := luaseri_pack_nested (.table [] []) [6, 0] (by decide) hleaf 32
    rw [if_pos (by decide)] at this
    exact this
  refine ⟨h, ?_⟩
  rw [h]
  intro h'
  cases h'

theorem encode_all_single (v : Value) (Ev : List Nat)
    (h : encode (MAX_DEPTH.toNat + 2) v 0 = .ok Ev) : encode_all [v] = .ok Ev := by
  rw [encode_all_cons, h]
  simp [encode_all]

theorem encode_all_snoc (vs : List Value) (v : Value) (E Ev : List Nat)
    (h : encode_all (vs ++ [v]) = .ok E) (hv : encode (MAX_DEPTH.toNat + 2) v 0 = .ok Ev) :
    ∃ X, encode_all vs = .ok X ∧ E = X ++ Ev := by
  rw [encode_all_append, encode_all_single v Ev hv] at h
  cases hX : encode_all vs with
  | error e => rw [hX] at h; simp at h
  | ok X =>
    rw [hX] at h
    simp only [Except.ok.injEq] at h
    exact ⟨X, rfl, h.symm⟩

/-- Unpacking an encoding without its last byte. -/
theorem unpack_truncated (vs : List Value) (v : Value) (E Ev : List Nat)
    (hex : ∀ x ∈ vs ++ [v], Exact x) (he : encode_all (vs ++ [v]) = .ok E)
    (hlen : E.length < 2147483648) (hv : encode (MAX_DEPTH.toNat + 2) v 0 = .ok Ev) :
    _luaseri_unpack (.userdata (some E.dropLast) (((E.length : Nat) : Int) - 1)) =
      if Ev.length = 1 then .ok vs else .error .invalid_stream := by
  obtain ⟨X, hX, hE⟩ := encode_all_snoc vs v E Ev he hv
  have hpos := encode_length_pos _ _ _ _ hv
  have hne : Ev ≠ [] := List.length_pos.mp hpos
  have hexs : ∀ x ∈ vs, Exact x := fun x hx => hex x (by simp [hx])
  have hexv : Exact v := hex v (by simp)
  have hdrop : E.dropLast = X ++ Ev.dropLast := by
    rw [hE, List.dropLast_append_of_ne_nil _ hne]
  have hEl : E.length = X.length + Ev.length := by rw [hE]; simp
  by_cases h1 : Ev.length = 1
  · rw [if_pos h1]
    have hd : Ev.dropLast = [] := List.length_eq_zero.mp (by simp [h1])
    rw [hdrop, hd, List.append_nil]
    have hl : ((E.length : Nat) : Int) - 1 = (X.length : Nat) := by omega
    rw [hl]
    exact unpack_encode_all vs X hexs hX (by omega)
  · rw [if_neg h1]
    obtain ⟨Es, hEs, hXE⟩ := encode_all_spec vs X hX
    have hdl : E.dropLast.length + 1 = E.length := by rw [List.length_dropLast]; omega
    obtain ⟨t, c, payload, hEv, ht, hp⟩ := push_value_spec _ v 0 Ev hv hexv
      (E.dropLast.length + 1) (by omega)
    have hpl : payload ≠ [] := by
      intro h; apply h1; rw [hEv, h]; rfl
    have hpayload : payload = payload.dropLast ++ [payload.getLast hpl] :=
      (List.dropLast_append_getLast hpl).symm
    have hEvd : Ev.dropLast = (t + 8 * c) :: payload.dropLast := by
      rw [hEv]
      cases payload with
      | nil => exact absurd rfl hpl
      | cons a l => rfl
    rw [hpayload] at hp
    have hst := forall2_stream (E.dropLast.length + 1) vs Es hEs hexs (by rw [← hXE]; omega)
    have hEvl : Ev.length = payload.dropLast.length + 2 := by
      rw [hEv]
      simp only [List.length_cons, List.length_dropLast]
      have : 0 < payload.length := List.length_pos.mpr hpl
      omega
    have hfail := unpack_loop_fail (E.dropLast.length + 1) v t c payload.dropLast
      [payload.getLast hpl] ht hp (by simp) vs Es hst (E.dropLast.length + 1) [] []
      (by rw [← hXE]; omega)
      (by rw [← hXE]; simp only [List.nil_append, List.length_append, List.length_cons]; omega)
    have hlen' : ((E.length : Nat) : Int) - 1 = ((E.dropLast.length : Nat) : Int) := by omega
    have hw : wrap32 ((E.dropLast.length : Nat) : Int) = (E.dropLast.length : Nat) :=
      wrap32_id (by omega) (by omega)
    have hnz : ¬ (((E.dropLast.length : Nat) : Int) = 0) := by omega
    rw [hlen']
    simp only [_luaseri_unpack, hw, if_neg hnz, Int.toNat_ofNat, rball_init_eq]
    rw [hdrop, hEvd, hXE] at hfail ⊢
    exact hfail

theorem get_integer_bad_cookie (rb : read_block) (c : Nat)
    (h0 : c ≠ 0) (h1 : c ≠ 1) (h2 : c ≠ 2) (h4 : c ≠ 4) :
    get_integer rb c = .error .invalid_stream := by
  unfold get_integer
  rw [if_neg h0, if_neg h1, if_neg h2, if_neg h4]

theorem push_value_bad (one : read_block → Except Err (Value × read_block)) (rb : read_block)
    (type cookie : Nat)
    (hbad : type = 7 ∨
      (type = 2 ∧ cookie ≠ 0 ∧ cookie ≠ 1 ∧ cookie ≠ 2 ∧ cookie ≠ 4 ∧ cookie ≠ 8) ∨
      (type = 5 ∧ cookie ≠ 2 ∧ cookie ≠ 4)) :
    push_value one rb type cookie = .error .invalid_stream := by
  rcases hbad with h | ⟨h, h0, h1, h2, h4, h8⟩ | ⟨h, h2, h4⟩
  · subst h; rfl
  · subst h
    rw [push_value_number, get_number_int _ _ h8, get_integer_bad_cookie rb cookie h0 h1 h2 h4]
  · subst h
    show (if cookie = 2 then _ else if cookie ≠ 4 then _ else _) = _
    rw [if_neg h2, if_pos h4]

/-- C5 (as amended): a buffer whose first lead byte has type 7 (any cookie),
type Number with a cookie other than 0, 1, 2, 4 and 8, or type LongText with a
cookie other than 2 and 4 makes `unpack` fail with the invalid-stream error,
and `push_value` rejects such a pair wherever it stands in the stream.  The
cookie of an Absent or Opaque lead byte is not examined, and every non-zero
cookie of a Boolean lead byte decodes as `true`. -/
theorem C5_invalid_lead_byte (t : Nat) (rest : List Nat)
    (hlen : (t :: rest).length < 2147483648)
    (hbad : t &&& 7 = 7 ∨
      (t &&& 7 = 2 ∧ t >>> 3 ≠ 0 ∧ t >>> 3 ≠ 1 ∧ t >>> 3 ≠ 2 ∧ t >>> 3 ≠ 4 ∧ t >>> 3 ≠ 8) ∨
      (t &&& 7 = 5 ∧ t >>> 3 ≠ 2 ∧ t >>> 3 ≠ 4)) :
    _luaseri_unpack (.string (t :: rest)) = .error .invalid_stream ∧
    (∀ one rb, push_value one rb (t &&& 7) (t >>> 3) = .error .invalid_stream) ∧
    (∀ one rb cookie, push_value one rb TYPE_NIL cookie = .ok (.nil, rb)) ∧
    (∀ one rb cookie, push_value one rb TYPE_BOOLEAN cookie =
      .ok (.boolean (decide (cookie ≠ 0)), rb)) ∧
    (∀ one rb cookie, push_value one rb TYPE_USERDATA cookie =
      push_value one rb TYPE_USERDATA 0) := by
  refine ⟨?_, fun one rb => push_value_bad one rb _ _ hbad, fun _ _ _ => rfl, fun _ _ _ => rfl,
    fun _ _ _ => rfl⟩
  have hw : wrap32 (((t :: rest).length : Nat) : Int) = ((t :: rest).length : Nat) :=
    wrap32_id (by omega) (by omega)
  have hnz : ¬ ((((t :: rest).length : Nat) : Int) = 0) := by
    simp only [List.length_cons]; omega
  simp only [_luaseri_unpack, hw, if_neg hnz, Int.toNat_ofNat, rball_init_eq]
  have hr := rb_read_at [] [t] rest 1 rfl (by simpa using hlen)
  simp only [List.singleton_append, List.nil_append, List.length_nil] at hr
  rw [unpack_loop, hr]
  simp only
  have hd := rb_deref_at [] [t] rest 1 rfl
  simp only [List.nil_append, List.length_nil] at hd
  rw [hd, le_val_single, push_value_bad _ _ _ _ hbad]

/-- C5, witness: the byte `3A` (type Number, cookie 7) is rejected. -/
theorem C5_invalid_lead_byte_witness :
    _luaseri_unpack (.string [58, 1, 2]) = .error .invalid_stream :=
  (C5_invalid_lead_byte 58 [1, 2] (by decide) (by decide)).1

/-- C5, counterexample: the byte `08` (type Absent, cookie 1) and the byte
`11` (type Boolean, cookie 2) are outside the recognised patterns, and `unpack`
returns `nil` and `true` for them. -/
theorem C5_unrecognised_tag_counterexample :
    (8 &&& 7 = 0 ∧ 8 >>> 3 = 1) ∧ _luaseri_unpack (.string [8]) = .ok [.nil] ∧
    (17 &&& 7 = 1 ∧ 17 >>> 3 = 2) ∧ _luaseri_unpack (.string [17]) = .ok [.boolean true] :=
  ⟨by decide, rfl, by decide, rfl⟩

/-- C6: for every 32-bit signed integer `x`, `wb_integer` appends a Number lead
byte and a payload: nothing when `x = 0` (cookie 0, 1 byte in all), one
unsigned byte when `0 < x < 256` (cookie 1, 2 bytes), two bytes when
`256 <= x < 65536` (cookie 2, 3 bytes), and the four bytes of the signed value
otherwise, for every negative `x` and every `x >= 65536` (cookie 4, 5 bytes). -/
theorem C6_integer_size (wb : write_block) (x : Int) (hwb : wb_inv wb)
    (h1 : -2147483648 ≤ x) (h2 : x < 2147483648) :
    wb_bytes (wb_integer wb x TYPE_NUMBER) = wb_bytes wb ++
      (if x = 0 then [TYPE_NUMBER + 8 * 0]
       else if 0 < x ∧ x < 256 then [TYPE_NUMBER + 8 * 1, x.toNat]
       else if 256 ≤ x ∧ x < 65536 then [TYPE_NUMBER + 8 * 2, x.toNat % 256, x.toNat / 256]
       else (TYPE_NUMBER + 8 * 4) :: le_bytes 4 (x % 4294967296).toNat) ∧
    (wb_bytes (wb_integer wb x TYPE_NUMBER)).length = (wb_bytes wb).length +
      (if x = 0 then 1 else if 0 < x ∧ x < 256 then 2
       else if 256 ≤ x ∧ x < 65536 then 3 else 5) := by
  have hspec := (wb_integer_spec wb x TYPE_NUMBER hwb).2
  have henc : enc_integer x TYPE_NUMBER =
      (if x = 0 then [TYPE_NUMBER + 8 * 0]
       else if 0 < x ∧ x < 256 then [TYPE_NUMBER + 8 * 1, x.toNat]
       else if 256 ≤ x ∧ x < 65536 then [TYPE_NUMBER + 8 * 2, x.toNat % 256, x.toNat / 256]
       else (TYPE_NUMBER + 8 * 4) :: le_bytes 4 (x % 4294967296).toNat) := by
    unfold enc_integer
    by_cases h0 : x = 0
    · rw [if_pos h0, if_pos h0]; rfl
    · rw [if_neg h0, if_neg h0]
      by_cases hneg : x < 0
      · have c1 : ¬ (0 < x ∧ x < 256) := by omega
        have c2 : ¬ (256 ≤ x ∧ x < 65536) := by omega
        rw [if_pos hneg, if_neg c1, if_neg c2]; rfl
      · rw [if_neg hneg]
        by_cases h256 : x < 256
        · have c1 : (0 < x ∧ x < 256) := by omega
          have hb : toU8 (toU32 x) = x.toNat := by unfold toU8 toU32; omega
          rw [if_pos h256, if_pos c1, hb]; rfl
        · have c1 : ¬ (0 < x ∧ x < 256) := by omega
          rw [if_neg h256, if_neg c1]
          by_cases h64 : x < 65536
          · have c2 : (256 ≤ x ∧ x < 65536) := by omega
            have hb : toU32 x % 65536 = x.toNat := by unfold toU32; omega
            have hb2 : x.toNat / 256 / 256 = 0 := by omega
            have hb3 : x.toNat / 256 % 256 = x.toNat / 256 := by omega
            rw [if_pos h64, if_pos c2, hb]
            simp only [le_bytes, hb3]
            rfl
          · have c2 : ¬ (256 ≤ x ∧ x < 65536) := by omega
            rw [if_neg h64, if_neg c2]; rfl
  rw [hspec, henc]
  refine ⟨rfl, ?_⟩
  rw [List.length_append]
  congr 1
  by_cases h0 : x = 0
  · rw [if_pos h0, if_pos h0]; rfl
  · rw [if_neg h0, if_neg h0]
    by_cases c1 : (0 < x ∧ x < 256)
    · rw [if_pos c1, if_pos c1]; rfl
    · rw [if_neg c1, if_neg c1]
      by_cases c2 : (256 ≤ x ∧ x < 65536)
      · rw [if_pos c2, if_pos c2]; rfl
      · rw [if_neg c2, if_neg c2]; simp [le_bytes_length]

/-- C6, witness: 0, 255, 256, -1 and 65536 are written in 1, 2, 3, 5 and 5
bytes. -/
theorem C6_integer_size_witness :
    wb_inv wb_init ∧
    wb_bytes (wb_integer wb_init 0 TYPE_NUMBER) = [2] ∧
    wb_bytes (wb_integer wb_init 255 TYPE_NUMBER) = [10, 255] ∧
    wb_bytes (wb_integer wb_init 256 TYPE_NUMBER) = [18, 0, 1] ∧
    wb_bytes (wb_integer wb_init (-1) TYPE_NUMBER) = [34, 255, 255, 255, 255] ∧
    wb_bytes (wb_integer wb_init 65536 TYPE_NUMBER) = [34, 0, 0, 1, 0] :=
  ⟨wb_inv_init,
    (C6_integer_size wb_init 0 wb_inv_init (by decide) (by decide)).1,
    (C6_integer_size wb_init 255 wb_inv_init (by decide) (by decide)).1,
    (C6_integer_size wb_init 256 wb_inv_init (by decide) (by decide)).1,
    (C6_integer_size wb_init (-1) wb_inv_init (by decide) (by decide)).1,
    (C6_integer_size wb_init 65536 wb_inv_init (by decide) (by decide)).1⟩

/-- C7: for every text of length `L < 32`, `wb_string` appends one lead byte of
type ShortText with cookie `L` followed by the `L` raw bytes; for every text
with `32 <= L < 65536` it appends a LongText lead byte with cookie 2, the two
bytes of `L`, then the `L` raw bytes. -/
theorem C7_text_length_classes (wb : write_block) (s : List Nat) (hwb : wb_inv wb)
    (hs : s.length < 65536) :
    wb_bytes (wb_string wb s (s.length : Nat)) = wb_bytes wb ++
      (if s.length < 32 then (TYPE_SHORT_STRING + 8 * s.length) :: s
       else (TYPE_LONG_STRING + 8 * 2) :: s.length % 256 :: s.length / 256 :: s) := by
  have hspec := (wb_string_spec wb s (s.length : Nat) hwb (Int.le_refl _)).2
  have henc := enc_string_exact s (by omega)
  rw [wrap32_id (by omega) (by omega)] at henc
  rw [hspec, henc]
  by_cases h32 : s.length < 32
  · rw [if_pos h32, if_pos h32]; rfl
  · have hb3 : s.length / 256 % 256 = s.length / 256 := by omega
    rw [if_neg h32, if_neg h32, if_pos hs]
    simp only [le_bytes, hb3]
    rfl

/-- C7, witness: a text of 31 bytes is written as the lead byte `FC` and the 31
bytes, a text of 32 bytes as `15 20 00` and the 32 bytes. -/
theorem C7_text_length_classes_witness :
    wb_bytes (wb_string wb_init (List.replicate 31 97) 31) = 252 :: List.replicate 31 97 ∧
    wb_bytes (wb_string wb_init (List.replicate 32 97) 32) =
      21 :: 32 :: 0 :: List.replicate 32 97 :=
  ⟨C7_text_length_classes wb_init (List.replicate 31 97) wb_inv_init (by decide),
    C7_text_length_classes wb_init (List.replicate 32 97) wb_inv_init (by decide)⟩

theorem encode_string (f : Nat) (s : List Nat) (d : Int) (h : ¬ d > MAX_DEPTH) :
    encode (f + 1) (.string s) d = .ok (enc_string s (wrap32 s.length)) := by
  unfold encode; rw [if_neg h]

theorem pack_one_string (f : Nat) (b : write_block) (s : List Nat) (d : Int)
    (h : ¬ d > MAX_DEPTH) :
    pack_one (f + 1) b (.string s) d = .ok (wb_string b s (wrap32 s.length)) := by
  unfold pack_one; rw [if_neg h]

theorem depth_zero_ok : ¬ ((0 : Int) > MAX_DEPTH) := by decide

/-- C8 (as amended): for every text whose length `L` satisfies
`65536 <= L < 2^31`, packing it appends a LongText lead byte with cookie 4, a
4-byte length field equal to `L`, then the `L` raw bytes; and when that
encoding, of `L + 5` bytes, is itself shorter than `2^31` bytes, `pack`
returns it and unpacking it returns the same text. -/
theorem C8_long_text (s : List Nat) (wb : write_block) (hwb : wb_inv wb)
    (h1 : 65536 ≤ s.length) (h2 : s.length < 2147483648) :
    (∃ wb', pack_one 1 wb (.string s) 0 = .ok wb' ∧
      wb_bytes wb' = wb_bytes wb ++ (TYPE_LONG_STRING + 8 * 4) :: (le_bytes 4 s.length ++ s)) ∧
    le_val (le_bytes 4 s.length) = s.length ∧
    (s.length + 5 < 2147483648 →
      _luaseri_pack [.string s] =
        .ok ((TYPE_LONG_STRING + 8 * 4) :: (le_bytes 4 s.length ++ s),
          ((s.length + 5 : Nat) : Int)) ∧
      unpack_packed (_luaseri_pack [.string s]) = .ok [.string s]) := by
  have henc : enc_string s (wrap32 s.length) = (5 + 8 * 4) :: (le_bytes 4 s.length ++ s) := by
    rw [enc_string_exact s (by omega), if_neg (by omega), if_neg (by omega)]
  have hw : wrap32 ((s.length : Nat) : Int) ≤ (s.length : Nat) := wrap32_le_self _
  have hall : encode_all [.string s] = .ok ((5 + 8 * 4) :: (le_bytes 4 s.length ++ s)) := by
    rw [encode_all_single (.string s) _ (encode_string _ s 0 depth_zero_ok), henc]
  have hlen : ((5 + 8 * 4) :: (le_bytes 4 s.length ++ s)).length = s.length + 5 := by
    simp only [List.length_cons, List.length_append, le_bytes_length]; omega
  refine ⟨⟨_, pack_one_string 0 wb s 0 depth_zero_ok, ?_⟩, ?_, ?_⟩
  · rw [(wb_string_spec wb s _ hwb hw).2, henc]; rfl
  · exact le_val_le_bytes 4 _ (by omega)
  · intro h5
    have hpack := luaseri_pack_eq [.string s]
    rw [hall] at hpack
    simp only at hpack
    have hpack' := hpack (by rw [hlen]; omega)
    rw [hlen] at hpack'
    refine ⟨hpack', ?_⟩
    rw [hpack']
    have := unpack_encode_all [.string s] _
      (by intro v hv; simp only [List.mem_singleton] at hv; subst hv
          exact Exact.string s (by omega)) hall (by rw [hlen]; omega)
    rw [hlen] at this
    exact this

/-- C8, witness: a text of 65536 bytes. -/
theorem C8_long_text_witness :
    65536 ≤ (List.replicate 65536 0).length ∧
    unpack_packed (_luaseri_pack [.string (List.replicate 65536 0)]) =
      .ok [.string (List.replicate 65536 0)] :=
  ⟨by rw [List.length_replicate],
    ((C8_long_text (List.replicate 65536 0) wb_init wb_inv_init
      (by rw [List.length_replicate]) (by rw [List.length_replicate]; decide)).2.2
        (by rw [List.length_replicate]; decide)).2⟩

theorem enc_string_int_min (s : List Nat) : enc_string s (-2147483648) = [4] := by
  unfold enc_string
  rw [if_pos (by decide), if_neg (by decide)]
  rfl

theorem wrap32_length_replicate :
    wrap32 (((List.replicate 2147483648 0).length : Nat) : Int) = -2147483648 := by
  rw [List.length_replicate]; decide

theorem encode_all_huge_string :
    encode_all [.string (List.replicate 2147483648 0)] = .ok [4] := by
  rw [encode_all_single (.string _) _ (encode_string _ _ 0 depth_zero_ok),
    wrap32_length_replicate, enc_string_int_min]

theorem luaseri_pack_huge_string :
    _luaseri_pack [.string (List.replicate 2147483648 0)] = .ok ([4], 1) := by
  have hpack := luaseri_pack_eq [.string (List.replicate 2147483648 0)]
  rw [encode_all_huge_string] at hpack
  exact hpack (by decide)

/-- C8, counterexample: a text of `2^31` bytes is within the claimed range; its
length does not fit the `int` parameter of `wb_string`, which receives
`-2^31`, and the text is packed as the single byte `04`, the encoding of the
empty text, so that unpacking returns the empty text. -/
theorem C8_long_text_counterexample :
    (List.replicate 2147483648 0).length = 2147483648 ∧
    _luaseri_pack [.string (List.replicate 2147483648 0)] = .ok ([4], 1) ∧
    unpack_packed (.ok ([4], 1)) = .ok [.string []] :=
  ⟨List.length_replicate _ _, luaseri_pack_huge_string, rfl⟩

theorem enc_hash_loop_filter (enc : Value → Int → Except Err (List Nat)) (depth s : Int) :
    ∀ (l : List (Value × Value)),
      enc_hash_loop enc depth s l =
        enc_hash_loop enc depth s (l.filter (fun kv => !hash_skip kv.1 s)) := by
  intro l
  induction l with
  | nil => rfl
  | cons kv l ih =>
    obtain ⟨k, v⟩ := kv
    by_cases hk : hash_skip k s = true
    · simp only [List.filter, hk, Bool.not_true, enc_hash_loop, if_true]
      exact ih
    · have hk' : hash_skip k s = false := by simpa using hk
      simp only [List.filter, hk', Bool.not_false, enc_hash_loop, Bool.false_eq_true, if_false]
      rw [ih]

theorem table_header_eq (s : Nat) (hs : s < 2147483648) :
    enc_table_header (s : Int) = table_header s := by
  unfold enc_table_header table_header
  by_cases h : s ≤ 30
  · have h' : ¬ ((s : Int) ≥ MAX_COOKIE - 1) := by simp only [MAX_COOKIE]; omega
    rw [if_neg h', if_pos h, TYPE_TABLE, tag_nat 6 s (by decide) (by omega)]
  · have h' : ((s : Int) ≥ MAX_COOKIE - 1) := by simp only [MAX_COOKIE]; omega
    have h31 : MAX_COOKIE - 1 = ((31 : Nat) : Int) := by simp only [MAX_COOKIE]; rfl
    have hw := (wb_integer_spec wb_init s TYPE_NUMBER wb_inv_init).2
    rw [if_pos h', if_neg h, hw, h31, TYPE_TABLE, tag_nat 6 31 (by decide) (by decide)]
    rfl

/-- The layout of what `encode` gives for a table. -/
theorem encode_table_layout (f : Nat) (arr : List Value) (hash : List (Value × Value))
    (d : Int) (E : List Nat) (hs : arr.length < 2147483648)
    (he : encode (f + 1) (.table arr hash) d = .ok E) :
    ∃ (Es : List (List Nat)) (es : List (List Nat × List Nat)),
      List.Forall₂ (fun a e => encode f a (d + 1) = .ok e) arr Es ∧
      List.Forall₂ (fun (kv : Value × Value) (e : List Nat × List Nat) =>
          encode f kv.1 (d + 1) = .ok e.1 ∧ encode f kv.2 (d + 1) = .ok e.2)
        (hash.filter (fun kv => !hash_skip kv.1 ((arr.length : Nat) : Int))) es ∧
      E = table_header arr.length ++ Es.flatten ++ pairs_bytes es ++ [0] := by
  have hd : ¬ d > MAX_DEPTH := by
    intro h; rw [encode_too_deep f _ d h] at he; cases he
  rw [encode_table f arr hash d hd] at he
  simp only [enc_table] at he
  have hw : wrap32 ((lua_rawlen arr : Nat) : Int) = (arr.length : Nat) :=
    wrap32_id (by simp only [lua_rawlen]; omega) (by simp only [lua_rawlen]; omega)
  rw [hw] at he
  simp only [Int.toNat_ofNat] at he
  cases hA : enc_array_loop (encode f) arr (arr.length : Nat) (d + 1) arr.length with
  | error e => rw [hA] at he; simp at he
  | ok A =>
    rw [hA] at he
    simp only at he
    obtain ⟨l1, hl1, hl1s⟩ := lua_next_skip arr hash hs
    rw [hl1, enc_hash_loop_skip _ _ _ l1 hash hl1s, enc_hash_loop_filter] at he
    cases hH : enc_hash_loop (encode f) (d + 1) (arr.length : Nat)
        (hash.filter (fun kv => !hash_skip kv.1 ((arr.length : Nat) : Int))) with
    | error e => rw [hH] at he; simp at he
    | ok H =>
      rw [hH] at he
      simp only [Except.ok.injEq] at he
      obtain ⟨Es, hEs, hAE⟩ := enc_array_loop_spec (encode f) (d + 1) arr [] A
        (by simpa using hA)
      obtain ⟨es, hes, hHe⟩ := enc_hash_loop_spec (encode f) (d + 1) _ _ H
        (by intro kv hkv; simpa using (List.mem_filter.mp hkv).2) hH
      refine ⟨Es, es, hEs, hes, ?_⟩
      rw [← he, table_header_eq arr.length hs, hAE, hHe]
      rfl

theorem forall2_packed (f : Nat) (d : Int) (arr : List Value) (Es : List (List Nat))
    (h : List.Forall₂ (fun a e => encode f a d = .ok e) arr Es) :
    List.Forall₂ (fun a e => packed f a d = .ok e) arr Es :=
  h.imp (fun a e h => by rw [packed_eq_encode]; exact h)

/-- C10: for every table that `pack_one` accepts (so within the depth limit),
with array part `a1..as` and map part pairs `(k1,v1)..(km,vm)`, the encoding
is the table header, then the encodings of `a1..as` in order, then for each
map pair whose key the test of `wb_table_hash` does not skip the encoding of
the key followed by the encoding of the value, then the single byte `00`.  The
keys skipped are exactly the numbers equal to an integer in `1..s`. -/
theorem C10_table_layout (f : Nat) (arr : List Value) (hash : List (Value × Value))
    (d : Int) (E : List Nat) (hs : arr.length < 2147483648)
    (he : packed (f + 1) (.table arr hash) d = .ok E) :
    (∃ (Es : List (List Nat)) (es : List (List Nat × List Nat)),
      List.Forall₂ (fun a e => packed f a (d + 1) = .ok e) arr Es ∧
      List.Forall₂ (fun (kv : Value × Value) (e : List Nat × List Nat) =>
          packed f kv.1 (d + 1) = .ok e.1 ∧ packed f kv.2 (d + 1) = .ok e.2)
        (hash.filter (fun kv => !hash_skip kv.1 ((arr.length : Nat) : Int))) es ∧
      E = table_header arr.length ++ Es.flatten ++
        (es.map (fun e => e.1 ++ e.2)).flatten ++ [0]) ∧
    (∀ i : Nat, 1 ≤ i → i ≤ arr.length →
      hash_skip (.number (double_of_int (i : Nat))) ((arr.length : Nat) : Int) = true) ∧
    (∀ key : Value, hash_skip key ((arr.length : Nat) : Int) = true →
      ∃ (k : Nat) (x : Int), key = .number k ∧ 1 ≤ x ∧ x ≤ (arr.length : Nat) ∧
        double_eq k (double_of_int x) = true) := by
  rw [packed_eq_encode] at he
  obtain ⟨Es, es, hEs, hes, hE⟩ := encode_table_layout f arr hash d E hs he
  refine ⟨⟨Es, es, forall2_packed f (d + 1) arr Es hEs, ?_, hE⟩, ?_, ?_⟩
  · exact hes.imp (fun kv e h => by rw [packed_eq_encode, packed_eq_encode]; exact h)
  · intro i h1 h2
    obtain ⟨j, rfl⟩ : ∃ j, i = j + 1 := ⟨i - 1, by omega⟩
    have := hash_skip_index j arr.length (by omega) hs
    simpa using this
  · intro key hkey
    cases key with
    | number k =>
      simp only [hash_skip, Bool.and_eq_true, decide_eq_true_eq] at hkey
      exact ⟨k, wrap32 (lua_tointeger k), rfl, by omega, hkey.2, hkey.1.1⟩
    | nil => simp [hash_skip] at hkey
    | boolean b => simp [hash_skip] at hkey
    | string s => simp [hash_skip] at hkey
    | lightuserdata p => simp [hash_skip] at hkey
    | table a h => simp [hash_skip] at hkey
    | other t => simp [hash_skip] at hkey

/-- C10, witness: the table `{1:"a", 2:"b", "k":"v"}` is written as the header
`16`, the two elements, the pair and the byte `00`; unpacking gives an array
part of length 2 and exactly one map pair. -/
theorem C10_table_layout_witness :
    packed 2 (.table [.string [97], .string [98]] [(.string [107], .string [118])]) 0 =
      .ok [22, 12, 97, 12, 98, 12, 107, 12, 118, 0] ∧
    _luaseri_unpack (.string [22, 12, 97, 12, 98, 12, 107, 12, 118, 0]) =
      .ok [.table [.string [97], .string [98]] [(.string [107], .string [118])]] ∧
    (∀ i : Nat, 1 ≤ i → i ≤ [Value.string [97], Value.string [98]].length →
      hash_skip (.number (double_of_int (i : Nat)))
        (([Value.string [97], Value.string [98]].length : Nat) : Int) = true) :=
  ⟨rfl, rfl,
    (C10_table_layout 1 [.string [97], .string [98]] [(.string [107], .string [118])] 0
      [22, 12, 97, 12, 98, 12, 107, 12, 118, 0] (by decide) rfl).2.1⟩

/-! ## Sequences of appends -/

theorem wb_push_all_spec : ∀ (ps : List (List Nat × Int)) (b : write_block), wb_inv b →
    (∀ p ∈ ps, 0 ≤ p.2 ∧ p.2 ≤ (p.1.length : Int)) →
    wb_inv (wb_push_all b ps) ∧ wb_bytes (wb_push_all b ps) = wb_bytes b ++ pushed_bytes ps := by
  intro ps
  induction ps with
  | nil => intro b hb _; exact ⟨hb, by simp [wb_push_all, pushed_bytes]⟩
  | cons p ps ih =>
    intro b hb hp
    have h1 := wb_push_spec b p.1 p.2 hb (hp p (by simp)).1 (hp p (by simp)).2
    have h2 := ih (wb_push b p.1 p.2) h1.1 (fun q hq => hp q (by simp [hq]))
    refine ⟨h2.1, ?_⟩
    rw [wb_push_all, h2.2, h1.2]
    simp [pushed_bytes]

theorem pushed_bytes_appends (bs : List (List Nat)) : pushed_bytes (appends bs) = bs.flatten := by
  induction bs with
  | nil => rfl
  | cons b bs ih =>
    simp only [pushed_bytes, appends, List.map_cons, List.flatten_cons, Int.toNat_ofNat,
      List.take_length] at ih ⊢
    rw [ih]

theorem appends_ok (bs : List (List Nat)) :
    ∀ p ∈ appends bs, 0 ≤ p.2 ∧ p.2 ≤ (p.1.length : Int) := by
  intro p hp
  simp only [appends, List.mem_map] at hp
  obtain ⟨b, _, rfl⟩ := hp
  simp

theorem length_flatten_sum (bs : List (List Nat)) :
    bs.flatten.length = (bs.map List.length).sum := by
  induction bs with
  | nil => rfl
  | cons b bs ih => simp [ih]

/-- The flat buffer `seri` builds from a chain that satisfies the invariant. -/
theorem seri_of_inv (wb : write_block) (h : wb_inv wb) (hlen : (wb_bytes wb).length < 2147483648) :
    seri (wb.full ++ [wb.current]) wb.len = (wb_bytes wb, (((wb_bytes wb).length : Nat) : Int)) := by
  have hw : wb.len = (((wb_bytes wb).length : Nat) : Int) := by
    rw [h.len_eq]; exact wrap32_id (by omega) (by omega)
  have hc : wb.current.length ≤ 128 := by
    have := h.cur_len; have := h.ptr_le; omega
  unfold seri
  rw [seri_copy_spec wb.full wb.current wb.len h.full_blocks hc hw, hw]
  rfl

/-- C11: for every sequence of appends of byte strings `b1..bk` to a freshly
initialised write buffer (fewer than `2^31` bytes in all, the range of the
`int` that records the length), the recorded length is `|b1|+...+|bk|`, and
the flat buffer `seri` builds from the block chain has exactly that length and
is the concatenation `b1 ++ ... ++ bk`, wherever the block boundaries fall. -/
theorem C11_materialisation (bs : List (List Nat)) (h : bs.flatten.length < 2147483648) :
    (wb_push_all wb_init (appends bs)).len = (((bs.map List.length).sum : Nat) : Int) ∧
    seri ((wb_push_all wb_init (appends bs)).full ++ [(wb_push_all wb_init (appends bs)).current])
        (wb_push_all wb_init (appends bs)).len =
      (bs.flatten, (((bs.map List.length).sum : Nat) : Int)) ∧
    (seri ((wb_push_all wb_init (appends bs)).full ++
        [(wb_push_all wb_init (appends bs)).current])
      (wb_push_all wb_init (appends bs)).len).1.length = (bs.map List.length).sum := by
  have hs := wb_push_all_spec (appends bs) wb_init wb_inv_init (appends_ok bs)
  have hb : wb_bytes (wb_push_all wb_init (appends bs)) = bs.flatten := by
    rw [hs.2, pushed_bytes_appends]; rfl
  have hseri := seri_of_inv _ hs.1 (by rw [hb]; exact h)
  rw [hb, length_flatten_sum] at hseri
  refine ⟨?_, hseri, ?_⟩
  · have := hs.1.len_eq
    rw [hb, length_flatten_sum] at this
    rw [this]
    exact wrap32_id (by omega) (by rw [← length_flatten_sum]; omega)
  · rw [hseri, length_flatten_sum]
theorem appends_example_sum :
    ([List.replicate 100 1, List.replicate 200 2, List.replicate 84 3].map List.length).sum
      = 384 := by
  simp only [List.map, List.length_replicate, List.sum_cons, List.sum_nil]
  decide

theorem appends_example_length :
    ([List.replicate 100 1, List.replicate 200 2, List.replicate 84 3].flatten).length
      < 2147483648 := by
  rw [length_flatten_sum, appends_example_sum]; decide

/-- C11, witness: appends of 100, 200 and 84 bytes; the second one straddles
two block boundaries and the third ends exactly on one.  The recorded length
is 384 and the flat buffer is the concatenation. -/
theorem C11_materialisation_witness :
    (wb_push_all wb_init
      (appends [List.replicate 100 1, List.replicate 200 2, List.replicate 84 3])).len = 384 ∧
    seri ((wb_push_all wb_init
          (appends [List.replicate 100 1, List.replicate 200 2, List.replicate 84 3])).full ++
        [(wb_push_all wb_init
          (appends [List.replicate 100 1, List.replicate 200 2, List.replicate 84 3])).current])
        (wb_push_all wb_init
          (appends [List.replicate 100 1, List.replicate 200 2, List.replicate 84 3])).len =
      ([List.replicate 100 1, List.replicate 200 2, List.replicate 84 3].flatten, 384) := by
  have h := C11_materialisation
    [List.replicate 100 1, List.replicate 200 2, List.replicate 84 3] appends_example_length
  rw [appends_example_sum] at h
  exact ⟨h.1, h.2.1⟩
/-- C19: starting from `wb_init`, after every sequence of `wb_push` calls with
non-negative sizes (each within its source buffer, fewer than `2^31` bytes in
all), `0 <= ptr <= 128`, every block of the chain except the current one holds
exactly 128 written bytes, the current block holds `ptr` written bytes, and
`len = 128 * (number of blocks - 1) + ptr`. -/
theorem C19_write_buffer_invariant (ps : List (List Nat × Int))
    (hp : ∀ p ∈ ps, 0 ≤ p.2 ∧ p.2 ≤ (p.1.length : Int))
    (h : (pushed_bytes ps).length < 2147483648) :
    0 ≤ (wb_push_all wb_init ps).ptr ∧ (wb_push_all wb_init ps).ptr ≤ 128 ∧
    (∀ blk ∈ (wb_push_all wb_init ps).full, blk.length = 128) ∧
    ((wb_push_all wb_init ps).current.length : Int) = (wb_push_all wb_init ps).ptr ∧
    (wb_push_all wb_init ps).len =
      128 * ((((wb_push_all wb_init ps).full ++ [(wb_push_all wb_init ps).current]).length
        : Nat) - 1 : Int) + (wb_push_all wb_init ps).ptr := by
  have hs := wb_push_all_spec ps wb_init wb_inv_init hp
  have hb : wb_bytes (wb_push_all wb_init ps) = pushed_bytes ps := by rw [hs.2]; rfl
  have hc := hs.1.cur_len
  have hl := hs.1.len_eq
  have hfl : ∀ (full : List (List Nat)), (∀ blk ∈ full, blk.length = 128) →
      full.flatten.length = 128 * full.length := by
    intro full
    induction full with
    | nil => intro _; rfl
    | cons b full ih =>
      intro hf
      simp only [List.flatten_cons, List.length_append, List.length_cons]
      rw [ih (fun blk hblk => hf blk (by simp [hblk])), hf b (by simp)]
      omega
  have hbl : (wb_bytes (wb_push_all wb_init ps)).length =
      128 * (wb_push_all wb_init ps).full.length + (wb_push_all wb_init ps).current.length := by
    simp only [wb_bytes, List.length_append]
    rw [hfl _ hs.1.full_blocks]
  refine ⟨by omega, hs.1.ptr_le, hs.1.full_blocks, hc, ?_⟩
  rw [hl, wrap32_id (by omega) (by rw [hb]; omega), hbl]
  simp only [List.length_append, List.length_cons, List.length_nil]
  push_cast
  omega

set_option maxRecDepth 100000 in
theorem wb_push_all_example :
    wb_push_all wb_init [(List.replicate 130 7, 130), ([1, 2, 3], 2), (List.replicate 124 9, 124)] =
      { full := [List.replicate 128 7], current := [7, 7, 1, 2] ++ List.replicate 124 9,
        len := 256, ptr := 128 } := by
  rfl

theorem pushed_bytes_example :
    (pushed_bytes [(List.replicate 130 7, 130), ([1, 2, 3], 2), (List.replicate 124 9, 124)]).length
      < 2147483648 := by
  simp only [pushed_bytes, List.map, List.flatten, List.length_append, List.length_take,
    List.length_replicate, List.length_cons, List.length_nil]
  decide

/-- C19, witness: pushes of 130 bytes, of the first 2 of 3 bytes and of 124
bytes leave one full block and a current block with `ptr = 128`, and
`len = 256`. -/
theorem C19_write_buffer_invariant_witness :
    (wb_push_all wb_init
      [(List.replicate 130 7, 130), ([1, 2, 3], 2), (List.replicate 124 9, 124)]).ptr ≤ 128 ∧
    (wb_push_all wb_init
      [(List.replicate 130 7, 130), ([1, 2, 3], 2), (List.replicate 124 9, 124)]).ptr = 128 ∧
    (wb_push_all wb_init
      [(List.replicate 130 7, 130), ([1, 2, 3], 2), (List.replicate 124 9, 124)]).len = 256 :=
  ⟨(C19_write_buffer_invariant
      [(List.replicate 130 7, 130), ([1, 2, 3], 2), (List.replicate 124 9, 124)]
      (by
        intro p hp
        simp only [List.mem_cons, List.mem_singleton, List.not_mem_nil, or_false] at hp
        rcases hp with rfl | rfl | rfl
        · simp only [List.length_replicate]; decide
        · decide
        · simp only [List.length_replicate]; decide)
      pushed_bytes_example).2.1,
    by rw [wb_push_all_example], by rw [wb_push_all_example]⟩

/-- C12: for every cursor state whose end `ptr + len` is in the range of an
`int`, and every `n >= 0`, `rb_read` returns `NULL` (the cursor is then left
as it was, no new cursor is produced) if and only if fewer than `n` bytes
remain; otherwise it returns the old position, advances the position by
exactly `n` and decreases the remaining count by exactly `n`, and the view at
the returned position covers the next `n` bytes of the buffer. -/
theorem C12_rb_read_contract (rb : read_block) (n : Int) (hn : 0 ≤ n)
    (hp : -2147483648 ≤ rb.ptr) (hl : rb.len < 2147483648)
    (hpl : rb.ptr + rb.len < 2147483648) :
    (rb_read rb n = none ↔ rb.len < n) ∧
    (¬ rb.len < n →
      rb_read rb n =
        some (rb.ptr, { buffer := rb.buffer, len := rb.len - n, ptr := rb.ptr + n })) ∧
    (¬ rb.len < n → 0 ≤ rb.ptr → rb.ptr + rb.len ≤ (rb.buffer.length : Int) →
      rb_deref rb rb.ptr n.toNat = (rb.buffer.drop rb.ptr.toNat).take n.toNat ∧
      (rb_deref rb rb.ptr n.toNat).length = n.toNat) := by
  have hsome : ¬ rb.len < n →
      rb_read rb n =
        some (rb.ptr, { buffer := rb.buffer, len := rb.len - n, ptr := rb.ptr + n }) := by
    intro h
    have e1 : wrap32 (rb.ptr + n) = rb.ptr + n := wrap32_id (by omega) (by omega)
    have e2 : wrap32 (rb.len - n) = rb.len - n := wrap32_id (by omega) (by omega)
    rw [rb_read, if_neg h, e1, e2]
  refine ⟨⟨?_, ?_⟩, hsome, ?_⟩
  · intro h
    by_contra hc
    rw [hsome hc] at h
    cases h
  · intro h
    rw [rb_read, if_pos h]
  · intro h h0 hb
    refine ⟨rfl, ?_⟩
    simp only [rb_deref, List.length_take, List.length_drop]
    omega

/-- C12, witness: on a cursor at offset 1 of a 4-byte buffer with 3 bytes
left, reading 2 bytes succeeds and reading 4 bytes fails. -/
theorem C12_rb_read_contract_witness :
    rb_read { buffer := [10, 11, 12, 13], len := 3, ptr := 1 } 2 =
      some (1, { buffer := [10, 11, 12, 13], len := 1, ptr := 3 }) ∧
    rb_deref { buffer := [10, 11, 12, 13], len := 3, ptr := 1 } 1 2 = [11, 12] ∧
    rb_read { buffer := [10, 11, 12, 13], len := 3, ptr := 1 } 4 = none :=
  ⟨(C12_rb_read_contract { buffer := [10, 11, 12, 13], len := 3, ptr := 1 } 2
      (by decide) (by decide) (by decide) (by decide)).2.1 (by decide),
    rfl,
    (C12_rb_read_contract { buffer := [10, 11, 12, 13], len := 3, ptr := 1 } 4
      (by decide) (by decide) (by decide) (by decide)).1.mpr (by decide)⟩

/-- C13: `unpack` on a nil (or missing) argument, on an empty string, or on a
buffer of length zero (whatever the pointer, `NULL` included) returns the
empty sequence of values and does not fail. -/
theorem C13_empty_input :
    _luaseri_unpack .none = .ok [] ∧
    _luaseri_unpack (.string []) = .ok [] ∧
    (∀ buffer : Option (List Nat), _luaseri_unpack (.userdata buffer 0) = .ok []) :=
  ⟨rfl, rfl, fun _ => rfl⟩

/-- C15: for every type `t` in `0..6` and every cookie `c` in `0..31`, the lead
byte `COMBINE_TYPE(t, c)` is `t + 8*c`, fits in one byte (the conversion to
`uint8_t` leaves it as it is), and the decoder's split `(byte & 7, byte >> 3)`
gives back `(t, c)`; distinct (type, cookie) pairs give distinct lead bytes. -/
theorem C15_tag_byte_layout (t c : Nat) (ht : t ≤ 6) (hc : c ≤ 31) :
    COMBINE_TYPE t (c : Int) = t + 8 * c ∧
    COMBINE_TYPE t (c : Int) < 256 ∧
    toU8 (COMBINE_TYPE t (c : Int)) = COMBINE_TYPE t (c : Int) ∧
    COMBINE_TYPE t (c : Int) &&& 7 = t ∧
    COMBINE_TYPE t (c : Int) >>> 3 = c ∧
    (∀ t' c' : Nat, t' ≤ 6 → c' ≤ 31 →
      COMBINE_TYPE t (c : Int) = COMBINE_TYPE t' (c' : Int) → t = t' ∧ c = c') := by
  have key : ∀ a b : Nat, a ≤ 6 → b ≤ 31 → COMBINE_TYPE a (b : Int) = a + 8 * b := by
    intro a b ha hb
    interval_cases a <;> interval_cases b <;> rfl
  have hs := lead_byte_split t c (by omega)
  rw [key t c ht hc]
  refine ⟨rfl, by omega, ?_, hs.1, hs.2, ?_⟩
  · unfold toU8; omega
  · intro t' c' ht' hc' h
    rw [key t' c' ht' hc'] at h
    omega

/-- C15, witness: type 6 with cookie 31 is the byte `FE`, and `FE` splits into
`(6, 31)`. -/
theorem C15_tag_byte_layout_witness :
    COMBINE_TYPE 6 31 = 254 ∧ 254 &&& 7 = 6 ∧ 254 >>> 3 = 31 :=
  ⟨(C15_tag_byte_layout 6 31 (by decide) (by decide)).1,
    by decide, by decide⟩

theorem get_number_bad_cookie (rb : read_block) (c : Nat)
    (h0 : c ≠ 0) (h1 : c ≠ 1) (h2 : c ≠ 2) (h4 : c ≠ 4) (h8 : c ≠ 8) :
    get_number rb c = .error .invalid_stream := by
  rw [get_number_int _ _ h8, get_integer_bad_cookie rb c h0 h1 h2 h4]

/-- C18: for every 32-bit signed integer `x`, `wb_integer` writes a lead byte
and a payload, and `get_integer` under the cookie of that lead byte reads the
payload back as exactly `x`, leaving the cursor right after the payload.
Cookie 0 reads nothing and yields 0, cookie 1 reads one byte as unsigned,
cookie 2 two bytes as unsigned, cookie 4 four bytes as a signed `int`; any
other cookie is an invalid stream for `get_integer`, and any cookie other than
0, 1, 2, 4 and 8 is one for `get_number`. -/
theorem C18_integer_width_decoding (x : Int) (h1 : -2147483648 ≤ x) (h2 : x < 2147483648)
    (pre rest : List Nat) (hlen : (pre ++ rest).length + 4 < 2147483648) :
    (∃ lead payload, wb_bytes (wb_integer wb_init x TYPE_NUMBER) = lead :: payload ∧
      lead &&& 7 = TYPE_NUMBER ∧
      get_integer (rb_at pre (payload ++ rest)) (lead >>> 3) =
        .ok (x, rb_at (pre ++ payload) rest)) ∧
    (∀ rb, get_integer rb 0 = .ok (0, rb)) ∧
    (∀ b0 : Nat, get_integer (rb_at pre (b0 :: rest)) 1 =
      .ok (((b0 : Nat) : Int), rb_at (pre ++ [b0]) rest)) ∧
    (∀ b0 b1 : Nat, get_integer (rb_at pre (b0 :: b1 :: rest)) 2 =
      .ok (((b0 + 256 * b1 : Nat) : Int), rb_at (pre ++ [b0, b1]) rest)) ∧
    (∀ b0 b1 b2 b3 : Nat, get_integer (rb_at pre (b0 :: b1 :: b2 :: b3 :: rest)) 4 =
      .ok (wrap32 ((b0 + 256 * (b1 + 256 * (b2 + 256 * b3)) : Nat) : Int),
        rb_at (pre ++ [b0, b1, b2, b3]) rest)) ∧
    (∀ rb c, c ≠ 0 → c ≠ 1 → c ≠ 2 → c ≠ 4 → get_integer rb c = .error .invalid_stream) ∧
    (∀ rb c, c ≠ 0 → c ≠ 1 → c ≠ 2 → c ≠ 4 → c ≠ 8 →
      get_number rb c = .error .invalid_stream) := by
  have hpl := int_payload_length x
  have hc4 : int_cookie x ≤ 4 := by
    rcases int_cookie_cases x with h | h | h | h <;> omega
  simp only [List.length_append] at hlen
  refine ⟨⟨TYPE_NUMBER + 8 * int_cookie x, int_payload x, ?_, ?_, ?_⟩, fun _ => rfl, ?_, ?_, ?_,
    fun rb c => get_integer_bad_cookie rb c, fun rb c => get_number_bad_cookie rb c⟩
  · rw [(wb_integer_spec wb_init x TYPE_NUMBER wb_inv_init).2, enc_integer_eq, TYPE_NUMBER,
      tag_nat 2 _ (by decide) (int_cookie_lt x)]
    rfl
  · exact (lead_byte_split TYPE_NUMBER (int_cookie x) (by decide)).1
  · rw [(lead_byte_split TYPE_NUMBER (int_cookie x) (by decide)).2]
    exact get_integer_ok x h1 h2 pre rest (by simp only [List.length_append]; omega)
  · intro b0
    have hr := rb_read_at pre [b0] rest 1 rfl
      (by simp only [List.length_append, List.length_cons, List.length_nil]; omega)
    simp only [List.cons_append, List.nil_append] at hr
    rw [get_integer_1, hr]
    simp only
    rw [rb_deref_at pre [b0] rest 1 rfl, le_val_single]
  · intro b0 b1
    have hr := rb_read_at pre [b0, b1] rest 2 rfl
      (by simp only [List.length_append, List.length_cons, List.length_nil]; omega)
    simp only [List.cons_append, List.nil_append] at hr
    rw [get_integer_2, hr]
    simp only
    rw [rb_deref_at pre [b0, b1] rest 2 rfl]
    simp [le_val]
  · intro b0 b1 b2 b3
    have hr := rb_read_at pre [b0, b1, b2, b3] rest 4 rfl
      (by simp only [List.length_append, List.length_cons, List.length_nil]; omega)
    simp only [List.cons_append, List.nil_append] at hr
    rw [get_integer_4, hr]
    simp only
    rw [rb_deref_at pre [b0, b1, b2, b3] rest 4 rfl]
    simp [le_val]

/-- C18, witness: `-1` is written as the lead byte `22` (cookie 4) and the four
bytes `FF FF FF FF`, which cookie 4 reads back as `-1`; `255` is written with
cookie 1 and read back as `255`. -/
theorem C18_integer_width_decoding_witness :
    wb_bytes (wb_integer wb_init (-1) TYPE_NUMBER) = [34, 255, 255, 255, 255] ∧
    get_integer (rb_at [] [255, 255, 255, 255]) 4 =
      .ok (wrap32 ((255 + 256 * (255 + 256 * (255 + 256 * 255)) : Nat) : Int),
        rb_at ([] ++ [255, 255, 255, 255]) []) ∧
    wrap32 ((255 + 256 * (255 + 256 * (255 + 256 * 255)) : Nat) : Int) = -1 ∧
    wb_bytes (wb_integer wb_init 255 TYPE_NUMBER) = [10, 255] ∧
    get_integer (rb_at [] [255]) 1 = .ok (255, rb_at ([] ++ [255]) []) :=
  ⟨rfl,
    (C18_integer_width_decoding (-1) (by decide) (by decide) [] [] (by decide)).2.2.2.2.1
      255 255 255 255,
    by decide, rfl,
    (C18_integer_width_decoding 255 (by decide) (by decide) [] [] (by decide)).2.2.1 255⟩

/-- C14: for all sequences `xs` and `ys` that `pack` accepts (fewer than `2^31`
bytes together), the bytes of `pack(xs ++ ys)` are the bytes of `pack(xs)`
followed by the bytes of `pack(ys)`: they are the bytes `pack_one` writes for
each value at depth 0, in order, with nothing between them, before them or
after them, and the length returned is the sum of the lengths of those
encodings. -/
theorem C14_pack_concatenation (xs ys : List Value) (wx wy : write_block)
    (hx : pack_from wb_init xs = .ok wx) (hy : pack_from wb_init ys = .ok wy)
    (hlen : (wb_bytes wx).length + (wb_bytes wy).length < 2147483648) :
    _luaseri_pack xs = .ok (wb_bytes wx, (((wb_bytes wx).length : Nat) : Int)) ∧
    _luaseri_pack ys = .ok (wb_bytes wy, (((wb_bytes wy).length : Nat) : Int)) ∧
    _luaseri_pack (xs ++ ys) =
      .ok (wb_bytes wx ++ wb_bytes wy,
        (((wb_bytes wx).length : Nat) : Int) + (((wb_bytes wy).length : Nat) : Int)) ∧
    (∃ Es : List (List Nat),
      List.Forall₂ (fun v e => packed (MAX_DEPTH.toNat + 2) v 0 = .ok e) (xs ++ ys) Es ∧
      wb_bytes wx ++ wb_bytes wy = Es.flatten ∧
      (((wb_bytes wx).length : Nat) : Int) + (((wb_bytes wy).length : Nat) : Int) =
        (((Es.map List.length).sum : Nat) : Int)) := by
  have ex := pack_from_encode_all xs wx hx
  have ey := pack_from_encode_all ys wy hy
  have exy : encode_all (xs ++ ys) = .ok (wb_bytes wx ++ wb_bytes wy) := by
    rw [encode_all_append, ex, ey]
  have hp := luaseri_pack_eq (xs ++ ys)
  rw [exy] at hp
  have hp' := hp (by simp only [List.length_append]; omega)
  refine ⟨luaseri_pack_of_pack_from xs wx hx (by omega),
    luaseri_pack_of_pack_from ys wy hy (by omega), ?_, ?_⟩
  · rw [hp']
    simp only [List.length_append]
    push_cast
    rfl
  · obtain ⟨Es, hEs, hE⟩ := encode_all_spec (xs ++ ys) _ exy
    refine ⟨Es, forall2_packed _ 0 _ Es hEs, hE, ?_⟩
    have := congrArg List.length hE
    rw [List.length_append, length_flatten_sum] at this
    omega

/-- C14, witness: `(true, "hi")` followed by `(42)` is packed as the four
bytes of the first sequence followed by the two bytes of the second. -/
theorem C14_pack_concatenation_witness :
    _luaseri_pack ([Value.boolean true, .string [104, 105]] ++
        [Value.number 4631107791820423168]) =
      .ok ([9, 20, 104, 105] ++ [10, 42], 4 + 2) ∧
    _luaseri_pack [Value.boolean true, .string [104, 105]] = .ok ([9, 20, 104, 105], 4) ∧
    _luaseri_pack [Value.number 4631107791820423168] = .ok ([10, 42], 2) :=
  ⟨(C14_pack_concatenation [Value.boolean true, .string [104, 105]]
      [Value.number 4631107791820423168]
      { full := [], current := [9, 20, 104, 105], len := 4, ptr := 4 }
      { full := [], current := [10, 42], len := 2, ptr := 2 } rfl rfl (by decide)).2.2.1,
    rfl, rfl⟩

/-! ## Values the packer refuses -/

theorem forall2_left {α β : Type} (R : α → β → Prop) :
    ∀ (l1 : List α) (l2 : List β), List.Forall₂ R l1 l2 → ∀ a ∈ l1, ∃ b, R a b := by
  intro l1 l2 h
  induction h with
  | nil => intro a ha; cases ha
  | @cons a b l1 l2 hab _ ih =>
    intro x hx
    rcases List.mem_cons.mp hx with rfl | hx
    · exact ⟨b, hab⟩
    · exact ih x hx

theorem hash_skip_unsupported (k : Value) (s : Int) (h : Unsupported k) :
    hash_skip k s = false := by
  cases h <;> rfl

/-- A value in which an unsupported value occurs is never packed. -/
theorem encode_unsupported : ∀ (f : Nat) (v : Value) (d : Int) (E : List Nat),
    Unsupported v → encode f v d ≠ .ok E := by
  intro f
  induction f with
  | zero => intro v d E _ h; simp [encode] at h
  | succ f ih =>
    intro v d E hU he
    cases hU with
    | other t =>
      unfold encode at he
      split at he <;> cases he
    | elem arr hash hlen v hv h =>
      obtain ⟨Es, es, hEs, _, _⟩ := encode_table_layout f arr hash d E hlen he
      obtain ⟨e, hve⟩ := forall2_left _ arr Es hEs v hv
      exact ih v (d + 1) e h hve
    | key arr hash hlen kv hkv h =>
      obtain ⟨Es, es, _, hes, _⟩ := encode_table_layout f arr hash d E hlen he
      have hsk := hash_skip_unsupported kv.1 ((arr.length : Nat) : Int) h
      obtain ⟨e, hke⟩ := forall2_left _ _ es hes kv
        (List.mem_filter.mpr ⟨hkv, by simp [hsk]⟩)
      exact ih kv.1 (d + 1) e.1 h hke.1
    | val arr hash hlen kv hkv hsk h =>
      obtain ⟨Es, es, _, hes, _⟩ := encode_table_layout f arr hash d E hlen he
      obtain ⟨e, hke⟩ := forall2_left _ _ es hes kv
        (List.mem_filter.mpr ⟨hkv, by simp [hsk]⟩)
      exact ih kv.2 (d + 1) e.2 h hke.2

theorem enc_array_loop_error (enc : Value → Int → Except Err (List Nat))
    (arr : List Value) (s depth : Int) (e : Err) :
    ∀ n, enc_array_loop enc arr s depth n = .error e →
      ∃ v, (v ∈ arr ∨ v = .nil) ∧ enc v depth = .error e := by
  intro n
  induction n with
  | zero => intro h; simp [enc_array_loop] at h
  | succ n ih =>
    intro h
    simp only [enc_array_loop] at h
    cases hv : enc (lua_rawgeti arr (s - n)) depth with
    | error e' =>
      rw [hv] at h
      simp only [Except.error.injEq] at h
      subst h
      refine ⟨_, ?_, hv⟩
      unfold lua_rawgeti
      split
      · rw [List.getD_eq_getElem?_getD]
        cases hg : arr[(s - ↑n - 1).toNat]? with
        | none => right; rfl
        | some a => left; exact List.getElem?_mem hg
      · right; rfl
    | ok E =>
      rw [hv] at h
      simp only at h
      cases hr : enc_array_loop enc arr s depth n with
      | error e' =>
        rw [hr] at h
        simp only [Except.error.injEq] at h
        subst h
        exact ih hr
      | ok R => rw [hr] at h; cases h

theorem enc_hash_loop_error (enc : Value → Int → Except Err (List Nat))
    (depth s : Int) (e : Err) :
    ∀ l, enc_hash_loop enc depth s l = .error e →
      ∃ kv ∈ l, enc kv.1 depth = .error e ∨ enc kv.2 depth = .error e := by
  intro l
  induction l with
  | nil => intro h; simp [enc_hash_loop] at h
  | cons kv l ih =>
    intro h
    obtain ⟨k, v⟩ := kv
    simp only [enc_hash_loop] at h
    split at h
    · obtain ⟨kv, hkv, hh⟩ := ih h
      exact ⟨kv, by simp [hkv], hh⟩
    · cases hk : enc k depth with
      | error e' =>
        rw [hk] at h
        simp only [Except.error.injEq] at h
        subst h
        exact ⟨(k, v), by simp, Or.inl hk⟩
      | ok K =>
        rw [hk] at h
        simp only at h
        cases hv : enc v depth with
        | error e' =>
          rw [hv] at h
          simp only [Except.error.injEq] at h
          subst h
          exact ⟨(k, v), by simp, Or.inr hv⟩
        | ok V =>
          rw [hv] at h
          simp only at h
          cases hr : enc_hash_loop enc depth s l with
          | error e' =>
            rw [hr] at h
            simp only [Except.error.injEq] at h
            subst h
            obtain ⟨kv, hkv, hh⟩ := ih hr
            exact ⟨kv, by simp [hkv], hh⟩
          | ok R => rw [hr] at h; cases h

theorem lua_next_mem (arr : List Value) (hash : List (Value × Value)) (kv : Value × Value)
    (h : kv ∈ lua_next arr hash) :
    kv ∈ hash ∨ ((∃ n, kv.1 = .number n) ∧ (kv.2 ∈ arr ∨ kv.2 = .nil)) := by
  simp only [lua_next, List.mem_append, List.mem_filter, List.mem_map, List.mem_range] at h
  rcases h with ⟨⟨i, hi, rfl⟩, _⟩ | h
  · right
    refine ⟨⟨_, rfl⟩, ?_⟩
    simp only
    rw [List.getD_eq_getElem?_getD]
    cases hg : arr[i]? with
    | none => right; rfl
    | some a => left; exact List.getElem?_mem hg
  · exact Or.inl h

/-- The member of a table whose error is the error of the table. -/
theorem enc_table_error (enc : Value → Int → Except Err (List Nat))
    (arr : List Value) (hash : List (Value × Value)) (depth : Int) (e : Err)
    (h : enc_table enc arr hash depth = .error e) :
    ∃ v, enc v depth = .error e ∧
      (v ∈ arr ∨ (∃ kv ∈ hash, v = kv.1 ∨ v = kv.2) ∨ v = .nil ∨ ∃ n, v = .number n) := by
  simp only [enc_table] at h
  cases hA : enc_array_loop enc arr (wrap32 (lua_rawlen arr : Nat)) depth
      (wrap32 (lua_rawlen arr : Nat)).toNat with
  | error e' =>
    rw [hA] at h
    simp only [Except.error.injEq] at h
    subst h
    obtain ⟨v, hv, hve⟩ := enc_array_loop_error enc arr _ depth _ _ hA
    rcases hv with hv | hv
    · exact ⟨v, hve, Or.inl hv⟩
    · exact ⟨v, hve, Or.inr (Or.inr (Or.inl hv))⟩
  | ok A =>
    rw [hA] at h
    simp only at h
    cases hH : enc_hash_loop enc depth (wrap32 (lua_rawlen arr : Nat)) (lua_next arr hash) with
    | error e' =>
      rw [hH] at h
      simp only [Except.error.injEq] at h
      subst h
      obtain ⟨kv, hkv, hh⟩ := enc_hash_loop_error enc depth _ _ _ hH
      rcases lua_next_mem arr hash kv hkv with hm | ⟨⟨n, hn⟩, hm⟩
      · rcases hh with hh | hh
        · exact ⟨kv.1, hh, Or.inr (Or.inl ⟨kv, hm, Or.inl rfl⟩)⟩
        · exact ⟨kv.2, hh, Or.inr (Or.inl ⟨kv, hm, Or.inr rfl⟩)⟩
      · rcases hh with hh | hh
        · exact ⟨kv.1, hh, Or.inr (Or.inr (Or.inr ⟨n, hn⟩))⟩
        · rcases hm with hm | hm
          · exact ⟨kv.2, hh, Or.inl hm⟩
          · exact ⟨kv.2, hh, Or.inr (Or.inr (Or.inl hm))⟩
    | ok H => rw [hH] at h; cases h
/-- The errors of the packer: below the bound `MAX_DEPTH + 2` on the recursion,
`encode` raises the depth error or the unsupported-type error, nothing else. -/
theorem encode_error_kind : ∀ (f : Nat) (v : Value) (d : Nat) (e : Err),
    34 ≤ f + d → d ≤ 33 → encode f v (d : Int) = .error e →
    e = .too_depth ∨ ∃ t, e = .unsupport_type t := by
  intro f
  induction f with
  | zero => intro v d e h1 h2 _; omega
  | succ f ih =>
    intro v d e h1 h2 he
    by_cases hd : ((d : Nat) : Int) > MAX_DEPTH
    · rw [encode_too_deep f v _ hd] at he
      cases he
      exact Or.inl rfl
    · cases v with
      | table arr hash =>
        rw [encode_table f arr hash _ hd] at he
        obtain ⟨v', hv', _⟩ := enc_table_error (encode f) arr hash _ e he
        have hcast : ((d : Nat) : Int) + 1 = ((d + 1 : Nat) : Int) := by push_cast; rfl
        rw [hcast] at hv'
        simp only [MAX_DEPTH] at hd
        exact ih v' (d + 1) e (by omega) (by omega) hv'
      | other t =>
        unfold encode at he
        rw [if_neg hd] at he
        cases he
        exact Or.inr ⟨t, rfl⟩
      | nil => unfold encode at he; rw [if_neg hd] at he; cases he
      | boolean b => unfold encode at he; rw [if_neg hd] at he; cases he
      | number n =>
        unfold encode at he; rw [if_neg hd] at he
        simp only at he
        split at he <;> cases he
      | string s => unfold encode at he; rw [if_neg hd] at he; cases he
      | lightuserdata p => unfold encode at he; rw [if_neg hd] at he; cases he

/-- A value whose tables are nested at most `k` deep is packed at depth `d`
without the depth error when `d + k <= 32`. -/
theorem encode_within : ∀ (f : Nat) (k : Nat) (v : Value) (d : Nat),
    Within k v → d + k ≤ 32 → encode f v (d : Int) ≠ .error .too_depth := by
  intro f
  induction f with
  | zero => intro k v d _ _ h; simp [encode] at h
  | succ f ih =>
    intro k v d hw hk he
    have hd : ¬ ((d : Nat) : Int) > MAX_DEPTH := by simp only [MAX_DEPTH]; omega
    cases hw with
    | table k arr hash harr hkey hval =>
      rw [encode_table f arr hash _ hd] at he
      obtain ⟨v', hv', hm⟩ := enc_table_error (encode f) arr hash _ _ he
      have hcast : ((d : Nat) : Int) + 1 = ((d + 1 : Nat) : Int) := by push_cast; rfl
      rw [hcast] at hv'
      have hw' : Within k v' := by
        rcases hm with hm | ⟨kv, hkv, rfl | rfl⟩ | rfl | ⟨n, rfl⟩
        · exact harr v' hm
        · exact hkey kv hkv
        · exact hval kv hkv
        · exact Within.nil k
        · exact Within.number k n
      exact ih k v' (d + 1) hw' (by omega) hv'
    | other k t => unfold encode at he; rw [if_neg hd] at he; cases he
    | nil k => unfold encode at he; rw [if_neg hd] at he; cases he
    | boolean k b => unfold encode at he; rw [if_neg hd] at he; cases he
    | number k n =>
      unfold encode at he; rw [if_neg hd] at he
      simp only at he
      split at he <;> cases he
    | string k s => unfold encode at he; rw [if_neg hd] at he; cases he
    | lightuserdata k p => unfold encode at he; rw [if_neg hd] at he; cases he

theorem encode_all_error : ∀ (vs : List Value) (e : Err), encode_all vs = .error e →
    ∃ v ∈ vs, encode (MAX_DEPTH.toNat + 2) v 0 = .error e := by
  intro vs
  induction vs with
  | nil => intro e h; simp [encode_all] at h
  | cons v vs ih =>
    intro e h
    rw [encode_all_cons] at h
    cases hv : encode (MAX_DEPTH.toNat + 2) v 0 with
    | error e' =>
      rw [hv] at h
      simp only [Except.error.injEq] at h
      subst h
      exact ⟨v, by simp, hv⟩
    | ok E =>
      rw [hv] at h
      simp only at h
      cases hr : encode_all vs with
      | error e' =>
        rw [hr] at h
        simp only [Except.error.injEq] at h
        subst h
        obtain ⟨x, hx, hxe⟩ := ih _ hr
        exact ⟨x, by simp [hx], hxe⟩
      | ok R => rw [hr] at h; cases h

/-- A leaf under more tables than the depth limit allows is not packed,
whatever the leaf is. -/
theorem encode_nested_deep (leaf : Value) :
    ∀ (k d f : Nat), 34 ≤ f + d → d ≤ 33 → 32 < d + k →
      encode f (nested_in k leaf) (d : Int) = .error .too_depth := by
  intro k
  induction k with
  | zero =>
    intro d f hf hd hk
    obtain ⟨f, rfl⟩ : ∃ n, f = n + 1 := ⟨f - 1, by omega⟩
    exact encode_too_deep f _ _ (by simp only [MAX_DEPTH]; omega)
  | succ k ih =>
    intro d f hf hd hk
    obtain ⟨f, rfl⟩ : ∃ n, f = n + 1 := ⟨f - 1, by omega⟩
    by_cases h : d ≤ 32
    · have hle : ¬ (((d : Nat) : Int) > MAX_DEPTH) := by simp only [MAX_DEPTH]; omega
      have hcast : ((d : Nat) : Int) + 1 = ((d + 1 : Nat) : Int) := by push_cast; rfl
      rw [nested_in, encode_table f _ _ _ hle, enc_table_single, hcast,
        ih (d + 1) f (by omega) (by omega) (by omega)]
    · exact encode_too_deep f _ _ (by simp only [MAX_DEPTH]; omega)

/-- C16 (as amended): for every sequence of values in which a value of a type
outside the model occurs at the top level or inside a table, as an element, a
map key or a map value that is emitted, `pack` fails and returns no buffer.
The error is the unsupported-type error or the depth error, and it is the
unsupported-type error when no table of the sequence is nested deeper than
the depth limit. -/
theorem C16_unsupported_values (vs : List Value) (v : Value) (hv : v ∈ vs)
    (hu : Unsupported v) :
    (∃ e, _luaseri_pack vs = .error e ∧ (e = .too_depth ∨ ∃ t, e = .unsupport_type t)) ∧
    ((∀ x ∈ vs, Within 32 x) → ∃ t, _luaseri_pack vs = .error (.unsupport_type t)) := by
  have hp := luaseri_pack_eq vs
  cases he : encode_all vs with
  | ok E =>
    exfalso
    obtain ⟨Es, hEs, _⟩ := encode_all_spec vs E he
    obtain ⟨e, hve⟩ := forall2_left _ vs Es hEs v hv
    exact encode_unsupported _ v 0 e hu hve
  | error e =>
    rw [he] at hp
    simp only at hp
    obtain ⟨x, hx, hxe⟩ := encode_all_error vs e he
    have h34 : encode (MAX_DEPTH.toNat + 2) x 0 = encode 34 x ((0 : Nat) : Int) := rfl
    rw [h34] at hxe
    have hk := encode_error_kind 34 x 0 e (by omega) (by omega) hxe
    refine ⟨⟨e, hp, hk⟩, ?_⟩
    intro hw
    rcases hk with rfl | ⟨t, rfl⟩
    · exact absurd hxe (encode_within 34 32 x 0 (hw x hx) (by omega))
    · exact ⟨t, hp⟩

/-- C16, witness: `(true, f)` with `f` a function (Lua type 6) is refused with
the unsupported-type error, and so is a table that holds `f`. -/
theorem C16_unsupported_values_witness :
    (∃ t, _luaseri_pack [.boolean true, .other 6] = .error (.unsupport_type t)) ∧
    _luaseri_pack [.boolean true, .other 6] = .error (.unsupport_type 6) ∧
    _luaseri_pack [.table [.other 6] []] = .error (.unsupport_type 6) :=
  ⟨(C16_unsupported_values [.boolean true, .other 6] (.other 6) (by simp)
      (Unsupported.other 6)).2
      (by
        intro x hx
        simp only [List.mem_cons, List.mem_singleton, List.not_mem_nil, or_false] at hx
        rcases hx with rfl | rfl
        · exact Within.boolean 32 true
        · exact Within.other 32 6),
    rfl, rfl⟩

theorem unsupported_nested (leaf : Value) (h : Unsupported leaf) :
    ∀ k, Unsupported (nested_in k leaf) := by
  intro k
  induction k with
  | zero => exact h
  | succ k ih =>
    exact Unsupported.elem _ _ (by rw [List.length_singleton]; decide) _
      (List.mem_singleton.mpr rfl) ih

/-- C16, counterexample: a function inside 33 tables nested in one another is
refused with the depth error, not with the unsupported-type error. -/
theorem C16_unsupported_deep_counterexample :
    Unsupported (nested_in 33 (.other 6)) ∧
    _luaseri_pack [nested_in 33 (.other 6)] = .error .too_depth ∧
    ¬ ∃ t, _luaseri_pack [nested_in 33 (.other 6)] = .error (.unsupport_type t) := by
  have h : _luaseri_pack [nested_in 33 (.other 6)] = .error .too_depth := by
    have hp := luaseri_pack_eq [nested_in 33 (.other 6)]
    have he : encode_all [nested_in 33 (.other 6)] = .error .too_depth := by
      have h34 : encode (MAX_DEPTH.toNat + 2) (nested_in 33 (.other 6)) 0 =
          encode 34 (nested_in 33 (.other 6)) ((0 : Nat) : Int) := rfl
      rw [encode_all_cons, h34, encode_nested_deep (.other 6) 33 0 34 (by omega) (by omega)
        (by omega)]
    rw [he] at hp
    exact hp
  refine ⟨unsupported_nested _ (Unsupported.other 6) 33, h, ?_⟩
  rintro ⟨t, ht⟩
  rw [h] at ht
  cases ht

/-! ## Unpacking the encoding of any value of the host -/

theorem exact_sized (v : Value) (h : Exact v) : Sized v := by
  induction h with
  | nil => exact Sized.nil
  | boolean b => exact Sized.boolean b
  | number n hn hz => exact Sized.number n hn
  | string s hs => exact Sized.string s hs
  | lightuserdata p hp => exact Sized.lightuserdata p hp
  | table arr hash hlen harr hkey hval hnk hskip iha ihk ihv =>
    exact Sized.table arr hash hlen iha ihk ihv hnk

end LuaSeri
